import Mathlib

/-!
# gosown/scan: decoding a dynamic key-value mapping into a tagged structure

A shallow embedding of `scan.go` and `struct.go`.

* Go types (`reflect.Type`) are finite trees `Ty`; a structure type lists its
  fields in declaration order.  Self-referential shapes are outside the model
  (the source carries a TODO for them and the walk would not return).
* Go values reachable from a destination are trees `Val`; a pointer owns its
  target (`none` is the nil pointer), so aliasing between fields is not modelled.
* Go maps are functions into `Option`; the enumeration order of the source
  mapping is the order of the entry list handed to `ScanStruct`.
* A panic is the `Except.error` side of `Except Panic`; an `error` return value
  is an `Option Err`.
-/

namespace Scan

/-! ## Types of the host language -/

/-- Signed integer kinds of `reflect.Kind`. -/
inductive IntKind where
  | Int | Int8 | Int16 | Int32 | Int64
deriving DecidableEq, Repr

/-- Unsigned integer kinds of `reflect.Kind` matched by the conversions. -/
inductive UintKind where
  | Uint | Uint8 | Uint16 | Uint32 | Uint64
deriving DecidableEq, Repr

/-- Floating point kinds of `reflect.Kind`. -/
inductive FloatKind where
  | Float32 | Float64
deriving DecidableEq, Repr

/-- The result of `Type.Bits()` on a signed kind (`int` is 64 bits wide). -/
def IntKind.Bits : IntKind → Nat
  | .Int => 64
  | .Int8 => 8
  | .Int16 => 16
  | .Int32 => 32
  | .Int64 => 64

/-- The result of `Type.Bits()` on an unsigned kind (`uint` is 64 bits wide). -/
def UintKind.Bits : UintKind → Nat
  | .Uint => 64
  | .Uint8 => 8
  | .Uint16 => 16
  | .Uint32 => 32
  | .Uint64 => 64

/-- The result of `Type.Bits()` on a floating point kind. -/
def FloatKind.Bits : FloatKind → Nat
  | .Float32 => 32
  | .Float64 => 64

/-- A Go string or byte slice content: a sequence of bytes. -/
abbrev GoString := List UInt8

/-- The bytes of an ASCII literal, used to write test inputs. -/
def ascii (s : String) : GoString := s.data.map (fun c => UInt8.ofNat c.toNat)

/-- A struct tag in its conventional form: the key/value pairs in order. -/
abbrev StructTag := List (String × String)

/-- The value of `StructTag.Get(key)`: the value of the first pair with that
key, the empty string when there is none. -/
def StructTag.Get (tag : StructTag) (key : String) : String :=
  (tag.lookup key).getD ""

mutual
/-- A Go type as seen through `reflect.Type`.  The `scan` component of a
defined type is `some id` when the pointer to that type has a `Scan` method,
so that it implements `Scanner`; `id` selects the method in the `Host`.
The pointer to a pointer type or to an interface type has no methods, so these
two carry no such component. -/
inductive Ty where
  | int (k : IntKind) (scan : Option Nat)
  | uint (k : UintKind) (scan : Option Nat)
  | float (k : FloatKind) (scan : Option Nat)
  | bool (scan : Option Nat)
  | string (scan : Option Nat)
  | slice (elem : Ty) (scan : Option Nat)
  | struct (name : String) (fields : List StructField) (scan : Option Nat)
  | other (scan : Option Nat)
  | iface
  | ptr (elem : Ty)
/-- A field declaration, `reflect.StructField`: `PkgPath` is empty exactly for
an exported field, `Anonymous` marks an embedded field. -/
inductive StructField where
  | mk (Name : String) (PkgPath : String) (Anonymous : Bool) (Tag : StructTag) (Typ : Ty)
end

/-- Name of a field declaration. -/
def StructField.Name : StructField → String
  | .mk n _ _ _ _ => n

/-- Package path of a field declaration, empty for an exported field. -/
def StructField.PkgPath : StructField → String
  | .mk _ p _ _ _ => p

/-- Whether the field is embedded. -/
def StructField.Anonymous : StructField → Bool
  | .mk _ _ a _ _ => a

/-- The struct tag of a field declaration. -/
def StructField.Tag : StructField → StructTag
  | .mk _ _ _ t _ => t

/-- The declared type of a field. -/
def StructField.Typ : StructField → Ty
  | .mk _ _ _ _ t => t

/-- The `reflect.Kind` of a type, as far as the source distinguishes kinds. -/
inductive Kind where
  | Int (k : IntKind)
  | Uint (k : UintKind)
  | Float (k : FloatKind)
  | Bool | String | Slice | Struct | Other | Interface | Ptr
deriving DecidableEq, Repr

/-- The kind of a type, `Type.Kind()`. -/
def Ty.Kind : Ty → Kind
  | .int k _ => .Int k
  | .uint k _ => .Uint k
  | .float k _ => .Float k
  | .bool _ => .Bool
  | .string _ => .String
  | .slice _ _ => .Slice
  | .struct _ _ _ => .Struct
  | .other _ => .Other
  | .iface => .Interface
  | .ptr _ => .Ptr

/-- The `Scan` method carried by the pointer to a type, if any. -/
def Ty.scanner : Ty → Option Nat
  | .int _ s => s
  | .uint _ s => s
  | .float _ s => s
  | .bool s => s
  | .string s => s
  | .slice _ s => s
  | .struct _ _ s => s
  | .other s => s
  | .iface => none
  | .ptr _ => none

/-! ## Compiled descriptors -/

/-- The descriptor of one resolvable name, `fieldSpec`. -/
structure fieldSpec where
  name : String
  index : List Nat
  omitEmpty : Bool
deriving DecidableEq, Repr

/-- The compiled descriptor of a type, `structSpec`: the name map `m` and the
ordered list `l`. -/
structure structSpec where
  m : String → Option fieldSpec
  l : List fieldSpec

/-- The empty descriptor built by `structSpecForType` before compilation. -/
def structSpec.empty : structSpec := ⟨fun _ => none, []⟩

/-- Method `(ss *structSpec) fieldSpec(name)`. -/
def structSpec.fieldSpec (ss : structSpec) (name : String) : Option fieldSpec :=
  ss.m name

/-- The `depth` map of `compileStructSpec`: shallowest depth seen per name. -/
abbrev DepthMap := String → Option Nat

/-- Reasons for which the program panics. -/
inductive Panic where
  | unknownFieldTag (p : String) (typeName : String)
  | notStruct
  | fieldIndex
  | nilEmbedded
  | zeroValue
  | unexportedField
deriving DecidableEq, Repr

/-! ## Tag parsing in `compileStructSpec` -/

/-- The segments `p` visited by the loop `for len(tag) > 0` that cuts the tag
at each comma found by `strings.IndexByte`: a tag that ends in a comma has no
segment after it, the empty tag has none at all. -/
def tagSegments : List Char → List (List Char)
  | [] => []
  | c :: cs =>
    if c = ',' then [] :: tagSegments cs
    else
      match tagSegments cs with
      | [] => [[c]]
      | s :: ss => (c :: s) :: ss

/-- One cut of the loop: `p, tag = tag[:i], tag[i+1:]` at the first comma, or
`p, tag = tag, ""` without one. -/
def cutComma : List Char → List Char × List Char
  | [] => ([], [])
  | c :: cs =>
    if c = ',' then ([], cs)
    else ((c :: (cutComma cs).1), (cutComma cs).2)

/-- What the tag loop decides for an ordinary field. -/
inductive TagResult where
  | skip
  | unknown (p : String)
  | field (name : String) (omitEmpty : Bool)
deriving DecidableEq, Repr

/-- The body of the tag loop run over the segments, with the loop variables
`fs.name`, `fs.omitEmpty` and `first`. -/
def tagLoop : List (List Char) → String → Bool → Bool → TagResult
  | [], name, omitEmpty, _ => .field name omitEmpty
  | p :: ps, name, omitEmpty, first =>
    if p = ['-'] then .skip
    else if first ∧ p.length > 0 then tagLoop ps (String.mk p) omitEmpty false
    else if p = "omitempty".data then tagLoop ps name true first
    else .unknown (String.mk p)

/-- Tag handling of an ordinary field: starts from the declared name and the
value of `f.Tag.Get("scan")`. -/
def parseTag (f : StructField) : TagResult :=
  tagLoop (tagSegments (f.Tag.Get "scan").data) f.Name false true

/-! ## `compileStructSpec` -/

/-- The resolution step at lines 261-284 for a field named `name` found at
position `i` under the path `index`. -/
def resolveName (depth : DepthMap) (ss : structSpec) (name : String) (omitEmpty : Bool)
    (index : List Nat) (i : Nat) : DepthMap × structSpec :=
  let d := (depth name).getD (2 ^ 30)
  if index.length = d then
    (depth,
      { m := fun k => if k = name then none else ss.m k,
        l := ss.l.filter (fun e => decide (name ≠ e.name)) })
  else if index.length < d then
    let fs : fieldSpec := { name := name, index := index ++ [i], omitEmpty := omitEmpty }
    (fun k => if k = name then some index.length else depth k,
      { m := fun k => if k = name then some fs else ss.m k,
        l := ss.l ++ [fs] })
  else (depth, ss)

/-- The default case of the field switch: an exported, not embedded field. -/
def compileOrdinary (tname : String) (f : StructField) (i : Nat) (depth : DepthMap)
    (index : List Nat) (ss : structSpec) : Except Panic (DepthMap × structSpec) :=
  match parseTag f with
  | .skip => .ok (depth, ss)
  | .unknown p => .error (.unknownFieldTag p tname)
  | .field name omitEmpty => .ok (resolveName depth ss name omitEmpty index i)

mutual
/-- Function `compileStructSpec(t, depth, index, ss)`; the maps and the
descriptor it mutates are returned. -/
def compileStructSpec : Ty → DepthMap → List Nat → structSpec →
    Except Panic (DepthMap × structSpec)
  | .struct name fields _, depth, index, ss => compileFields name fields 0 depth index ss
  | _, _, _, _ => .error .notStruct
/-- The loop over the fields of `t`, from position `i` on. -/
def compileFields (tname : String) : List StructField → Nat → DepthMap → List Nat →
    structSpec → Except Panic (DepthMap × structSpec)
  | [], _, depth, _, ss => .ok (depth, ss)
  | f :: rest, i, depth, index, ss =>
    match compileField tname f i depth index ss with
    | .ok (depth1, ss1) => compileFields tname rest (i + 1) depth1 index ss1
    | .error e => .error e
/-- One iteration of the loop: the switch on the field `f := t.Field(i)`. -/
def compileField (tname : String) : StructField → Nat → DepthMap → List Nat →
    structSpec → Except Panic (DepthMap × structSpec)
  | .mk Name PkgPath Anonymous Tag Typ, i, depth, index, ss =>
    if PkgPath ≠ "" ∧ Anonymous = false then .ok (depth, ss)
    else if Anonymous then
      match Typ with
      | .struct n fs sc => compileStructSpec (.struct n fs sc) depth (index ++ [i]) ss
      | .ptr e =>
        match e with
        | .struct n fs sc => compileStructSpec (.struct n fs sc) depth (index ++ [i]) ss
        | _ => .ok (depth, ss)
      | _ => .ok (depth, ss)
    else compileOrdinary tname (.mk Name PkgPath Anonymous Tag Typ) i depth index ss
end

/-! ## The fields a type promotes -/

/-- An ordinary (exported, not embedded) field met by the walk of
`compileStructSpec`: the name of the enclosing type, the declaration, the path
`index` of the enclosing structure and the position `pos` in it.  Its
composition depth is `index.length` and its field path `index ++ [pos]`. -/
structure Promoted where
  typeName : String
  field : StructField
  index : List Nat
  pos : Nat

/-- The field path of a promoted field. -/
def Promoted.path (c : Promoted) : List Nat := c.index ++ [c.pos]

/-- The composition depth of a promoted field. -/
def Promoted.depth (c : Promoted) : Nat := c.index.length

mutual
/-- The ordinary fields of `t` and of the structures it embeds, in the order
of the depth-first walk, declaration order at each level. -/
def promoted : Ty → List Nat → List Promoted
  | .struct name fields _, index => promotedFields name fields 0 index
  | _, _ => []
/-- The ordinary fields met from position `i` of a field list on. -/
def promotedFields (tname : String) : List StructField → Nat → List Nat → List Promoted
  | [], _, _ => []
  | f :: rest, i, index =>
    promotedField tname f i index ++ promotedFields tname rest (i + 1) index
/-- The ordinary fields met at one field: itself, or those of the structure it
embeds (directly or through a pointer). -/
def promotedField (tname : String) : StructField → Nat → List Nat → List Promoted
  | .mk Name PkgPath Anonymous Tag Typ, i, index =>
    if PkgPath ≠ "" ∧ Anonymous = false then []
    else if Anonymous then
      match Typ with
      | .struct n fs sc => promoted (.struct n fs sc) (index ++ [i])
      | .ptr e =>
        match e with
        | .struct n fs sc => promoted (.struct n fs sc) (index ++ [i])
        | _ => []
      | _ => []
    else [⟨tname, .mk Name PkgPath Anonymous Tag Typ, index, i⟩]
end

/-- The default case of the field switch at a promoted field. -/
def stepPromoted (c : Promoted) (st : DepthMap × structSpec) :
    Except Panic (DepthMap × structSpec) :=
  compileOrdinary c.typeName c.field c.pos st.1 c.index st.2

/-- The default case run over a list of promoted fields, stopping at a panic. -/
def runSteps : List Promoted → DepthMap × structSpec → Except Panic (DepthMap × structSpec)
  | [], st => .ok st
  | c :: cs, st =>
    match stepPromoted c st with
    | .ok st1 => runSteps cs st1
    | .error e => .error e

/-- The external name a promoted field contributes, if it is not excluded and
its tag is well formed. -/
def Promoted.externalName (c : Promoted) : Option String :=
  match parseTag c.field with
  | .field x _ => some x
  | _ => none

/-- Whether the tag loop stopped at an unrecognised option. -/
def TagResult.isUnknown : TagResult → Bool
  | .unknown _ => true
  | _ => false

/-! ## Example shapes -/

/-- An exported ordinary field with the given `scan` tag. -/
def plainField (name tag : String) (t : Ty) : StructField :=
  .mk name "" false [("scan", tag)] t

/-- An exported embedded field without tag. -/
def embeddedField (name : String) (t : Ty) : StructField :=
  .mk name "" true [] t

/-- The type `int`. -/
def tyInt : Ty := .int .Int none

/-- `type Inner struct { X int "scan:x" }`. -/
def shapeInner : Ty := .struct "Inner" [plainField "X" "x" tyInt] none

/-- `type Other struct { Y int "scan:x" }`. -/
def shapeOther : Ty := .struct "Other" [plainField "Y" "x" tyInt] none

/-- A field named `x` at depth 0 declared between two embedded structures that
each have a field named `x`: `struct { Inner; Top int "scan:x"; *Other }`. -/
def shapeShadow : Ty :=
  .struct "Shadow"
    [embeddedField "Inner" shapeInner, plainField "Top" "x" tyInt,
      embeddedField "Other" (.ptr shapeOther)] none

/-- Two embedded structures that each have a field named `x`:
`struct { Inner; Other }`. -/
def shapeTie : Ty :=
  .struct "Tie" [embeddedField "Inner" shapeInner, embeddedField "Other" shapeOther] none

/-- The same tie below a field named `x` of the enclosing structure:
`struct { Top int "scan:x"; Inner; Other }`. -/
def shapeTieTop : Ty :=
  .struct "TieTop"
    [plainField "Top" "x" tyInt, embeddedField "Inner" shapeInner,
      embeddedField "Other" shapeOther] none

/-- The name map entry and the entries of the ordered list that a compiled
descriptor holds for the name `x`; `none` when compilation panics. -/
def compiledFor (t : Ty) (x : String) : Option (Option fieldSpec × List fieldSpec) :=
  match compileStructSpec t (fun _ => none) [] structSpec.empty with
  | .ok (_, ss) => some (ss.m x, ss.l.filter (fun e => decide (e.name = x)))
  | .error _ => none

/-- The statement relating the walk of one type to the run over its promoted
fields. -/
def WalkAgrees (t : Ty) : Prop :=
  ∀ (depth : DepthMap) (index : List Nat) (ss : structSpec), t.Kind = .Struct →
    compileStructSpec t depth index ss = runSteps (promoted t index) (depth, ss)

/-! ## Values and sources -/

/-- A value held by a destination, `reflect.Value` as a tree: the target of a
pointer and the dynamic value of an interface are owned by it, `none` being
nil.  Floating point values are bit patterns the model does not interpret. -/
inductive Val where
  | int (v : Int)
  | uint (v : Nat)
  | float (v : Nat)
  | bool (b : Bool)
  | string (s : GoString)
  | bytes (b : Option GoString)
  | slice (xs : Option (List Val))
  | struct (fields : List Val)
  | other (v : Nat)
  | iface (dyn : Option (Ty × Val))
  | ptr (target : Option Val)

mutual
/-- A source value `interface{}`: the variants the conversions tell apart, a
nested `map[string]interface{}`, and any other dynamic type by its name. -/
inductive Dyn where
  | nil
  | text (s : GoString)
  | bytes (b : Option GoString)
  | int (s : Int)
  | error (s : GoString)
  | mapping (m : List Entry)
  | other (typeName : String)
/-- One key/value pair of a source mapping. -/
inductive Entry where
  | mk (key : String) (value : Dyn)
end

mutual
/-- The zero value of a type, `reflect.Zero(t)`. -/
def zero : Ty → Val
  | .int _ _ => .int 0
  | .uint _ _ => .uint 0
  | .float _ _ => .float 0
  | .bool _ => .bool false
  | .string _ => .string []
  | .slice e _ =>
    match e with
    | .uint .Uint8 _ => .bytes none
    | _ => .slice none
  | .struct _ fields _ => .struct (zeroFields fields)
  | .other _ => .other 0
  | .iface => .iface none
  | .ptr _ => .ptr none
/-- The zero values of the fields of a structure. -/
def zeroFields : List StructField → List Val
  | [] => []
  | .mk _ _ _ _ t :: rest => zero t :: zeroFields rest
end

/-- Whether a slice element type has kind `reflect.Uint8`. -/
def Ty.isUint8 : Ty → Bool
  | .uint .Uint8 _ => true
  | _ => false

/-! ## Errors -/

/-- The two errors a `*strconv.NumError` wraps: `strconv.ErrSyntax` and
`strconv.ErrRange`. -/
inductive NumErrKind where
  | malformed
  | outOfRange
deriving DecidableEq, Repr

/-- The `error` values the package returns. -/
inductive Err where
  | cannotConvert (sname : String)
  | ErrRange
  | NumError (fn : String) (e : NumErrKind)
  | scanner (msg : String)
  | errScanStructValue
  | assignField (name : String) (inner : Err)
deriving DecidableEq, Repr

/-- The error taxonomy of the specification. -/
inductive ErrorKind where
  | InvalidDestination
  | UnconvertibleType
  | MalformedScalar
  | OutOfRange
  | CustomScanError
deriving DecidableEq, Repr

/-- The taxonomy entry of an error; the wrapper added by `ScanStruct` keeps the
kind of the error it wraps. -/
def Err.kind : Err → ErrorKind
  | .cannotConvert _ => .UnconvertibleType
  | .ErrRange => .OutOfRange
  | .NumError _ _ => .MalformedScalar
  | .scanner _ => .CustomScanError
  | .errScanStructValue => .InvalidDestination
  | .assignField _ inner => inner.kind

/-- The source name `cannotConvert` prints for a source value. -/
def Dyn.sname : Dyn → String
  | .text _ => "simple string"
  | .error _ => "error"
  | .int _ => "integer"
  | .bytes _ => "bulk string"
  | .nil => "nil"
  | .mapping _ => "map[string]interface \x7b\x7d"
  | .other n => n

/-! ## `strconv` -/

/-- Conversion of an integer to `int64`, wrapping. -/
def toInt64 (x : Int) : Int := (x + 2 ^ 63) % 2 ^ 64 - 2 ^ 63

/-- The value a signed destination of `bits` bits holds after `SetInt(x)`. -/
def wrapInt (bits : Nat) (x : Int) : Int :=
  (x + 2 ^ (bits - 1)) % 2 ^ bits - 2 ^ (bits - 1)

/-- The value an unsigned destination of `bits` bits holds after `SetUint(x)`. -/
def wrapUint (bits : Nat) (x : Nat) : Nat := x % 2 ^ bits

/-- The constant `maxUint64/10 + 1` of `strconv.ParseUint` in base 10. -/
def parseCutoff : Nat := (2 ^ 64 - 1) / 10 + 1

/-- The function `lower(c)` of `strconv`: `c | ('x' - 'X')`. -/
def lowerByte (c : UInt8) : UInt8 := c ||| 32

/-- The digit loop of `strconv.ParseUint` in base 10 with the accumulator `n`
(a `uint64`) and the bound `maxVal`. -/
def parseUintLoop (maxVal : Nat) : List UInt8 → Nat → Nat × Option NumErrKind
  | [], n => (n, none)
  | c :: cs, n =>
    if 48 ≤ c.toNat ∧ c.toNat ≤ 57 then
      if n ≥ parseCutoff then (maxVal, some .outOfRange)
      else
        let n10 := (n * 10) % 2 ^ 64
        let n1 := (n10 + (c.toNat - 48)) % 2 ^ 64
        if n1 < n10 ∨ n1 > maxVal then (maxVal, some .outOfRange)
        else parseUintLoop maxVal cs n1
    else if 97 ≤ (lowerByte c).toNat ∧ (lowerByte c).toNat ≤ 122 then (0, some .malformed)
    else (0, some .malformed)

/-- Function `strconv.ParseUint(s, 10, bitSize)` for `0 < bitSize <= 64`.  In
the loop a letter yields a digit `d >= 10`, rejected by `d >= byte(base)`, and
any other byte is no digit: both return a syntax error. -/
def ParseUint (s : GoString) (bitSize : Nat) : Nat × Option NumErrKind :=
  if s = [] then (0, some .malformed)
  else parseUintLoop (2 ^ bitSize - 1) s 0

/-- The part of `strconv.ParseInt` after the call of `ParseUint` with result
`r`: a syntax error is passed on, the value is checked against the cutoff
`1 << (bitSize-1)` and negated for a minus sign. -/
def parseIntFinish (neg : Bool) (r : Nat × Option NumErrKind) (bitSize : Nat) :
    Int × Option NumErrKind :=
  if r.2 = some .malformed then (0, some .malformed)
  else
    let cutoff : Nat := 2 ^ (bitSize - 1)
    if neg = false ∧ r.1 ≥ cutoff then (((cutoff - 1 : Nat) : Int), some .outOfRange)
    else if neg = true ∧ r.1 > cutoff then (-(cutoff : Int), some .outOfRange)
    else
      let n := toInt64 r.1
      (if neg then toInt64 (-n) else n, none)

/-- Function `strconv.ParseInt(s, 10, bitSize)` for `0 < bitSize <= 64`: the
leading sign is picked off and the rest handed to `ParseUint`. -/
def ParseInt (s : GoString) (bitSize : Nat) : Int × Option NumErrKind :=
  match s with
  | [] => (0, some .malformed)
  | c :: cs =>
    parseIntFinish (decide (c = 45))
      (ParseUint (if c = 43 ∨ c = 45 then cs else c :: cs) bitSize) bitSize

/-- Function `strconv.ParseBool`. -/
def ParseBool (s : GoString) : Bool × Option NumErrKind :=
  if s ∈ [ascii "1", ascii "t", ascii "T", ascii "true", ascii "TRUE", ascii "True"] then
    (true, none)
  else if s ∈ [ascii "0", ascii "f", ascii "F", ascii "false", ascii "FALSE", ascii "False"] then
    (false, none)
  else (false, some .malformed)

/-! ## The conversions -/

/-- The parts of the host program the package calls into: `strconv.ParseFloat`
and the narrowing of `SetFloat`, neither interpreted here, and the `Scan`
methods of the destination types.  `Scan id target src tag` is the method `id`
run on a receiver pointing to `target`: the target afterwards and the error. -/
structure Host where
  ParseFloat : GoString → Nat → Nat × Option NumErrKind
  SetFloat : FloatKind → Nat → Nat
  Scan : Nat → Val → Dyn → StructTag → Val × Option String

/-- One call of a `Scan` method: the method, the target of the receiver when
called, and the two arguments. -/
structure ScanCall where
  id : Nat
  target : Val
  src : Dyn
  tag : StructTag

/-- What a conversion leaves behind: the destination afterwards, the returned
error, and the `Scan` calls it made, in order. -/
structure Outcome where
  val : Val
  err : Option Err
  calls : List ScanCall

/-- The call `sc.Scan(s, t.Tag)` on a receiver pointing to `target`. -/
def callScan (h : Host) (id : Nat) (target : Val) (s : Dyn) (tag : StructTag)
    (wrap : Val → Val) : Outcome :=
  { val := wrap (h.Scan id target s tag).1,
    err := (h.Scan id target s tag).2.map Err.scanner,
    calls := [⟨id, target, s, tag⟩] }

/-- The target of a pointer value once `d.Set(reflect.New(d.Type().Elem()))`
has replaced a nil pointer. -/
def allocated (elem : Ty) (v : Val) : Val :=
  match v with
  | .ptr (some target) => target
  | _ => zero elem

/-- Function `convertAssignNil`. -/
def convertAssignNil (t : Ty) (v : Val) : Val × Option Err :=
  match t with
  | .slice e sc => (zero (.slice e sc), none)
  | .iface => (zero .iface, none)
  | _ => (v, some (.cannotConvert "nil"))

/-- Function `convertAssignString`.  Below a nil pointer `d.Elem()` is the zero
`Value`, on which `d.Type()` panics. -/
def convertAssignString (h : Host) : Ty → Val → GoString → Except Panic (Val × Option Err)
  | .float k _, _, s =>
    .ok (.float (h.SetFloat k (h.ParseFloat s k.Bits).1),
      (h.ParseFloat s k.Bits).2.map (Err.NumError "ParseFloat"))
  | .int k _, _, s =>
    .ok (.int (wrapInt k.Bits (ParseInt s k.Bits).1),
      (ParseInt s k.Bits).2.map (Err.NumError "ParseInt"))
  | .uint k _, _, s =>
    .ok (.uint (wrapUint k.Bits (ParseUint s k.Bits).1),
      (ParseUint s k.Bits).2.map (Err.NumError "ParseUint"))
  | .bool _, _, s =>
    .ok (.bool (ParseBool s).1, (ParseBool s).2.map (Err.NumError "ParseBool"))
  | .string _, _, s => .ok (.string s, none)
  | .slice e _, v, s =>
    if e.isUint8 then .ok (.bytes (some s), none)
    else .ok (v, some (.cannotConvert "simple string"))
  | .ptr e, v, s =>
    match v with
    | .ptr (some target) =>
      match convertAssignString h e target s with
      | .ok (target1, err) => .ok (.ptr (some target1), err)
      | .error p => .error p
    | _ => .error .zeroValue
  | _, v, _ => .ok (v, some (.cannotConvert "simple string"))

/-- Lifts the result of `convertAssignString` to an outcome without calls. -/
def noCalls (r : Except Panic (Val × Option Err)) : Except Panic Outcome :=
  match r with
  | .ok (v, err) => .ok ⟨v, err, []⟩
  | .error p => .error p

/-- Function `convertAssignBulkString`; `d.CanInterface()` and `d.CanSet()`
hold for every field `ScanStruct` resolves.  The source `s` is `none` for a nil
byte slice. -/
def convertAssignBulkString (h : Host) (t : StructField) (ty : Ty) (v : Val)
    (s : Option GoString) : Except Panic Outcome :=
  match ty with
  | .slice e _ =>
    if e.isUint8 then .ok ⟨.bytes s, none, []⟩
    else .ok ⟨v, some (.cannotConvert "bulk string"), []⟩
  | .ptr e =>
    match s with
    | none => .ok ⟨.ptr none, none, []⟩
    | some b =>
      match e.scanner with
      | some id => .ok (callScan h id (allocated e v) (.bytes (some b)) t.Tag (fun x => .ptr (some x)))
      | none => noCalls (convertAssignString h (.ptr e) (.ptr (some (allocated e v))) b)
  | _ => noCalls (convertAssignString h ty v (s.getD []))

/-- Function `convertAssignInt` for an `int64` source `s`. -/
def convertAssignInt (ty : Ty) (v : Val) (s : Int) : Val × Option Err :=
  match ty with
  | .int k _ =>
    if wrapInt k.Bits s ≠ s then (.int (wrapInt k.Bits 0), some .ErrRange)
    else (.int (wrapInt k.Bits s), none)
  | .uint k _ =>
    if s < 0 then (v, some .ErrRange)
    else
      let x : Nat := (s % 2 ^ 64).toNat
      if wrapUint k.Bits x ≠ x then (.uint (wrapUint k.Bits 0), some .ErrRange)
      else (.uint (wrapUint k.Bits x), none)
  | .bool _ => (.bool (decide (s ≠ 0)), none)
  | _ => (v, some (.cannotConvert "integer"))

/-- Function `convertAssignError`. -/
def convertAssignError (ty : Ty) (v : Val) (s : GoString) : Val × Option Err :=
  match ty with
  | .string _ => (.string s, none)
  | .slice e _ =>
    if e.isUint8 then (.bytes (some s), none) else (v, some (.cannotConvert "error"))
  | _ => (v, some (.cannotConvert "error"))

/-- The type switch at the end of `convertAssignValue`. -/
def convertStructural (h : Host) (t : StructField) (ty : Ty) (v : Val) (s : Dyn) :
    Except Panic Outcome :=
  match s with
  | .nil => .ok ⟨(convertAssignNil ty v).1, (convertAssignNil ty v).2, []⟩
  | .bytes b => convertAssignBulkString h t ty v b
  | .int i => .ok ⟨(convertAssignInt ty v i).1, (convertAssignInt ty v i).2, []⟩
  | .text x => noCalls (convertAssignString h ty v x)
  | .error x => .ok ⟨(convertAssignError ty v x).1, (convertAssignError ty v x).2, []⟩
  | other => .ok ⟨v, some (.cannotConvert other.sname), []⟩

/-- Function `convertAssignValue(t, d, s)` for a destination `d` of type `ty`
holding `v`.  Every field `ScanStruct` resolves is addressable and reached
through exported or embedded fields only, so `d.CanAddr()` and
`CanInterface()` hold. -/
def convertAssignValue (h : Host) (t : StructField) (ty : Ty) (v : Val) (s : Dyn) :
    Except Panic Outcome :=
  match ty with
  | .ptr e =>
    match e.scanner with
    | some id => .ok (callScan h id (allocated e v) s t.Tag (fun x => .ptr (some x)))
    | none => convertStructural h t (.ptr e) (.ptr (some (allocated e v))) s
  | _ =>
    match ty.scanner with
    | some id => .ok (callScan h id v s t.Tag (fun x => x))
    | none => convertStructural h t ty v s

/-- A host without `Scan` methods of interest: every `Scan` leaves its target
alone and returns no error, every float fails to parse. -/
def plainHost : Host :=
  { ParseFloat := fun _ _ => (0, some .malformed),
    SetFloat := fun _ x => x,
    Scan := fun _ target _ _ => (target, none) }

/-- The range of a signed destination of `bits` bits. -/
def InIntRange (bits : Nat) (s : Int) : Prop :=
  -(2 : Int) ^ (bits - 1) ≤ s ∧ s ≤ (2 : Int) ^ (bits - 1) - 1

instance (bits : Nat) (s : Int) : Decidable (InIntRange bits s) := by
  unfold InIntRange
  exact inferInstance

/-- The range of an unsigned destination of `bits` bits. -/
def InUintRange (bits : Nat) (s : Int) : Prop :=
  0 ≤ s ∧ s < (2 : Int) ^ bits

instance (bits : Nat) (s : Int) : Decidable (InUintRange bits s) := by
  unfold InUintRange
  exact inferInstance

/-! ## Base-10 integer literals, as the specification words them -/

/-- Whether a byte is a decimal digit. -/
def isDigit (c : UInt8) : Bool := decide (48 ≤ c.toNat ∧ c.toNat ≤ 57)

/-- The number denoted by a sequence of decimal digits read after the number
`n`. -/
def digitsValue (ds : List UInt8) (n : Nat) : Nat :=
  ds.foldl (fun a c => 10 * a + (c.toNat - 48)) n

/-- The value of a base-10 integer literal: an optional sign followed by one
or more decimal digits; `none` for any other text. -/
def literalValue (s : GoString) : Option Int :=
  match s with
  | [] => none
  | c :: cs =>
    if c = 43 then
      if cs ≠ [] ∧ cs.all isDigit then some (digitsValue cs 0 : Nat) else none
    else if c = 45 then
      if cs ≠ [] ∧ cs.all isDigit then some (-((digitsValue cs 0 : Nat) : Int)) else none
    else if (c :: cs).all isDigit then some (digitsValue (c :: cs) 0 : Nat)
    else none

/-- The decimal rendering of a natural number. -/
def renderNat (n : Nat) : GoString :=
  if n = 0 then [48] else (Nat.digits 10 n).reverse.map (fun d => UInt8.ofNat (48 + d))

/-- The decimal rendering of an integer, with a minus sign when negative. -/
def renderInt (n : Int) : GoString :=
  if n < 0 then 45 :: renderNat n.natAbs else renderNat n.natAbs

/-- A defined string type whose pointer has the `Scan` method number 0. -/
def tyStamp : Ty := .string (some 0)

/-- A host whose `Scan` methods store a text source in their target and
refuse every other source, as `(*Time).Scan` does. -/
def textHost : Host :=
  { ParseFloat := fun _ _ => (0, some .malformed),
    SetFloat := fun _ x => x,
    Scan := fun _ target s _ =>
      match s with
      | .text x => (.string x, none)
      | _ => (target, some "expected string") }

/-- The destination afterwards and the kind of the returned error. -/
def Outcome.summary (o : Outcome) : Val × Option ErrorKind := (o.val, o.err.map Err.kind)

/-! ## The descriptor cache -/

mutual
/-- Identity of types, the equality of `reflect.Type` keys of the cache. -/
def Ty.beq : Ty → Ty → Bool
  | .int a s, .int b u => decide (a = b) && decide (s = u)
  | .uint a s, .uint b u => decide (a = b) && decide (s = u)
  | .float a s, .float b u => decide (a = b) && decide (s = u)
  | .bool s, .bool u => decide (s = u)
  | .string s, .string u => decide (s = u)
  | .slice a s, .slice b u => Ty.beq a b && decide (s = u)
  | .struct n fs s, .struct m gs u => decide (n = m) && fieldsBeq fs gs && decide (s = u)
  | .other s, .other u => decide (s = u)
  | .iface, .iface => true
  | .ptr a, .ptr b => Ty.beq a b
  | _, _ => false
/-- Identity of field lists. -/
def fieldsBeq : List StructField → List StructField → Bool
  | [], [] => true
  | f :: fs, g :: gs => StructField.beq f g && fieldsBeq fs gs
  | _, _ => false
/-- Identity of field declarations. -/
def StructField.beq : StructField → StructField → Bool
  | .mk n p a t ty, .mk n2 p2 a2 t2 ty2 =>
    decide (n = n2) && decide (p = p2) && decide (a = a2) && decide (t = t2) && Ty.beq ty ty2
end

/-- The map `structSpecCache`. -/
abbrev Cache := Ty → Option structSpec

/-- The empty cache the package starts with. -/
def Cache.empty : Cache := fun _ => none

/-- The assignment `structSpecCache[t] = ss`. -/
def Cache.store (c : Cache) (t : Ty) (ss : structSpec) : Cache :=
  fun u => if Ty.beq u t then some ss else c u

/-- Function `structSpecForType` run alone: the lookup under the read lock,
the second lookup under the write lock, then compilation and the store.  A
panic of `compileStructSpec` leaves the cache as it was. -/
def structSpecForType (c : Cache) (t : Ty) : Except Panic (structSpec × Cache) :=
  match c t with
  | some ss => .ok (ss, c)
  | none =>
    match c t with
    | some ss => .ok (ss, c)
    | none =>
      match compileStructSpec t (fun _ => none) [] structSpec.empty with
      | .ok (_, ss) => .ok (ss, c.store t ss)
      | .error p => .error p

/-! ## `ScanStruct` -/

/-- The declared fields of a structure type, none for any other type. -/
def Ty.fields : Ty → List StructField
  | .struct _ fields _ => fields
  | _ => []

/-- What `Value.FieldByIndex` and `Type.FieldByIndex` meet at one step: the
fields and values of the structure to index, and whether it was reached
through an embedded pointer.  A pointer to a structure is followed at every
step but the first and panics when nil; indexing anything but a structure
panics. -/
def enterStruct (inner : Bool) (ty : Ty) (v : Val) :
    Except Panic (List StructField × List Val × Bool) :=
  match ty, v with
  | .struct _ fields _, .struct vals => .ok (fields, vals, false)
  | .ptr (.struct _ fields _), .ptr (some (.struct vals)) =>
    if inner then .ok (fields, vals, true) else .error .notStruct
  | .ptr (.struct _ _ _), _ => if inner then .error .nilEmbedded else .error .notStruct
  | _, _ => .error .notStruct

/-- The value of the structure entered by `enterStruct` once its fields are
`vals`. -/
def leaveStruct (viaPtr : Bool) (vals : List Val) : Val :=
  if viaPtr then .ptr (some (.struct vals)) else .struct vals

/-- The call `convertAssignValue(d.Type().FieldByIndex(index),
d.FieldByIndex(index), s)` seen from the value `v` of type `ty` the index starts
at: the outcome carries `v` with the resolved field converted.  `f` is the
declaration of the field reached so far. -/
def assignAt (h : Host) (s : Dyn) : List Nat → Bool → StructField → Ty → Val →
    Except Panic Outcome
  | [], _, f, ty, v => convertAssignValue h f ty v s
  | x :: rest, inner, _, ty, v =>
    match enterStruct inner ty v with
    | .error p => .error p
    | .ok (fields, vals, viaPtr) =>
      match fields[x]?, vals[x]? with
      | some f1, some v1 =>
        match assignAt h s rest true f1 f1.Typ v1 with
        | .ok o => .ok ⟨leaveStruct viaPtr (vals.set x o.val), o.err, o.calls⟩
        | .error p => .error p
      | _, _ => .error .fieldIndex

/-- The state a run of `ScanStruct` leaves: the value of `dest` afterwards
(with everything it refers to), the returned error and the cache. -/
structure ScanResult where
  dest : Option (Ty × Val)
  err : Option Err
  cache : Cache

/-- The state of the loop of `ScanStruct`: the structure `d` being filled, the
error that ended the loop if any, and the cache. -/
structure LoopState where
  d : Val
  err : Option Err
  cache : Cache

/-- The head of `ScanStruct`, lines 311-319, around a loop body `body`: the
destination must be a non-nil pointer to a structure, whose descriptor is
fetched; the body then runs on the structure pointed to. -/
def scanInto (body : structSpec → Ty → Val → Cache → Except Panic LoopState)
    (dest : Option (Ty × Val)) (c : Cache) : Except Panic ScanResult :=
  match dest with
  | some (.ptr (.struct n fields sc), .ptr (some d)) =>
    match structSpecForType c (.struct n fields sc) with
    | .error p => .error p
    | .ok (ss, c1) =>
      match body ss (.struct n fields sc) d c1 with
      | .error p => .error p
      | .ok r => .ok ⟨some (.ptr (.struct n fields sc), .ptr (some r.d)), r.err, r.cache⟩
  | _ => .ok ⟨dest, some .errScanStructValue, c⟩

/-- The value `rvv.FieldByName(name).Interface()` hands to the nested call for
a field of declared type `ty` holding `v`: the dynamic value of an interface,
the typed value otherwise. -/
def fieldInterface (ty : Ty) (v : Val) : Option (Ty × Val) :=
  match ty, v with
  | .iface, .iface dyn => dyn
  | _, _ => some (ty, v)

/-- The field value after the nested call returned with `dest` as `r`. -/
def fieldWriteBack (ty : Ty) (v : Val) (r : Option (Ty × Val)) : Val :=
  match ty, v with
  | .iface, .iface _ => .iface r
  | _, _ =>
    match r with
    | some (_, v1) => v1
    | none => v

/-- The inner loop of lines 325-333 over the fields `remaining` of a structure
whose fields are `all` and whose values are `vals`: each field whose `scan` tag
is the key `k` is looked up again by name and handed to `decode`, the nested
`ScanStruct`, whose returned error is dropped.  `Interface()` panics on an
unexported field. -/
def scanNested (decode : Option (Ty × Val) → Cache → Except Panic ScanResult)
    (all : List StructField) (k : String) :
    List StructField → List Val → Cache → Except Panic (List Val × Cache)
  | [], vals, c => .ok (vals, c)
  | f :: remaining, vals, c =>
    if f.Tag.Get "scan" = k then
      match all[all.findIdx (fun g => decide (g.Name = f.Name))]?,
        vals[all.findIdx (fun g => decide (g.Name = f.Name))]? with
      | some fj, some vj =>
        if fj.PkgPath ≠ "" then .error .unexportedField
        else
          match decode (fieldInterface fj.Typ vj) c with
          | .error p => .error p
          | .ok r =>
            scanNested decode all k remaining
              (vals.set (all.findIdx (fun g => decide (g.Name = f.Name)))
                (fieldWriteBack fj.Typ vj r.dest))
              r.cache
      | _, _ => .error .fieldIndex
    else scanNested decode all k remaining vals c

mutual
/-- The loop `for k, v := range src` of `ScanStruct` over the entries still to
visit, in the order the map yields them. -/
def scanEntries (h : Host) (ss : structSpec) (t : Ty) :
    List Entry → Val → Cache → Except Panic LoopState
  | [], d, c => .ok ⟨d, none, c⟩
  | e :: rest, d, c =>
    match scanEntry h ss t e d c with
    | .error p => .error p
    | .ok r =>
      match r.err with
      | some _ => .ok r
      | none => scanEntries h ss t rest r.d r.cache
/-- One iteration of the loop, for the pair `k, v`. -/
def scanEntry (h : Host) (ss : structSpec) (t : Ty) :
    Entry → Val → Cache → Except Panic LoopState
  | .mk k v, d, c => scanValue h ss t v k d c
/-- The body of the loop by the dynamic type of `v`: a nested mapping is
decoded into the fields tagged `k`, any other value converted into the field
the descriptor resolves `k` to. -/
def scanValue (h : Host) (ss : structSpec) (t : Ty) :
    Dyn → String → Val → Cache → Except Panic LoopState
  | .mapping vv, k, d, c =>
    match d with
    | .struct vals =>
      match scanNested
          (fun dest c1 => scanInto (fun ss1 t1 d1 c2 => scanEntries h ss1 t1 vv d1 c2) dest c1)
          t.fields k t.fields vals c with
      | .error p => .error p
      | .ok (vals1, c1) => .ok ⟨.struct vals1, none, c1⟩
    | _ => .error .notStruct
  | v, k, d, c =>
    match ss.fieldSpec k with
    | none => .ok ⟨d, none, c⟩
    | some fs =>
      match assignAt h v fs.index false (.mk "" "" false [] t) t d with
      | .error p => .error p
      | .ok o => .ok ⟨o.val, o.err.map (Err.assignField fs.name), c⟩
end

/-- Function `ScanStruct(src, dest)` started with the cache `c`, for the order
`src` in which the map yields its entries. -/
def ScanStruct (h : Host) (src : List Entry) (dest : Option (Ty × Val)) (c : Cache) :
    Except Panic ScanResult :=
  scanInto (fun ss t d c1 => scanEntries h ss t src d c1) dest c

/-! ## The shapes of the example program -/

/-- `type Num struct { One int "scan:one"; Two int "scan:two" }`. -/
def tyNum : Ty :=
  .struct "Num" [plainField "One" "one" tyInt, plainField "Two" "two" tyInt] none

/-- `type Area struct { UserID int "scan:id"; Num *Num "scan:num" }`. -/
def tyArea : Ty :=
  .struct "Area" [plainField "UserID" "id" tyInt, plainField "Num" "num" (.ptr tyNum)] none

/-- `type UserInfo struct { Area *Area "scan:area"; UserID int64 "scan:id" }`. -/
def tyUserInfo : Ty :=
  .struct "UserInfo"
    [plainField "Area" "area" (.ptr tyArea), plainField "UserID" "id" (.int .Int64 none)] none

/-- The source `{"area": {"id": "119", "num": {"one": "1", "two": "2"}}}`. -/
def srcArea : List Entry :=
  [.mk "area" (.mapping
    [.mk "id" (.text (ascii "119")),
      .mk "num" (.mapping [.mk "one" (.text (ascii "1")), .mk "two" (.text (ascii "2"))])])]

/-- A `UserInfo` whose references are absent: `var userInfo UserInfo`. -/
def userAbsent : Val := .struct [.ptr none, .int 0]

/-- A `UserInfo` prepared as the example program does, with `new(Area)` and
`new(Num)`. -/
def userAllocated : Val :=
  .struct [.ptr (some (.struct [.int 0, .ptr (some (.struct [.int 0, .int 0]))])), .int 0]

/-- The source `{"area": {"id": "abc"}}`, whose nested value cannot be parsed. -/
def srcBadArea : List Entry :=
  [.mk "area" (.mapping [.mk "id" (.text (ascii "abc"))])]

/-- The structure a destination pointer refers to after a run, and the error
returned; `none` when the run panicked or the destination is not a pointer to
a value. -/
def ranTo (r : Except Panic ScanResult) : Option (Val × Option Err) :=
  match r with
  | .ok ⟨some (_, .ptr (some d)), err, _⟩ => some (d, err)
  | _ => none

/-- The key of a source entry. -/
def Entry.key : Entry → String
  | .mk k _ => k

/-- The value of a source entry. -/
def Entry.value : Entry → Dyn
  | .mk _ v => v

/-- Whether a source value is a nested mapping. -/
def Dyn.isMapping : Dyn → Bool
  | .mapping _ => true
  | _ => false

/-- The value of field `i` of a structure value. -/
def Val.field (v : Val) (i : Nat) : Option Val :=
  match v with
  | .struct vals => vals[i]?
  | _ => none

/-- An entry of the source that cannot reach field `i` of a structure whose
field `i` is tagged `k`: its key is not `k`, and when its value is no mapping
the descriptor `ss` resolves its key to no path starting at field `i`. -/
def Entry.Avoids (e : Entry) (ss : structSpec) (k : String) (i : Nat) : Prop :=
  e.key ≠ k ∧
    (e.value.isMapping = false →
      ∀ fs, ss.m e.key = some fs → ∃ x rest, fs.index = x :: rest ∧ x ≠ i)

/-- The nested mapping of the example source:
`{"id": "119", "num": {"one": "1", "two": "2"}}`. -/
def srcAreaInner : List Entry :=
  [.mk "id" (.text (ascii "119")),
    .mk "num" (.mapping [.mk "one" (.text (ascii "1")), .mk "two" (.text (ascii "2"))])]

/-- The example source with a scalar entry next to the nested one:
`{"area": {...}, "id": "110"}`. -/
def srcAreaAndId : List Entry :=
  [.mk "area" (.mapping srcAreaInner), .mk "id" (.text (ascii "110"))]

/-- An error that is not the one `ScanStruct` returns for a bad destination. -/
def Err.Conversion (e : Option Err) : Prop :=
  e.map Err.kind ≠ some .InvalidDestination

/-- The test of lines 312-318 of `ScanStruct` on `reflect.ValueOf(dest)`: a
pointer that is not nil and points to a structure. -/
def validDest : Option (Ty × Val) → Bool
  | some (.ptr (.struct _ _ _), .ptr (some _)) => true
  | _ => false

/-- Whether the segments of a tag hold, after the first segment and before any
segment `-`, an option other than `omitempty`; the first segment is not `-`
either. -/
def hasUnknownOption : List (List Char) → Bool
  | [] => false
  | name :: options =>
    decide (name ≠ ['-']) &&
      (options.takeWhile (fun p => decide (p ≠ ['-']))).any
        (fun p => decide (p ≠ "omitempty".data))

/-- A structure with one field whose tag names an option `-` after the name:
`type T struct { A int "scan:a,-" }`. -/
def shapeDashOption : Ty := .struct "T" [plainField "A" "a,-" tyInt] none

/-- A structure with one field whose tag names the option `x`:
`type T struct { A int "scan:a,omitempty,x" }`. -/
def shapeBadOption : Ty := .struct "T" [plainField "A" "a,omitempty,x" tyInt] none

/-- The descriptor `structSpecForType` builds for a type it has not stored:
`compileStructSpec` run on a fresh descriptor and a fresh depth map. -/
def compileFresh (t : Ty) : Except Panic structSpec :=
  match compileStructSpec t (fun _ => none) [] structSpec.empty with
  | .ok (_, ss) => .ok ss
  | .error p => .error p

/-- The cache after a sequence of calls of `structSpecForType`, one after the
other; a call that panics leaves the cache as it was. -/
def cacheAfter (c : Cache) : List Ty → Cache
  | [] => c
  | t :: ts =>
    match structSpecForType c t with
    | .ok (_, c1) => cacheAfter c1 ts
    | .error _ => cacheAfter c ts

/-- The descriptor a call of `structSpecForType` returns, or its panic. -/
def returned (r : Except Panic (structSpec × Cache)) : Except Panic structSpec :=
  match r with
  | .ok (ss, _) => .ok ss
  | .error p => .error p

/-- Every stored descriptor is the one compiling its type gives. -/
def Cache.Sound (c : Cache) : Prop :=
  ∀ u s0, c u = some s0 → compileFresh u = .ok s0

/-- The text after an optional leading sign, `+` or `-`. -/
def unsignedPart : GoString → GoString
  | [] => []
  | c :: cs => if c = 43 ∨ c = 45 then cs else c :: cs

/-- Whether the text starts with a minus sign. -/
def isNegative : GoString → Bool
  | [] => false
  | c :: _ => decide (c = 45)

/-- The decimal digits a text starts with, after an optional sign. -/
def digitPrefix (s : GoString) : List UInt8 := (unsignedPart s).takeWhile isDigit

/-- The bound of the signed integers of `w` bits on the side of the sign:
`-2^(w-1)` when negative, `2^(w-1) - 1` otherwise. -/
def nearestBound (w : Nat) (neg : Bool) : Int :=
  if neg then -(2 ^ (w - 1)) else 2 ^ (w - 1) - 1

/-- The fields `Type.FieldByIndex` indexes into at one step: the fields of
a structure type, or at every step but the first those of the structure type
a pointer refers to; `none` where `Field` panics. -/
def fieldsAt (inner : Bool) : Ty → Option (List StructField)
  | .struct _ fields _ => some fields
  | .ptr (.struct _ fields _) => if inner then some fields else none
  | _ => none

/-- The fields `t.FieldByIndex(index)` visits, the last one being its result;
`none` when a step indexes something that is no structure or is out of
range. -/
def pathFields : Bool → Ty → List Nat → Option (List StructField)
  | _, _, [] => some []
  | inner, ty, x :: rest =>
    match fieldsAt inner ty with
    | none => none
    | some fields =>
      match fields[x]? with
      | none => none
      | some f =>
        match pathFields true f.Typ rest with
        | none => none
        | some fs => some (f :: fs)

/-- Whether a field is embedded and of a structure type or a pointer to
one. -/
def StructField.embedsStruct (f : StructField) : Bool :=
  f.Anonymous &&
    match f.Typ with
    | .struct _ _ _ => true
    | .ptr (.struct _ _ _) => true
    | _ => false

/-- A path that leads from the type `t` through embedded structures only to
the ordinary field `final`. -/
def ValidPath (t : Ty) (path : List Nat) (final : StructField) : Prop :=
  ∃ passed, pathFields false t path = some (passed ++ [final]) ∧
    (∀ g ∈ passed, g.embedsStruct = true) ∧
    final.Anonymous = false ∧ final.PkgPath = "" ∧ path.length = passed.length + 1

/-- A descriptor entry made for one of the promoted fields `L`: its path is
the path of the field and its name and option are the ones the tag loop gives
for the field. -/
def fieldSpec.From (L : List Promoted) (fs : fieldSpec) : Prop :=
  ∃ c ∈ L, fs.index = c.path ∧ parseTag c.field = .field fs.name fs.omitEmpty

/-- Every entry of the descriptor, in the name map and in the ordered list, is
made for one of the promoted fields `L`, and is stored under its name. -/
def structSpec.AllFrom (L : List Promoted) (ss : structSpec) : Prop :=
  (∀ name fs, ss.m name = some fs → fs.name = name ∧ fs.From L) ∧ (∀ fs ∈ ss.l, fs.From L)

/-- The value `v.FieldByIndex(index)` reads, seen from the value `v` of type
`ty` the index starts at; `none` where `FieldByIndex` panics. -/
def valueAt : List Nat → Bool → Ty → Val → Option Val
  | [], _, _, v => some v
  | x :: rest, inner, ty, v =>
    match enterStruct inner ty v with
    | .error _ => none
    | .ok (fields, vals, _) =>
      match fields[x]?, vals[x]? with
      | some f1, some v1 => valueAt rest true f1.Typ v1
      | _, _ => none

/-- Whether two paths part at some position: neither is a prefix of the
other. -/
def diverge : List Nat → List Nat → Bool
  | x :: p, y :: q => if x = y then diverge p q else true
  | _, _ => false

/-- A structure whose only field is excluded by its tag:
`type Hidden struct { Num *Num "scan:-" }`. -/
def tyHidden : Ty := .struct "Hidden" [plainField "Num" "-" (.ptr tyNum)] none

/-- The source `{"-": {"one": "1"}}`. -/
def srcDash : List Entry := [.mk "-" (.mapping [.mk "one" (.text (ascii "1"))])]

/-- The source `{"b": "5", "-": "9"}`, for a structure
`type Partly struct { A int "scan:-"; B int "scan:b" }`. -/
def srcPartly : List Entry := [.mk "b" (.text (ascii "5")), .mk "-" (.text (ascii "9"))]

/-- The structure `type Lite struct { X int "scan:x" }`. -/
def tyLite : Ty := .struct "Lite" [plainField "X" "x" tyInt] none

/-- A structure that embeds a pointer to `Lite` under a tag:
`type WithLite struct { *Lite "scan:lite" }`. -/
def tyWithLite : Ty := .struct "WithLite" [.mk "Lite" "" true [("scan", "lite")] (.ptr tyLite)] none

/-- The source `{"lite": {"x": "5"}}`. -/
def srcLite : List Entry := [.mk "lite" (.mapping [.mk "x" (.text (ascii "5"))])]

/-- The structure `type Pair struct { A int "scan:a"; B int "scan:b" }`. -/
def tyPair : Ty := .struct "Pair" [plainField "A" "a" tyInt, plainField "B" "b" tyInt] none

/-- One iteration of the loop of `ScanStruct` for an entry that is no mapping,
run without error from the structure `d` to the structure `d1`: a key the
descriptor does not know is passed over, any other is assigned at its path. -/
def StepTo (h : Host) (ss : structSpec) (t : Ty) (e : Entry) (d d1 : Val) : Prop :=
  match ss.m e.key with
  | none => d1 = d
  | some fs =>
    ∃ o, assignAt h e.value fs.index false (.mk "" "" false [] t) t d = .ok o ∧
      o.err = none ∧ o.val = d1

/-- The loop run without error over a list of such entries, from `d` to
`d1`. -/
def RunTo (h : Host) (ss : structSpec) (t : Ty) : List Entry → Val → Val → Prop
  | [], d, d1 => d1 = d
  | e :: rest, d, d1 => ∃ d2, StepTo h ss t e d d2 ∧ RunTo h ss t rest d2 d1

/-- The source `{"a": "1", "b": "2"}` in the two orders a map can yield it. -/
def srcPairAB : List Entry := [.mk "a" (.text (ascii "1")), .mk "b" (.text (ascii "2"))]

/-- The same source, `b` first. -/
def srcPairBA : List Entry := [.mk "b" (.text (ascii "2")), .mk "a" (.text (ascii "1"))]

/-! ## Destinations whose fields share a target

The trees of `Val` cannot say that two pointers refer to the same variable.
For a structure all of whose fields are non-nil pointers the scalar branch of
the loop is run here on a store: field `i` holds the address `cells[i]`, and
the store gives the target at each address. -/

/-- The scalar branch of the loop of `ScanStruct` (lines 335-341) over the
entries of a source, for a structure with the fields `fields` whose field `i`
is a pointer to the address `cells[i]` of the store: `convertAssignValue` runs
on the pointer, reads its target from the store and writes it back there.
`none` stands for every run that does not return nil, and for a path or a
pointer outside this shape. -/
def scanShared (h : Host) (ss : structSpec) (fields : List StructField) (cells : List Nat) :
    List Entry → (Nat → Val) → Option (Nat → Val)
  | [], store => some store
  | e :: rest, store =>
    match ss.fieldSpec e.key with
    | none => scanShared h ss fields cells rest store
    | some fs =>
      match fs.index with
      | [i] =>
        match fields[i]?, cells[i]? with
        | some f, some a =>
          match convertAssignValue h f f.Typ (.ptr (some (store a))) e.value with
          | .ok ⟨.ptr (some x), none, _⟩ =>
            scanShared h ss fields cells rest (fun b => if b = a then x else store b)
          | _ => none
        | _, _ => none
      | _ => none

/-- The run of `scanShared` with the descriptor compiled for the type. -/
def scanSharedFor (h : Host) (t : Ty) (cells : List Nat) (src : List Entry)
    (store : Nat → Val) : Option (Nat → Val) :=
  match compileFresh t with
  | .ok ss => scanShared h ss t.fields cells src store
  | .error _ => none

/-- The structure `type TwoRefs struct { A *int "scan:a"; B *int "scan:b" }`. -/
def tyTwoRefs : Ty :=
  .struct "TwoRefs" [plainField "A" "a" (.ptr tyInt), plainField "B" "b" (.ptr tyInt)] none

/-- A run of the loop that does not depend on which compiled descriptors the
cache already holds: started from two caches of compiled descriptors it
returns the same structure and the same error, and leaves such a cache. -/
def LoopAgree (run : Cache → Except Panic LoopState) : Prop :=
  ∀ c c1 r, c.Sound → c1.Sound → run c = .ok r →
    r.cache.Sound ∧ ∃ r1, run c1 = .ok r1 ∧ r1.d = r.d ∧ r1.err = r.err

/-- The same for a run of `ScanStruct`: the destination and the error do not
depend on which compiled descriptors the cache already holds. -/
def ScanAgree (run : Cache → Except Panic ScanResult) : Prop :=
  ∀ c c1 r, c.Sound → c1.Sound → run c = .ok r →
    r.cache.Sound ∧ ∃ r1, run c1 = .ok r1 ∧ r1.dest = r.dest ∧ r1.err = r.err

/-- The interface type `Scanner` of `struct.go`, as the type of a field
`S Scanner`.  The model keeps no method set for an interface type:
`convertAssignValue` takes `d.Addr()` of such a field, a pointer to an
interface, which has no methods whatever the interface declares. -/
def tyScanner : Ty := .iface

/-! # Theorems -/

/-- The segments of `tagSegments` are the ones the loop of the source visits:
on a non-empty tag the first cut, then the segments of what the cut leaves. -/
theorem tagSegments_cut (tag : List Char) (htag : tag ≠ []) :
    tagSegments tag = (cutComma tag).1 :: tagSegments (cutComma tag).2 := by
  induction tag with
  | nil => exact absurd rfl htag
  | cons c cs ih =>
    by_cases hc : c = ','
    · simp [tagSegments, cutComma, hc]
    · simp only [tagSegments, cutComma, if_neg hc]
      cases cs with
      | nil => simp [tagSegments, cutComma]
      | cons c2 cs2 => rw [ih (by simp)]

theorem runSteps_append (a b : List Promoted) (st : DepthMap × structSpec) :
    runSteps (a ++ b) st =
      match runSteps a st with
      | .ok st1 => runSteps b st1
      | .error e => .error e := by
  induction a generalizing st with
  | nil => simp [runSteps]
  | cons c cs ih =>
    simp only [List.cons_append, runSteps]
    cases h : stepPromoted c st with
    | ok st1 => simpa using ih st1
    | error e => simp

theorem walk_agrees_all :
    (∀ t : Ty, WalkAgrees t ∧ (∀ e, t = .ptr e → WalkAgrees e)) := by
  intro t
  apply @Ty.rec
    (fun t => WalkAgrees t ∧ (∀ e, t = .ptr e → WalkAgrees e))
    (fun f => ∀ (tname : String) (i : Nat) (depth : DepthMap) (index : List Nat)
      (ss : structSpec), compileField tname f i depth index ss =
        runSteps (promotedField tname f i index) (depth, ss))
    (fun fs => ∀ (tname : String) (i : Nat) (depth : DepthMap) (index : List Nat)
      (ss : structSpec), compileFields tname fs i depth index ss =
        runSteps (promotedFields tname fs i index) (depth, ss))
  case int => intro k s; exact ⟨fun _ _ _ h => by simp [Ty.Kind] at h, fun e h => by cases h⟩
  case uint => intro k s; exact ⟨fun _ _ _ h => by simp [Ty.Kind] at h, fun e h => by cases h⟩
  case float => intro k s; exact ⟨fun _ _ _ h => by simp [Ty.Kind] at h, fun e h => by cases h⟩
  case bool => intro s; exact ⟨fun _ _ _ h => by simp [Ty.Kind] at h, fun e h => by cases h⟩
  case string => intro s; exact ⟨fun _ _ _ h => by simp [Ty.Kind] at h, fun e h => by cases h⟩
  case slice => intro e s _; exact ⟨fun _ _ _ h => by simp [Ty.Kind] at h, fun e h => by cases h⟩
  case other => intro s; exact ⟨fun _ _ _ h => by simp [Ty.Kind] at h, fun e h => by cases h⟩
  case iface => exact ⟨fun _ _ _ h => by simp [Ty.Kind] at h, fun e h => by cases h⟩
  case ptr =>
    intro e ih
    refine ⟨fun _ _ _ h => by simp [Ty.Kind] at h, fun e1 h => ?_⟩
    cases h
    exact ih.1
  case struct =>
    intro name fields sc ih
    refine ⟨fun depth index ss _ => ?_, fun e h => by cases h⟩
    rw [compileStructSpec, promoted]
    exact ih name 0 depth index ss
  case mk =>
    intro Name PkgPath Anonymous Tag Typ ih tname i depth index ss
    have hord : ∀ T : Ty, Anonymous = false →
        compileOrdinary tname (.mk Name PkgPath Anonymous Tag T) i depth index ss =
        runSteps [⟨tname, .mk Name PkgPath Anonymous Tag T, index, i⟩] (depth, ss) := by
      intro T _
      simp only [runSteps, stepPromoted]
      cases compileOrdinary tname (.mk Name PkgPath Anonymous Tag T) i depth index ss <;> rfl
    cases Typ with
    | struct n fs sc =>
      rw [compileField, promotedField]
      split
      · rfl
      · split
        · exact ih.1 depth (index ++ [i]) ss rfl
        · exact hord _ (by simpa using ‹¬Anonymous = true›)
    | ptr e =>
      cases e with
      | struct n fs sc =>
        rw [compileField, promotedField]
        split
        · rfl
        · split
          · exact ih.2 _ rfl depth (index ++ [i]) ss rfl
          · exact hord _ (by simpa using ‹¬Anonymous = true›)
      | _ =>
        simp only [compileField, promotedField]
        split
        · rfl
        · split
          · rfl
          · exact hord _ (by simpa using ‹¬Anonymous = true›)
    | _ =>
      simp only [compileField, promotedField]
      split
      · rfl
      · split
        · rfl
        · exact hord _ (by simpa using ‹¬Anonymous = true›)
  case nil =>
    intro tname i depth index ss
    rw [compileFields, promotedFields, runSteps]
  case cons =>
    intro f rest ihf ihrest tname i depth index ss
    rw [compileFields, promotedFields, runSteps_append]
    rw [ihf tname i depth index ss]
    cases h : runSteps (promotedField tname f i index) (depth, ss) with
    | ok st1 =>
      obtain ⟨d1, s1⟩ := st1
      exact ihrest tname (i + 1) d1 index s1
    | error e => simp

theorem compileStructSpec_eq_runSteps (t : Ty) (depth : DepthMap) (index : List Nat)
    (ss : structSpec) (ht : t.Kind = .Struct) :
    compileStructSpec t depth index ss = runSteps (promoted t index) (depth, ss) :=
  (walk_agrees_all t).1 depth index ss ht

theorem stepPromoted_eq (c : Promoted) (st : DepthMap × structSpec) :
    stepPromoted c st =
      match parseTag c.field with
      | .skip => .ok st
      | .unknown p => .error (.unknownFieldTag p c.typeName)
      | .field name omitEmpty => .ok (resolveName st.1 st.2 name omitEmpty c.index c.pos) := by
  simp only [stepPromoted, compileOrdinary]

theorem runSteps_preserves (P : DepthMap × structSpec → Prop) (L : List Promoted)
    (hstep : ∀ c ∈ L, ∀ st st1, P st → stepPromoted c st = .ok st1 → P st1)
    (st st1 : DepthMap × structSpec) (hP : P st) (h : runSteps L st = .ok st1) : P st1 := by
  induction L generalizing st with
  | nil =>
    simp only [runSteps, Except.ok.injEq] at h
    exact h ▸ hP
  | cons c cs ih =>
    simp only [runSteps] at h
    cases hs : stepPromoted c st with
    | ok st2 =>
      rw [hs] at h
      exact ih (fun e he => hstep e (List.mem_cons_of_mem _ he)) st2
        (hstep c (List.mem_cons_self _ _) st st2 hP hs) h
    | error e => rw [hs] at h; cases h

theorem runSteps_ok (L : List Promoted)
    (htags : ∀ c ∈ L, (parseTag c.field).isUnknown = false) (st : DepthMap × structSpec) :
    ∃ st1, runSteps L st = .ok st1 := by
  induction L generalizing st with
  | nil => exact ⟨st, rfl⟩
  | cons c cs ih =>
    have hc := htags c (List.mem_cons_self _ _)
    simp only [runSteps, stepPromoted_eq]
    cases hp : parseTag c.field with
    | skip => exact ih (fun e he => htags e (List.mem_cons_of_mem _ he)) _
    | unknown p => rw [hp] at hc; simp [TagResult.isUnknown] at hc
    | field name oe => exact ih (fun e he => htags e (List.mem_cons_of_mem _ he)) _

/-- A step for a field that does not contribute `x` leaves the depth and the
map entry of `x` alone and adds no entry named `x` to the ordered list. -/
theorem stepPromoted_other (x : String) (c : Promoted) (st st1 : DepthMap × structSpec)
    (hx : c.externalName ≠ some x) (h : stepPromoted c st = .ok st1) :
    st1.1 x = st.1 x ∧ st1.2.m x = st.2.m x ∧
      (∀ fs ∈ st1.2.l, fs.name = x → fs ∈ st.2.l) := by
  rw [stepPromoted_eq] at h
  cases hp : parseTag c.field with
  | skip =>
    rw [hp] at h
    simp only [Except.ok.injEq] at h
    subst h
    exact ⟨rfl, rfl, fun _ hfs _ => hfs⟩
  | unknown p => rw [hp] at h; cases h
  | field name oe =>
    rw [hp] at h
    simp only [Except.ok.injEq] at h
    have hne : x ≠ name := by
      intro he
      apply hx
      simp [Promoted.externalName, hp, he]
    subst h
    simp only [resolveName]
    split_ifs
    · refine ⟨rfl, by simp [hne], ?_⟩
      intro fs hfs _
      exact (List.mem_filter.mp hfs).1
    · refine ⟨by simp [hne], by simp [hne], ?_⟩
      intro fs hfs hn
      rcases List.mem_append.mp hfs with h1 | h1
      · exact h1
      · simp only [List.mem_singleton] at h1
        subst h1
        exact absurd hn.symm hne
    · exact ⟨rfl, rfl, fun _ hfs _ => hfs⟩

/-- A step for a field that contributes `x`. -/
theorem stepPromoted_same (x : String) (oe : Bool) (c : Promoted)
    (st : DepthMap × structSpec) (hp : parseTag c.field = .field x oe) :
    stepPromoted c st = .ok (resolveName st.1 st.2 x oe c.index c.pos) := by
  rw [stepPromoted_eq, hp]

theorem externalName_eq_some (c : Promoted) (x : String) :
    c.externalName = some x ↔ ∃ oe, parseTag c.field = .field x oe := by
  unfold Promoted.externalName
  cases parseTag c.field <;> simp

/-- Running the steps for fields whose contributions of `x` are all deeper than
`d0` keeps the recorded depth of `x`, if any, above `d0`. -/
theorem runSteps_deeper (x : String) (d0 : Nat) (L : List Promoted)
    (hdeep : ∀ e ∈ L, e.externalName = some x → d0 < e.depth)
    (st st1 : DepthMap × structSpec) (hP : ∀ d, st.1 x = some d → d0 < d)
    (h : runSteps L st = .ok st1) : ∀ d, st1.1 x = some d → d0 < d := by
  refine runSteps_preserves (fun s => ∀ d, s.1 x = some d → d0 < d) L ?_ st st1 hP h
  intro c hc s s1 hs hstep
  by_cases hx : c.externalName = some x
  · obtain ⟨oe, hp⟩ := (externalName_eq_some c x).mp hx
    rw [stepPromoted_same x oe c s hp] at hstep
    simp only [Except.ok.injEq] at hstep
    subst hstep
    have hd := hdeep c hc hx
    simp only [Promoted.depth] at hd
    intro d
    simp only [resolveName]
    split_ifs
    · exact hs d
    · simp only [if_true, Option.some.injEq]
      intro h1
      omega
    · exact hs d
  · obtain ⟨h1, _, _⟩ := stepPromoted_other x c s s1 hx hstep
    intro d hd
    exact hs d (h1 ▸ hd)

/-- Once `x` is recorded at depth `d0` with entry `fs`, deeper contributions of
`x` and fields of other names change neither. -/
theorem runSteps_keeps (x : String) (d0 : Nat) (fs : fieldSpec) (L : List Promoted)
    (hdeep : ∀ e ∈ L, e.externalName = some x → d0 < e.depth)
    (st st1 : DepthMap × structSpec) (hP : st.1 x = some d0 ∧ st.2.m x = some fs)
    (h : runSteps L st = .ok st1) : st1.1 x = some d0 ∧ st1.2.m x = some fs := by
  refine runSteps_preserves (fun s => s.1 x = some d0 ∧ s.2.m x = some fs) L ?_ st st1 hP h
  intro c hc s s1 hs hstep
  by_cases hx : c.externalName = some x
  · obtain ⟨oe, hp⟩ := (externalName_eq_some c x).mp hx
    rw [stepPromoted_same x oe c s hp] at hstep
    simp only [Except.ok.injEq] at hstep
    subst hstep
    have hd := hdeep c hc hx
    simp only [Promoted.depth] at hd
    simp only [resolveName, hs.1, Option.getD_some]
    rw [if_neg (by omega), if_neg (by omega)]
    exact hs
  · obtain ⟨h1, h2, _⟩ := stepPromoted_other x c s s1 hx hstep
    exact ⟨h1.trans hs.1, h2.trans hs.2⟩

/-- C1: shallower wins.  For a structure type whose tags are all recognised, if
a promoted field `c` contributes the external name `x` at a depth (below the
sentinel `1 << 30`) and every other promoted field contributing `x`, declared
before or after it in the walk, lies strictly deeper, then `compileStructSpec`
returns a descriptor whose name map has an entry for `x` and that entry
carries the field path of `c`. -/
theorem compileStructSpec_shallower_wins (t : Ty) (x : String) (omitEmpty : Bool)
    (pre post : List Promoted) (c : Promoted)
    (ht : t.Kind = .Struct)
    (htags : ∀ e ∈ promoted t [], (parseTag e.field).isUnknown = false)
    (hwalk : promoted t [] = pre ++ c :: post)
    (hc : parseTag c.field = .field x omitEmpty)
    (hdeeper : ∀ e ∈ pre ++ post, e.externalName = some x → c.depth < e.depth)
    (hdepth : c.depth < 2 ^ 30) :
    ∃ dm ss, compileStructSpec t (fun _ => none) [] structSpec.empty = .ok (dm, ss) ∧
      ss.m x = some ⟨x, c.path, omitEmpty⟩ := by
  rw [compileStructSpec_eq_runSteps t _ _ _ ht]
  obtain ⟨st3, h3⟩ := runSteps_ok _ htags ((fun _ => none), structSpec.empty)
  refine ⟨st3.1, st3.2, h3, ?_⟩
  rw [hwalk, runSteps_append] at h3
  cases h1 : runSteps pre ((fun _ => none), structSpec.empty) with
  | error e => rw [h1] at h3; cases h3
  | ok st1 =>
    rw [h1] at h3
    simp only [runSteps, stepPromoted_same x omitEmpty c st1 hc] at h3
    have hpre := runSteps_deeper x c.depth pre
      (fun e he => hdeeper e (List.mem_append_left _ he)) _ st1 (by simp) h1
    refine (runSteps_keeps x c.depth ⟨x, c.path, omitEmpty⟩ post
      (fun e he => hdeeper e (List.mem_append_right _ he)) _ st3 ?_ h3).2
    simp only [Promoted.depth] at hpre hdepth
    have hlt : c.index.length < (st1.1 x).getD (2 ^ 30) := by
      cases hd : st1.1 x with
      | none => simpa using hdepth
      | some d => simpa using hpre d hd
    simp only [resolveName, Promoted.depth, Promoted.path]
    rw [if_neg (by omega), if_pos hlt]
    simp

/-- The outcome of a step for a field contributing `x` at depth at least `d0`,
in terms of the depth recorded for `x` before it. -/
theorem resolveName_same (x : String) (oe : Bool) (index : List Nat) (i : Nat)
    (depth : DepthMap) (ss : structSpec) :
    (index.length = (depth x).getD (2 ^ 30) ∧
      (resolveName depth ss x oe index i).1 x = depth x ∧
      (resolveName depth ss x oe index i).2.m x = none ∧
      ∀ fs ∈ (resolveName depth ss x oe index i).2.l, fs.name ≠ x) ∨
    (index.length < (depth x).getD (2 ^ 30) ∧
      (resolveName depth ss x oe index i).1 x = some index.length ∧
      (resolveName depth ss x oe index i).2.m x = some ⟨x, index ++ [i], oe⟩) ∨
    ((depth x).getD (2 ^ 30) < index.length ∧
      resolveName depth ss x oe index i = (depth, ss)) := by
  simp only [resolveName]
  generalize (depth x).getD (2 ^ 30) = d
  rcases Nat.lt_trichotomy index.length d with h | h | h
  · right; left
    rw [if_neg (by omega), if_pos h]
    exact ⟨h, if_pos rfl, if_pos rfl⟩
  · left
    rw [if_pos h]
    refine ⟨h, rfl, if_pos rfl, ?_⟩
    intro fs hfs
    have h2 := (List.mem_filter.mp hfs).2
    simp only [decide_eq_true_eq] at h2
    exact fun h3 => h2 h3.symm
  · right; right
    rw [if_neg (by omega), if_neg (by omega)]
    exact ⟨h, rfl⟩

theorem runSteps_atleast (x : String) (d0 : Nat) (L : List Promoted)
    (hge : ∀ e ∈ L, e.externalName = some x → d0 ≤ e.depth)
    (st st1 : DepthMap × structSpec) (hP : ∀ d, st.1 x = some d → d0 ≤ d)
    (h : runSteps L st = .ok st1) : ∀ d, st1.1 x = some d → d0 ≤ d := by
  refine runSteps_preserves (fun s => ∀ d, s.1 x = some d → d0 ≤ d) L ?_ st st1 hP h
  intro c hc s s1 hs hstep
  by_cases hx : c.externalName = some x
  · obtain ⟨oe, hp⟩ := (externalName_eq_some c x).mp hx
    rw [stepPromoted_same x oe c s hp] at hstep
    simp only [Except.ok.injEq] at hstep
    subst hstep
    have hd := hge c hc hx
    simp only [Promoted.depth] at hd
    intro d hdd
    rcases resolveName_same x oe c.index c.pos s.1 s.2 with ⟨_, h1, _⟩ | ⟨_, h1, _⟩ | ⟨_, h1⟩
    · exact hs d (h1 ▸ hdd)
    · rw [h1] at hdd
      simp only [Option.some.injEq] at hdd
      omega
    · rw [h1] at hdd
      exact hs d hdd
  · obtain ⟨h1, _, _⟩ := stepPromoted_other x c s s1 hx hstep
    intro d hd
    exact hs d (h1 ▸ hd)

theorem runSteps_fixed (x : String) (d0 : Nat) (L : List Promoted)
    (hge : ∀ e ∈ L, e.externalName = some x → d0 ≤ e.depth)
    (st st1 : DepthMap × structSpec) (hP : st.1 x = some d0)
    (h : runSteps L st = .ok st1) : st1.1 x = some d0 := by
  refine runSteps_preserves (fun s => s.1 x = some d0) L ?_ st st1 hP h
  intro c hc s s1 hs hstep
  by_cases hx : c.externalName = some x
  · obtain ⟨oe, hp⟩ := (externalName_eq_some c x).mp hx
    rw [stepPromoted_same x oe c s hp] at hstep
    simp only [Except.ok.injEq] at hstep
    subst hstep
    have hd := hge c hc hx
    simp only [Promoted.depth] at hd
    simp only at hs
    rcases resolveName_same x oe c.index c.pos s.1 s.2 with ⟨_, h1, _⟩ | ⟨h0, _, _⟩ | ⟨_, h1⟩
    · exact h1.trans hs
    · rw [hs] at h0
      simp only [Option.getD_some] at h0
      omega
    · rw [h1]
      exact hs
  · obtain ⟨h1, _, _⟩ := stepPromoted_other x c s s1 hx hstep
    exact h1.trans hs

theorem runSteps_gone (x : String) (d0 : Nat) (L : List Promoted)
    (hge : ∀ e ∈ L, e.externalName = some x → d0 ≤ e.depth)
    (st st1 : DepthMap × structSpec)
    (hP : st.1 x = some d0 ∧ st.2.m x = none ∧ ∀ fs ∈ st.2.l, fs.name ≠ x)
    (h : runSteps L st = .ok st1) :
    st1.1 x = some d0 ∧ st1.2.m x = none ∧ ∀ fs ∈ st1.2.l, fs.name ≠ x := by
  refine runSteps_preserves
    (fun s => s.1 x = some d0 ∧ s.2.m x = none ∧ ∀ fs ∈ s.2.l, fs.name ≠ x) L ?_ st st1 hP h
  intro c hc s s1 hs hstep
  by_cases hx : c.externalName = some x
  · obtain ⟨oe, hp⟩ := (externalName_eq_some c x).mp hx
    rw [stepPromoted_same x oe c s hp] at hstep
    simp only [Except.ok.injEq] at hstep
    subst hstep
    have hd := hge c hc hx
    simp only [Promoted.depth] at hd
    rcases resolveName_same x oe c.index c.pos s.1 s.2 with
      ⟨_, h1, h2, h3⟩ | ⟨h0, _, _⟩ | ⟨_, h1⟩
    · exact ⟨h1.trans hs.1, h2, h3⟩
    · rw [hs.1] at h0
      simp only [Option.getD_some] at h0
      omega
    · rw [h1]
      exact hs
  · obtain ⟨h1, h2, h3⟩ := stepPromoted_other x c s s1 hx hstep
    exact ⟨h1.trans hs.1, h2.trans hs.2.1, fun fs hfs hn => hs.2.2 fs (h3 fs hfs hn) hn⟩

theorem runSteps_never (x : String) (L : List Promoted)
    (hbig : ∀ e ∈ L, e.externalName = some x → 2 ^ 30 ≤ e.depth)
    (st st1 : DepthMap × structSpec)
    (hP : st.1 x = none ∧ st.2.m x = none ∧ ∀ fs ∈ st.2.l, fs.name ≠ x)
    (h : runSteps L st = .ok st1) :
    st1.1 x = none ∧ st1.2.m x = none ∧ ∀ fs ∈ st1.2.l, fs.name ≠ x := by
  refine runSteps_preserves
    (fun s => s.1 x = none ∧ s.2.m x = none ∧ ∀ fs ∈ s.2.l, fs.name ≠ x) L ?_ st st1 hP h
  intro c hc s s1 hs hstep
  by_cases hx : c.externalName = some x
  · obtain ⟨oe, hp⟩ := (externalName_eq_some c x).mp hx
    rw [stepPromoted_same x oe c s hp] at hstep
    simp only [Except.ok.injEq] at hstep
    subst hstep
    have hd := hbig c hc hx
    simp only [Promoted.depth] at hd
    rcases resolveName_same x oe c.index c.pos s.1 s.2 with
      ⟨_, h1, h2, h3⟩ | ⟨h0, _, _⟩ | ⟨_, h1⟩
    · exact ⟨h1.trans hs.1, h2, h3⟩
    · rw [hs.1] at h0
      simp only [Option.getD_none] at h0
      omega
    · rw [h1]
      exact hs
  · obtain ⟨h1, h2, h3⟩ := stepPromoted_other x c s s1 hx hstep
    exact ⟨h1.trans hs.1, h2.trans hs.2.1, fun fs hfs hn => hs.2.2 fs (h3 fs hfs hn) hn⟩

theorem compileStructSpec_shallower_wins_witness :
    ∃ dm ss, compileStructSpec shapeShadow (fun _ => none) [] structSpec.empty = .ok (dm, ss) ∧
      ss.m "x" = some ⟨"x", [1], false⟩ :=
  compileStructSpec_shallower_wins shapeShadow "x" false
    [⟨"Inner", plainField "X" "x" tyInt, [0], 0⟩]
    [⟨"Other", plainField "Y" "x" tyInt, [2], 0⟩]
    ⟨"Shadow", plainField "Top" "x" tyInt, [], 1⟩
    rfl (by decide) rfl (by decide) (by decide) (by decide)

/-- C2 as stated fails: in `struct { Top int "scan:x"; Inner; Other }` the two
embedded structures each contribute `x` at depth 1, yet the compiled
descriptor still resolves `x` (to the field at depth 0) and lists it. -/
theorem tie_below_shallower_field_is_kept :
    (promoted shapeTieTop []).map (fun c => (c.externalName, c.depth, c.path)) =
        [(some "x", 0, [0]), (some "x", 1, [1, 0]), (some "x", 1, [2, 0])] ∧
      compiledFor shapeTieTop "x" = some (some ⟨"x", [0], false⟩, [⟨"x", [0], false⟩]) := by
  decide

/-- C2, amended: tie elimination.  For a structure type whose tags are all
recognised, if two distinct promoted fields contribute the external name `x` at
the same depth and no promoted field contributes `x` at a shallower depth, then
`compileStructSpec` returns a descriptor in which `x` is absent from the name
map and from the ordered list. -/
theorem compileStructSpec_tie_removed (t : Ty) (x : String)
    (A B C : List Promoted) (c1 c2 : Promoted)
    (ht : t.Kind = .Struct)
    (htags : ∀ e ∈ promoted t [], (parseTag e.field).isUnknown = false)
    (hwalk : promoted t [] = A ++ c1 :: (B ++ c2 :: C))
    (h1 : c1.externalName = some x) (h2 : c2.externalName = some x)
    (heq : c1.depth = c2.depth)
    (hmin : ∀ e ∈ promoted t [], e.externalName = some x → c1.depth ≤ e.depth) :
    ∃ dm ss, compileStructSpec t (fun _ => none) [] structSpec.empty = .ok (dm, ss) ∧
      ss.m x = none ∧ ∀ fs ∈ ss.l, fs.name ≠ x := by
  rw [compileStructSpec_eq_runSteps t _ _ _ ht]
  obtain ⟨st3, h3⟩ := runSteps_ok _ htags ((fun _ => none), structSpec.empty)
  refine ⟨st3.1, st3.2, h3, ?_⟩
  by_cases hbig : 2 ^ 30 ≤ c1.depth
  · exact (runSteps_never x _ (fun e he hx => le_trans hbig (hmin e he hx)) _ st3
      ⟨rfl, rfl, by simp [structSpec.empty]⟩ h3).2
  · have hlt : c1.depth < 2 ^ 30 := by omega
    rw [hwalk] at hmin h3
    rw [runSteps_append] at h3
    cases hA : runSteps A ((fun _ => none), structSpec.empty) with
    | error e => rw [hA] at h3; cases h3
    | ok stA =>
      rw [hA] at h3
      obtain ⟨oe1, hp1⟩ := (externalName_eq_some c1 x).mp h1
      obtain ⟨oe2, hp2⟩ := (externalName_eq_some c2 x).mp h2
      simp only [runSteps, stepPromoted_same x oe1 c1 stA hp1] at h3
      rw [runSteps_append] at h3
      have hPA := runSteps_atleast x c1.depth A
        (fun e he => hmin e (List.mem_append_left _ he)) _ stA (by simp) hA
      have hPB : (resolveName stA.1 stA.2 x oe1 c1.index c1.pos).1 x = some c1.depth := by
        simp only [Promoted.depth] at hPA hlt ⊢
        rcases resolveName_same x oe1 c1.index c1.pos stA.1 stA.2 with
          ⟨h0, h1, _⟩ | ⟨_, h1, _⟩ | ⟨h0, _⟩
        · rw [h1]
          cases hd : stA.1 x with
          | none => rw [hd] at h0; simp only [Option.getD_none] at h0; omega
          | some d => rw [hd] at h0; simp only [Option.getD_some] at h0; rw [h0]
        · exact h1
        · cases hd : stA.1 x with
          | none => rw [hd] at h0; simp only [Option.getD_none] at h0; omega
          | some d =>
            rw [hd] at h0
            simp only [Option.getD_some] at h0
            have := hPA d hd
            omega
      cases hB : runSteps B (resolveName stA.1 stA.2 x oe1 c1.index c1.pos) with
      | error e => rw [hB] at h3; cases h3
      | ok stB =>
        rw [hB] at h3
        simp only [runSteps, stepPromoted_same x oe2 c2 stB hp2] at h3
        have hPB2 := runSteps_fixed x c1.depth B
          (fun e he => hmin e (List.mem_append_right _
            (List.mem_cons_of_mem _ (List.mem_append_left _ he)))) _ stB hPB hB
        have hPC : (resolveName stB.1 stB.2 x oe2 c2.index c2.pos).1 x = some c1.depth ∧
            (resolveName stB.1 stB.2 x oe2 c2.index c2.pos).2.m x = none ∧
            ∀ fs ∈ (resolveName stB.1 stB.2 x oe2 c2.index c2.pos).2.l, fs.name ≠ x := by
          simp only [Promoted.depth] at heq hPB2
          rcases resolveName_same x oe2 c2.index c2.pos stB.1 stB.2 with
            ⟨_, h1, h2, h3⟩ | ⟨h0, _, _⟩ | ⟨h0, _⟩
          · exact ⟨h1.trans hPB2, h2, h3⟩
          · rw [hPB2] at h0; simp only [Option.getD_some] at h0; omega
          · rw [hPB2] at h0; simp only [Option.getD_some] at h0; omega
        exact (runSteps_gone x c1.depth C
          (fun e he => hmin e (List.mem_append_right _ (List.mem_cons_of_mem _
            (List.mem_append_right _ (List.mem_cons_of_mem _ he))))) _ st3 hPC h3).2

theorem compileStructSpec_tie_removed_witness :
    ∃ dm ss, compileStructSpec shapeTie (fun _ => none) [] structSpec.empty = .ok (dm, ss) ∧
      ss.m "x" = none ∧ ∀ fs ∈ ss.l, fs.name ≠ "x" :=
  compileStructSpec_tie_removed shapeTie "x" []  [] []
    ⟨"Inner", plainField "X" "x" tyInt, [0], 0⟩
    ⟨"Other", plainField "Y" "x" tyInt, [1], 0⟩
    rfl (by decide) rfl (by decide) (by decide) (by decide) (by decide)

theorem wrapInt_eq_iff (k : IntKind) (s : Int) :
    wrapInt k.Bits s = s ↔ InIntRange k.Bits s := by
  cases k <;> simp only [IntKind.Bits, wrapInt, InIntRange] <;> norm_num <;> omega

theorem wrapInt_zero (k : IntKind) : wrapInt k.Bits 0 = 0 := by
  cases k <;> simp only [IntKind.Bits, wrapInt] <;> norm_num

/-- C3: signed destinations.  For every source integer `s`, every signed kind
(8, 16, 32 or 64 bits), every prior value of the destination, coercing
`Integer(s)` into a destination without custom decoder succeeds and leaves it
equal to `s` when `s` lies in the range of the kind, and otherwise fails with
`strconv.ErrRange` (kind OutOfRange) leaving the destination zero. -/
theorem convertAssignValue_int_signed (h : Host) (t : StructField) (k : IntKind)
    (v : Val) (s : Int) :
    convertAssignValue h t (.int k none) v (.int s) =
      .ok (if InIntRange k.Bits s then ⟨.int s, none, []⟩
        else ⟨.int 0, some .ErrRange, []⟩) ∧
    Err.ErrRange.kind = .OutOfRange := by
  refine ⟨?_, rfl⟩
  simp only [convertAssignValue, Ty.scanner, convertStructural, convertAssignInt]
  by_cases hr : InIntRange k.Bits s
  · have := (wrapInt_eq_iff k s).mpr hr
    simp [hr, this]
  · have := mt (wrapInt_eq_iff k s).mp hr
    simp [hr, this, wrapInt_zero]

/-- C4 as stated fails: coercing `Integer(-1)` into an 8-bit unsigned
destination that holds 5 fails with `strconv.ErrRange` and leaves the 5 in
place, it is not reset to zero. -/
theorem negative_into_unsigned_keeps_prior :
    convertAssignValue plainHost (plainField "N" "n" (.uint .Uint8 none))
      (.uint .Uint8 none) (.uint 5) (.int (-1)) =
      .ok ⟨.uint 5, some .ErrRange, []⟩ := by
  rfl

theorem wrapUint_eq_iff (k : UintKind) (s : Int) (hs : 0 ≤ s) (hmax : s < 2 ^ 63) :
    wrapUint k.Bits (s % 2 ^ 64).toNat = (s % 2 ^ 64).toNat ↔ InUintRange k.Bits s := by
  have h1 : s % 2 ^ 64 = s := Int.emod_eq_of_lt hs (by omega)
  rw [h1]
  have h2 : ((s.toNat : Nat) : Int) = s := Int.toNat_of_nonneg hs
  cases k <;> simp only [UintKind.Bits, wrapUint, InUintRange] <;> norm_num <;> omega

theorem convertAssignInt_unsigned (k : UintKind) (sc : Option Nat) (v : Val) (s : Int)
    (hmin : -2 ^ 63 ≤ s) (hmax : s < 2 ^ 63) :
    convertAssignInt (.uint k sc) v s =
      if InUintRange k.Bits s then (.uint s.toNat, none)
      else if s < 0 then (v, some .ErrRange)
      else (.uint 0, some .ErrRange) := by
  simp only [convertAssignInt]
  by_cases hneg : s < 0
  · have hr : ¬ InUintRange k.Bits s := fun hr => absurd hr.1 (by omega)
    rw [if_pos hneg, if_neg hr, if_pos hneg]
  · have hs : 0 ≤ s := by omega
    have h1 : s % 2 ^ 64 = s := Int.emod_eq_of_lt hs (by omega)
    simp only [h1]
    rw [if_neg hneg]
    by_cases hr : InUintRange k.Bits s
    · have h2 := (wrapUint_eq_iff k s hs hmax).mpr hr
      rw [h1] at h2
      rw [if_neg (not_not.mpr h2), if_pos hr, h2]
    · have h2 := mt (wrapUint_eq_iff k s hs hmax).mp hr
      rw [h1] at h2
      rw [if_pos h2, if_neg hr, if_neg hneg]
      simp [wrapUint]

/-- C4, amended: unsigned destinations.  For every `int64` value `s`, every
unsigned kind and every prior value `v` of a destination without custom
decoder, coercing `Integer(s)` succeeds with the destination equal to `s` when
`0 <= s < 2^w`; for `s < 0` it fails with `strconv.ErrRange` (kind OutOfRange)
and the destination keeps its prior value; for `s >= 2^w` it fails with the
same error and the destination is reset to zero. -/
theorem convertAssignValue_int_unsigned (h : Host) (t : StructField) (k : UintKind)
    (v : Val) (s : Int) (hmin : -2 ^ 63 ≤ s) (hmax : s < 2 ^ 63) :
    convertAssignValue h t (.uint k none) v (.int s) =
      .ok (if InUintRange k.Bits s then ⟨.uint s.toNat, none, []⟩
        else if s < 0 then ⟨v, some .ErrRange, []⟩
        else ⟨.uint 0, some .ErrRange, []⟩) ∧
    Err.ErrRange.kind = .OutOfRange := by
  refine ⟨?_, rfl⟩
  simp only [convertAssignValue, Ty.scanner, convertStructural]
  rw [convertAssignInt_unsigned k none v s hmin hmax]
  split_ifs <;> rfl

theorem convertAssignValue_int_unsigned_witness :
    convertAssignValue plainHost (plainField "N" "n" (.uint .Uint8 none))
        (.uint .Uint8 none) (.uint 5) (.int 300) =
      .ok (if InUintRange UintKind.Uint8.Bits 300 then ⟨.uint (300 : Int).toNat, none, []⟩
        else if (300 : Int) < 0 then ⟨.uint 5, some .ErrRange, []⟩
        else ⟨.uint 0, some .ErrRange, []⟩) ∧
    Err.ErrRange.kind = .OutOfRange :=
  convertAssignValue_int_unsigned plainHost (plainField "N" "n" (.uint .Uint8 none))
    .Uint8 (.uint 5) 300 (by decide) (by decide)

theorem le_digitsValue (ds : List UInt8) (n : Nat) : n ≤ digitsValue ds n := by
  induction ds generalizing n with
  | nil => simp [digitsValue]
  | cons c cs ih =>
    have := ih (10 * n + (c.toNat - 48))
    simp only [digitsValue, List.foldl_cons] at this ⊢
    omega

theorem digitsValue_cons (c : UInt8) (cs : List UInt8) (n : Nat) :
    digitsValue (c :: cs) n = digitsValue cs (10 * n + (c.toNat - 48)) := rfl

theorem parseCutoff_eq : parseCutoff = 1844674407370955162 := by
  norm_num [parseCutoff]

/-- On a sequence of digits the loop of `ParseUint` returns the value read, or
the bound and a range error when the value exceeds the bound. -/
theorem parseUintLoop_digits (maxVal : Nat) (hmax : maxVal < 2 ^ 64) (ds : List UInt8)
    (n : Nat) (hds : ds.all isDigit = true) (hn : n ≤ maxVal) :
    parseUintLoop maxVal ds n =
      if digitsValue ds n ≤ maxVal then (digitsValue ds n, none)
      else (maxVal, some .outOfRange) := by
  induction ds generalizing n with
  | nil => simp [parseUintLoop, digitsValue, hn]
  | cons c cs ih =>
    simp only [List.all_cons, Bool.and_eq_true, isDigit, decide_eq_true_eq] at hds
    obtain ⟨hc, hcs⟩ := hds
    have hge := le_digitsValue cs (10 * n + (c.toNat - 48))
    rw [parseUintLoop, if_pos hc, digitsValue_cons]
    norm_num at hmax
    by_cases h1 : n ≥ parseCutoff
    · rw [if_pos h1, if_neg]
      rw [parseCutoff_eq] at h1
      omega
    · rw [if_neg h1]
      rw [parseCutoff_eq] at h1
      have h10 : n * 10 % 2 ^ 64 = n * 10 := Nat.mod_eq_of_lt (by norm_num; omega)
      simp only [h10]
      by_cases h2 : 10 * n + (c.toNat - 48) < 2 ^ 64
      · have h3 : (n * 10 + (c.toNat - 48)) % 2 ^ 64 = 10 * n + (c.toNat - 48) := by
          rw [Nat.mod_eq_of_lt (by omega)]
          omega
        rw [h3]
        by_cases h4 : 10 * n + (c.toNat - 48) > maxVal
        · rw [if_pos (Or.inr h4), if_neg (by omega)]
        · rw [if_neg (by omega)]
          exact ih _ hcs (by omega)
      · have h3 : (n * 10 + (c.toNat - 48)) % 2 ^ 64 < n * 10 := by
          norm_num at h2 ⊢
          omega
        rw [if_pos (Or.inl h3), if_neg]
        norm_num at h2
        omega

/-- On any sequence of bytes the loop of `ParseUint` ends in one of three
ways: a value without error, zero with a syntax error, or the bound with a
range error; without error only on digits. -/
theorem parseUintLoop_shape (maxVal : Nat) (ds : List UInt8) (n : Nat) :
    ((parseUintLoop maxVal ds n).2 = none ∧ ds.all isDigit = true) ∨
    parseUintLoop maxVal ds n = (0, some .malformed) ∨
    parseUintLoop maxVal ds n = (maxVal, some .outOfRange) := by
  induction ds generalizing n with
  | nil => left; simp [parseUintLoop]
  | cons c cs ih =>
    rw [parseUintLoop]
    by_cases hc : 48 ≤ c.toNat ∧ c.toNat ≤ 57
    · rw [if_pos hc]
      by_cases h1 : n ≥ parseCutoff
      · rw [if_pos h1]
        right; right; rfl
      · rw [if_neg h1]
        by_cases h2 : (n * 10 % 2 ^ 64 + (c.toNat - 48)) % 2 ^ 64 < n * 10 % 2 ^ 64 ∨
            (n * 10 % 2 ^ 64 + (c.toNat - 48)) % 2 ^ 64 > maxVal
        · right; right
          exact if_pos h2
        · have h3 : (let n10 := n * 10 % 2 ^ 64;
              let n1 := (n10 + (c.toNat - 48)) % 2 ^ 64;
              if n1 < n10 ∨ n1 > maxVal then (maxVal, some NumErrKind.outOfRange)
              else parseUintLoop maxVal cs n1) =
              parseUintLoop maxVal cs ((n * 10 % 2 ^ 64 + (c.toNat - 48)) % 2 ^ 64) :=
            if_neg h2
          rw [h3]
          rcases ih ((n * 10 % 2 ^ 64 + (c.toNat - 48)) % 2 ^ 64) with h | h | h
          · left
            refine ⟨h.1, ?_⟩
            simp only [List.all_cons, Bool.and_eq_true, isDigit, decide_eq_true_eq]
            exact ⟨hc, h.2⟩
          · right; left; exact h
          · right; right; exact h
    · rw [if_neg hc]
      right; left
      split_ifs <;> rfl

theorem ParseUint_digits (k : IntKind) (ds : List UInt8) (hne : ds ≠ [])
    (hds : ds.all isDigit = true) :
    ParseUint ds k.Bits =
      if digitsValue ds 0 ≤ 2 ^ k.Bits - 1 then (digitsValue ds 0, none)
      else (2 ^ k.Bits - 1, some .outOfRange) := by
  rw [ParseUint, if_neg hne]
  exact parseUintLoop_digits _ (by cases k <;> norm_num [IntKind.Bits]) ds 0 hds (Nat.zero_le _)

theorem ParseUint_other (bits : Nat) (ds : List UInt8)
    (hds : ¬ (ds ≠ [] ∧ ds.all isDigit = true)) :
    ParseUint ds bits = (0, some .malformed) ∨
      ParseUint ds bits = (2 ^ bits - 1, some .outOfRange) := by
  unfold ParseUint
  by_cases hne : ds = []
  · left; rw [if_pos hne]
  · rw [if_neg hne]
    rcases parseUintLoop_shape (2 ^ bits - 1) ds 0 with h | h | h
    · exact absurd ⟨hne, h.2⟩ hds
    · left; exact h
    · right; exact h

theorem parseIntFinish_malformed (neg : Bool) (bits : Nat) :
    parseIntFinish neg (0, some .malformed) bits = (0, some .malformed) := by
  simp [parseIntFinish]

theorem parseIntFinish_range (neg : Bool) (k : IntKind) :
    ∃ x, parseIntFinish neg (2 ^ k.Bits - 1, some .outOfRange) k.Bits =
      (x, some .outOfRange) := by
  cases neg <;> cases k <;> simp [parseIntFinish, IntKind.Bits]

theorem toInt64_of_lt (V : Nat) (h : V < 2 ^ 63) : toInt64 V = V := by
  unfold toInt64
  omega

theorem toInt64_neg_toInt64 (V : Nat) (h : V ≤ 2 ^ 63) : toInt64 (-(toInt64 V)) = -(V : Int) := by
  unfold toInt64
  omega

theorem pow_bits_pred (k : IntKind) :
    ∃ c : Nat, 2 ^ (k.Bits - 1) = c ∧ (2 : Int) ^ (k.Bits - 1) = (c : Int) ∧ 0 < c ∧
      c ≤ 2 ^ 63 := by
  refine ⟨2 ^ (k.Bits - 1), rfl, by push_cast; rfl, by positivity, ?_⟩
  apply Nat.pow_le_pow_right (by norm_num)
  cases k <;> simp [IntKind.Bits]

theorem parseIntFinish_pos (k : IntKind) (V : Nat) :
    parseIntFinish false (V, none) k.Bits =
      if InIntRange k.Bits V then ((V : Int), none)
      else (((2 ^ (k.Bits - 1) - 1 : Nat) : Int), some .outOfRange) := by
  obtain ⟨c, hc, hci, hc0, hc63⟩ := pow_bits_pred k
  have e1 : V < c → toInt64 V = V := fun h => toInt64_of_lt V (by omega)
  simp only [parseIntFinish, InIntRange, hc, hci]
  clear hc hci
  by_cases h : V ≥ c
  · have h2 : ¬ (-(c : Int) ≤ V ∧ (V : Int) ≤ c - 1) := by omega
    simp [h, h2]
  · have h2 : (-(c : Int) ≤ V ∧ (V : Int) ≤ c - 1) := by omega
    simp [h, h2, e1 (by omega)]

theorem parseIntFinish_neg (k : IntKind) (V : Nat) :
    parseIntFinish true (V, none) k.Bits =
      if InIntRange k.Bits (-(V : Int)) then (-(V : Int), none)
      else (-((2 ^ (k.Bits - 1) : Nat) : Int), some .outOfRange) := by
  obtain ⟨c, hc, hci, hc0, hc63⟩ := pow_bits_pred k
  have e1 : V ≤ c → toInt64 (-(toInt64 V)) = -(V : Int) :=
    fun h => toInt64_neg_toInt64 V (by omega)
  simp only [parseIntFinish, InIntRange, hc, hci]
  clear hc hci
  by_cases h : V > c
  · have h2 : ¬ (-(c : Int) ≤ -(V : Int) ∧ -(V : Int) ≤ c - 1) := by omega
    simp only [if_neg h2]
    simp [h]
  · have h2 : (-(c : Int) ≤ -(V : Int) ∧ -(V : Int) ≤ c - 1) := by omega
    simp only [if_pos h2]
    simp [h, e1 (by omega)]

theorem pow_bits (k : IntKind) : 2 ^ k.Bits = 2 * 2 ^ (k.Bits - 1) := by
  cases k <;> simp [IntKind.Bits]

/-- After a sign, a nonempty sequence of digits gives the signed value when it
is in range and a range error otherwise. -/
theorem parseIntFinish_digits (neg : Bool) (k : IntKind) (ds : List UInt8) (hne : ds ≠ [])
    (hds : ds.all isDigit = true) (n : Int)
    (hn : n = if neg then -((digitsValue ds 0 : Nat) : Int) else ((digitsValue ds 0 : Nat) : Int)) :
    (InIntRange k.Bits n → parseIntFinish neg (ParseUint ds k.Bits) k.Bits = (n, none)) ∧
    (¬ InIntRange k.Bits n →
      ∃ x, parseIntFinish neg (ParseUint ds k.Bits) k.Bits = (x, some .outOfRange)) := by
  rw [ParseUint_digits k ds hne hds]
  obtain ⟨c, hc, hci, hc0, hc63⟩ := pow_bits_pred k
  have hp := pow_bits k
  by_cases hV : digitsValue ds 0 ≤ 2 ^ k.Bits - 1
  · rw [if_pos hV]
    cases neg with
    | false =>
      simp only [Bool.false_eq_true, if_false] at hn
      subst hn
      rw [parseIntFinish_pos]
      exact ⟨fun hr => if_pos hr, fun hr => ⟨_, if_neg hr⟩⟩
    | true =>
      simp only [if_true] at hn
      subst hn
      rw [parseIntFinish_neg]
      exact ⟨fun hr => if_pos hr, fun hr => ⟨_, if_neg hr⟩⟩
  · rw [if_neg hV]
    have hout : ¬ InIntRange k.Bits n := by
      intro hr
      simp only [InIntRange, hci] at hr
      rw [hp, hc] at hV
      cases neg <;> simp at hn <;> omega
    exact ⟨fun hr => absurd hr hout, fun _ => parseIntFinish_range neg k⟩

/-- After a sign, anything but a nonempty sequence of digits gives an error. -/
theorem parseIntFinish_other (neg : Bool) (k : IntKind) (ds : List UInt8)
    (hds : ¬ (ds ≠ [] ∧ ds.all isDigit = true)) :
    ∃ x e, parseIntFinish neg (ParseUint ds k.Bits) k.Bits = (x, some e) := by
  rcases ParseUint_other k.Bits ds hds with h | h
  · rw [h]
    exact ⟨_, _, parseIntFinish_malformed neg _⟩
  · rw [h]
    obtain ⟨x, hx⟩ := parseIntFinish_range neg k
    exact ⟨x, _, hx⟩

/-- `strconv.ParseInt` against the literal grammar: the value on a literal in
range, a range error on a literal out of range, an error on any other text. -/
theorem ParseInt_literal (k : IntKind) (s : GoString) :
    (∀ n, literalValue s = some n → InIntRange k.Bits n → ParseInt s k.Bits = (n, none)) ∧
    (∀ n, literalValue s = some n → ¬ InIntRange k.Bits n →
      ∃ x, ParseInt s k.Bits = (x, some .outOfRange)) ∧
    (literalValue s = none → ∃ x e, ParseInt s k.Bits = (x, some e)) := by
  cases s with
  | nil =>
    refine ⟨fun n h => by simp [literalValue] at h, fun n h => by simp [literalValue] at h,
      fun _ => ⟨0, .malformed, rfl⟩⟩
  | cons c cs =>
    simp only [ParseInt, literalValue]
    by_cases h43 : c = 43
    · subst h43
      simp only [if_true, true_or]
      have hneg : decide ((43 : UInt8) = 45) = false := by decide
      rw [hneg]
      by_cases hd : cs ≠ [] ∧ cs.all isDigit = true
      · rw [if_pos hd]
        have := parseIntFinish_digits false k cs hd.1 hd.2 _ rfl
        simp only [Bool.false_eq_true, if_false] at this
        refine ⟨fun n hn hr => ?_, fun n hn hr => ?_, fun hn => by simp at hn⟩
        · simp only [Option.some.injEq] at hn
          subst hn
          exact this.1 hr
        · simp only [Option.some.injEq] at hn
          subst hn
          exact this.2 hr
      · rw [if_neg hd]
        refine ⟨fun n hn => by simp at hn, fun n hn => by simp at hn,
          fun _ => parseIntFinish_other false k cs hd⟩
    · rw [if_neg h43]
      by_cases h45 : c = 45
      · subst h45
        simp only [if_true, or_true]
        simp only [decide_True]
        by_cases hd : cs ≠ [] ∧ cs.all isDigit = true
        · rw [if_pos hd]
          have := parseIntFinish_digits true k cs hd.1 hd.2 _ rfl
          simp only [if_true] at this
          refine ⟨fun n hn hr => ?_, fun n hn hr => ?_, fun hn => by simp at hn⟩
          · simp only [Option.some.injEq] at hn
            subst hn
            exact this.1 hr
          · simp only [Option.some.injEq] at hn
            subst hn
            exact this.2 hr
        · rw [if_neg hd]
          refine ⟨fun n hn => by simp at hn, fun n hn => by simp at hn,
            fun _ => parseIntFinish_other true k cs hd⟩
      · have hor : ¬ (c = 43 ∨ c = 45) := by simp [h43, h45]
        have hneg : decide (c = 45) = false := by simp [h45]
        simp only [if_neg h45, if_neg hor, hneg]
        by_cases hd : (c :: cs).all isDigit = true
        · rw [if_pos hd]
          have := parseIntFinish_digits false k (c :: cs) (by simp) hd _ rfl
          simp only [Bool.false_eq_true, if_false] at this
          refine ⟨fun n hn hr => ?_, fun n hn hr => ?_, fun hn => by simp at hn⟩
          · simp only [Option.some.injEq] at hn
            subst hn
            exact this.1 hr
          · simp only [Option.some.injEq] at hn
            subst hn
            exact this.2 hr
        · rw [if_neg hd]
          refine ⟨fun n hn => by simp at hn, fun n hn => by simp at hn,
            fun _ => parseIntFinish_other false k (c :: cs) (fun h => hd h.2)⟩

theorem toNat_digitByte (d : Nat) (hd : d < 10) : (UInt8.ofNat (48 + d)).toNat = 48 + d := by
  interval_cases d <;> rfl

theorem digitsValue_append (a b : List UInt8) (n : Nat) :
    digitsValue (a ++ b) n = digitsValue b (digitsValue a n) := by
  simp [digitsValue, List.foldl_append]

theorem digitsValue_encode (L : List Nat) (hL : ∀ d ∈ L, d < 10) :
    digitsValue (L.reverse.map (fun d => UInt8.ofNat (48 + d))) 0 = Nat.ofDigits 10 L := by
  induction L with
  | nil => rfl
  | cons d t ih =>
    have hd := hL d (List.mem_cons_self _ _)
    have ht := ih (fun x hx => hL x (List.mem_cons_of_mem _ hx))
    rw [List.reverse_cons, List.map_append, digitsValue_append, ht]
    simp only [List.map_cons, List.map_nil, digitsValue, List.foldl_cons, List.foldl_nil,
      toNat_digitByte d hd, Nat.ofDigits_cons]
    omega

theorem all_isDigit_encode (L : List Nat) (hL : ∀ d ∈ L, d < 10) :
    (L.map (fun d => UInt8.ofNat (48 + d))).all isDigit = true := by
  simp only [List.all_eq_true, List.mem_map, forall_exists_index, and_imp]
  intro c d hd hc
  subst hc
  have hlt := hL d hd
  simp only [isDigit, decide_eq_true_eq, toNat_digitByte d hlt]
  omega

theorem renderNat_spec (n : Nat) :
    renderNat n ≠ [] ∧ (renderNat n).all isDigit = true ∧ digitsValue (renderNat n) 0 = n := by
  unfold renderNat
  by_cases h0 : n = 0
  · subst h0
    simp only [if_true]
    exact ⟨by simp, by decide, by decide⟩
  · rw [if_neg h0]
    have hL : ∀ d ∈ Nat.digits 10 n, d < 10 := fun d hd => Nat.digits_lt_base (by norm_num) hd
    refine ⟨?_, ?_, ?_⟩
    · simp only [ne_eq, List.map_eq_nil_iff, List.reverse_eq_nil_iff]
      exact fun h => h0 (Nat.digits_eq_nil_iff_eq_zero.mp h)
    · exact all_isDigit_encode _ (fun d hd => hL d (List.mem_reverse.mp hd))
    · rw [digitsValue_encode _ hL, Nat.ofDigits_digits]

theorem isDigit_ne_sign (c : UInt8) (hc : isDigit c = true) : c ≠ 43 ∧ c ≠ 45 := by
  simp only [isDigit, decide_eq_true_eq] at hc
  constructor <;> intro h <;> subst h <;> revert hc <;> decide

/-- The literal grammar reads the decimal rendering of an integer back. -/
theorem literalValue_renderInt (n : Int) : literalValue (renderInt n) = some n := by
  obtain ⟨hne, hall, hval⟩ := renderNat_spec n.natAbs
  unfold renderInt
  by_cases hn : n < 0
  · rw [if_pos hn]
    have hcond : renderNat n.natAbs ≠ [] ∧ (renderNat n.natAbs).all isDigit = true :=
      ⟨hne, hall⟩
    simp only [literalValue, if_true, if_pos hcond, hval]
    rw [if_neg (by decide)]
    congr 1
    rcases Int.natAbs_eq n with h | h <;> omega
  · rw [if_neg hn]
    cases hr : renderNat n.natAbs with
    | nil => exact absurd hr hne
    | cons c cs =>
      rw [hr] at hall hval
      have hc : isDigit c = true := by
        simp only [List.all_cons, Bool.and_eq_true] at hall
        exact hall.1
      obtain ⟨h43, h45⟩ := isDigit_ne_sign c hc
      simp only [literalValue]
      rw [if_neg h43, if_neg h45, if_pos hall, hval]
      congr 1
      rcases Int.natAbs_eq n with h | h <;> omega

theorem convertAssignValue_text_int (h : Host) (t : StructField) (k : IntKind) (v : Val)
    (s : GoString) :
    convertAssignValue h t (.int k none) v (.text s) =
      .ok ⟨.int (wrapInt k.Bits (ParseInt s k.Bits).1),
        (ParseInt s k.Bits).2.map (Err.NumError "ParseInt"), []⟩ := by
  simp [convertAssignValue, Ty.scanner, convertStructural, convertAssignString, noCalls]

/-- C5: integer destinations.  For every text `s`, every signed kind and every
prior value of a destination without custom decoder: if `s` is a base-10
integer literal whose value `n` fits the kind, coercing `Text(s)` succeeds and
leaves `n`; if `s` is a literal whose value does not fit, or is no literal at
all, the coercion fails with a `*strconv.NumError` of `ParseInt` (kind
MalformedScalar); and the decimal rendering of any `n` in range is coerced to
`n`. -/
theorem convertAssignValue_text_signed (h : Host) (t : StructField) (k : IntKind)
    (v : Val) (s : GoString) :
    (∀ n, literalValue s = some n → InIntRange k.Bits n →
      convertAssignValue h t (.int k none) v (.text s) = .ok ⟨.int n, none, []⟩) ∧
    ((∀ n, literalValue s = some n → ¬ InIntRange k.Bits n) →
      ∃ x e, convertAssignValue h t (.int k none) v (.text s) =
          .ok ⟨.int x, some (.NumError "ParseInt" e), []⟩ ∧
        (Err.NumError "ParseInt" e).kind = .MalformedScalar) ∧
    (∀ n, InIntRange k.Bits n →
      convertAssignValue h t (.int k none) v (.text (renderInt n)) =
        .ok ⟨.int n, none, []⟩) := by
  have hok : ∀ (s : GoString) (n : Int), literalValue s = some n → InIntRange k.Bits n →
      convertAssignValue h t (.int k none) v (.text s) = .ok ⟨.int n, none, []⟩ := by
    intro s n hn hr
    rw [convertAssignValue_text_int, (ParseInt_literal k s).1 n hn hr]
    simp [(wrapInt_eq_iff k n).mpr hr]
  refine ⟨hok s, ?_, fun n hr => hok _ n (literalValue_renderInt n) hr⟩
  intro hbad
  rw [convertAssignValue_text_int]
  cases hl : literalValue s with
  | none =>
    obtain ⟨x, e, hx⟩ := (ParseInt_literal k s).2.2 hl
    rw [hx]
    exact ⟨_, e, rfl, rfl⟩
  | some n =>
    obtain ⟨x, hx⟩ := (ParseInt_literal k s).2.1 n hl (hbad n hl)
    rw [hx]
    exact ⟨_, _, rfl, rfl⟩

theorem convertAssignValue_text_signed_witness :
    convertAssignValue plainHost (plainField "N" "n" (.int .Int8 none)) (.int .Int8 none)
      (.int 7) (.text (ascii "42")) = .ok ⟨.int 42, none, []⟩ :=
  (convertAssignValue_text_signed plainHost (plainField "N" "n" (.int .Int8 none)) .Int8
    (.int 7) (ascii "42")).1 42 (by decide) (by decide)

/-- C6, amended: custom decoder precedence.  For a destination whose pointer
type has a `Scan` method (the type itself being neither a pointer nor an
interface), and for a destination that is a pointer to such a type, coercing
any source value makes exactly one call of that method, with the source value
and the tag of the field as given, on the destination itself, respectively on
its target (a fresh zero value when the pointer was nil); the destination
afterwards and the error returned are the ones of that call, and no structural
rule runs.  A destination of an interface type is never asked: whatever it
holds, the coercion returns without any call of a `Scan` method. -/
theorem convertAssignValue_custom_decoder (h : Host) (t : StructField) (ty : Ty) (v : Val)
    (s : Dyn) (id : Nat) :
    (ty.Kind ≠ .Ptr → ty.scanner = some id →
      convertAssignValue h t ty v s =
        .ok ⟨(h.Scan id v s t.Tag).1, (h.Scan id v s t.Tag).2.map Err.scanner,
          [⟨id, v, s, t.Tag⟩]⟩) ∧
    (ty.scanner = some id → ∀ x,
      convertAssignValue h t (.ptr ty) (.ptr (some x)) s =
        .ok ⟨.ptr (some (h.Scan id x s t.Tag).1), (h.Scan id x s t.Tag).2.map Err.scanner,
          [⟨id, x, s, t.Tag⟩]⟩) ∧
    (ty.scanner = some id →
      convertAssignValue h t (.ptr ty) (.ptr none) s =
        .ok ⟨.ptr (some (h.Scan id (zero ty) s t.Tag).1),
          (h.Scan id (zero ty) s t.Tag).2.map Err.scanner, [⟨id, zero ty, s, t.Tag⟩]⟩) ∧
    (∃ o, convertAssignValue h t .iface v s = .ok o ∧ o.calls = []) := by
  refine ⟨fun hk hs => ?_, fun hs x => ?_, fun hs => ?_, ?_⟩
  · cases ty <;> simp_all [convertAssignValue, Ty.Kind, Ty.scanner, callScan]
  · simp [convertAssignValue, hs, callScan, allocated]
  · simp [convertAssignValue, hs, callScan, allocated]
  · cases s <;>
      simp [convertAssignValue, Ty.scanner, convertStructural, convertAssignBulkString,
        convertAssignString, noCalls]

theorem convertAssignValue_custom_decoder_witness :
    convertAssignValue textHost (plainField "At" "at" (.ptr tyStamp)) (.ptr tyStamp)
        (.ptr none) (.int 7) =
      .ok ⟨.ptr (some (textHost.Scan 0 (zero tyStamp) (.int 7) [("scan", "at")]).1),
        (textHost.Scan 0 (zero tyStamp) (.int 7) [("scan", "at")]).2.map Err.scanner,
        [⟨0, zero tyStamp, .int 7, [("scan", "at")]⟩]⟩ :=
  (convertAssignValue_custom_decoder textHost (plainField "At" "at" (.ptr tyStamp)) tyStamp
    (.ptr none) (.int 7) 0).2.2.1 rfl

/-- C7 as stated fails: coercing `Nil` into a nil pointer to `int` fails with
`cannotConvert` (kind UnconvertibleType), the pointer having been allocated
before the source was looked at. -/
theorem nil_into_pointer_fails :
    (convertAssignValue plainHost (plainField "P" "p" (.ptr tyInt)) (.ptr tyInt)
        (.ptr none) .nil).map Outcome.summary =
      .ok (.ptr (some (.int 0)), some .UnconvertibleType) := by
  rfl

/-- C7, amended: the `Nil` source rule.  For a destination without custom
decoder, coercing `Nil` into a slice or an interface succeeds and leaves the
zero value of the type; coercing it into any other kind that is not a pointer
fails with `cannotConvert` (kind UnconvertibleType) and leaves the destination
as it was; coercing it into a pointer fails with the same error, the pointer
referring to its former target, or to a fresh zero value if it was nil. -/
theorem convertAssignValue_nil (h : Host) (t : StructField) (ty : Ty) (v : Val) :
    (ty.Kind = .Slice ∨ ty.Kind = .Interface → ty.scanner = none →
      convertAssignValue h t ty v .nil = .ok ⟨zero ty, none, []⟩) ∧
    (ty.Kind ≠ .Slice → ty.Kind ≠ .Interface → ty.Kind ≠ .Ptr → ty.scanner = none →
      convertAssignValue h t ty v .nil = .ok ⟨v, some (.cannotConvert "nil"), []⟩) ∧
    (ty.scanner = none →
      convertAssignValue h t (.ptr ty) v .nil =
        .ok ⟨.ptr (some (allocated ty v)), some (.cannotConvert "nil"), []⟩) ∧
    (Err.cannotConvert "nil").kind = .UnconvertibleType := by
  refine ⟨fun hk hs => ?_, fun h1 h2 h3 hs => ?_, fun hs => ?_, rfl⟩
  · cases ty <;>
      simp_all [convertAssignValue, Ty.Kind, Ty.scanner, convertStructural, convertAssignNil]
  · cases ty <;>
      simp_all [convertAssignValue, Ty.Kind, Ty.scanner, convertStructural, convertAssignNil]
  · simp [convertAssignValue, hs, convertStructural, convertAssignNil]

theorem convertAssignValue_nil_witness :
    convertAssignValue plainHost (plainField "B" "b" (.slice (.uint .Uint8 none) none))
        (.slice (.uint .Uint8 none) none) (.bytes (some [1, 2])) .nil =
      .ok ⟨zero (.slice (.uint .Uint8 none) none), none, []⟩ :=
  (convertAssignValue_nil plainHost (plainField "B" "b" (.slice (.uint .Uint8 none) none))
    (.slice (.uint .Uint8 none) none) (.bytes (some [1, 2]))).1 (Or.inl rfl) rfl

/-- C8: the `Bytes` source rule.  For a destination without custom decoder:
coercing `Bytes(b)` into a byte slice assigns `b` itself; and for every
destination that is neither a byte slice nor a pointer, coercing `Bytes(b)`
leaves the same destination value and returns an error of the same kind (or
none) as coercing `Text(string(b))`, and panics exactly when that does. -/
theorem convertAssignValue_bytes (h : Host) (t : StructField) (ty : Ty) (v : Val)
    (b : Option GoString) :
    (∀ e sc, ty = .slice e sc → e.isUint8 = true → sc = none →
      convertAssignValue h t ty v (.bytes b) = .ok ⟨.bytes b, none, []⟩) ∧
    (ty.Kind ≠ .Ptr → ty.scanner = none →
      (∀ e sc, ty = .slice e sc → e.isUint8 = false) →
      (convertAssignValue h t ty v (.bytes b)).map Outcome.summary =
        (convertAssignValue h t ty v (.text (b.getD []))).map Outcome.summary) := by
  refine ⟨fun e sc hty he hsc => ?_, fun hk hs hsl => ?_⟩
  · subst hty hsc
    simp [convertAssignValue, Ty.scanner, convertStructural, convertAssignBulkString, he]
  · cases ty with
    | ptr e => simp [Ty.Kind] at hk
    | slice e sc =>
      have he := hsl e sc rfl
      simp only [Ty.scanner] at hs
      subst hs
      simp [convertAssignValue, Ty.scanner, convertStructural, convertAssignBulkString,
        convertAssignString, noCalls, he, Except.map, Outcome.summary, Err.kind]
    | _ =>
      simp only [Ty.scanner] at hs
      try subst hs
      simp [convertAssignValue, Ty.scanner, convertStructural, convertAssignBulkString]

theorem convertAssignValue_bytes_witness :
    (convertAssignValue plainHost (plainField "N" "n" tyInt) tyInt (.int 0)
        (.bytes (some (ascii "42")))).map Outcome.summary =
      (convertAssignValue plainHost (plainField "N" "n" tyInt) tyInt (.int 0)
        (.text ((some (ascii "42")).getD []))).map Outcome.summary :=
  (convertAssignValue_bytes plainHost (plainField "N" "n" tyInt) tyInt (.int 0)
    (some (ascii "42"))).2 (by decide) rfl (fun e sc hty => by cases hty)

/-- C9, the code at the failing input: decoding `{"id": "abc"}` into an `Area`
fails with the wrapped `ParseInt` error, yet decoding
`{"area": {"id": "abc"}}` into a `UserInfo` whose `Area` is that structure
returns no error. -/
theorem nested_failure_is_dropped :
    (ranTo (ScanStruct plainHost [.mk "id" (.text (ascii "abc"))]
        (some (.ptr tyArea, .ptr (some (.struct [.int 0, .ptr (some (.struct [.int 0, .int 0]))]))))
        Cache.empty)).map Prod.snd =
      some (some (.assignField "id" (.NumError "ParseInt" .malformed))) ∧
    (ranTo (ScanStruct plainHost srcBadArea (some (.ptr tyUserInfo, .ptr (some userAllocated)))
        Cache.empty)).map Prod.snd = some none := by
  decide

/-- C10 as stated fails: decoding `{"area": {"id": "119", "num": {"one": "1",
"two": "2"}}}` into a `UserInfo` whose references are absent returns no error
and leaves the destination as it was, the `Area` reference still absent. -/
theorem absent_reference_stays_absent :
    ranTo (ScanStruct plainHost srcArea (some (.ptr tyUserInfo, .ptr (some userAbsent)))
        Cache.empty) = some (.struct [.ptr none, .int 0], none) := by
  rfl

theorem nodup_getElem?_inj {α : Type} {l : List α} (hl : l.Nodup) {i j : Nat} {a : α}
    (hi : l[i]? = some a) (hj : l[j]? = some a) : i = j := by
  have hil : i < l.length := (List.getElem?_eq_some.mp hi).1
  have hjl : j < l.length := (List.getElem?_eq_some.mp hj).1
  rcases Nat.lt_trichotomy i j with h | h | h
  · exact absurd (hi.trans hj.symm) (List.nodup_iff_getElem?_ne_getElem?.mp hl i j h hjl)
  · exact h
  · exact absurd (hj.trans hi.symm) (List.nodup_iff_getElem?_ne_getElem?.mp hl j i h hil)

/-- With distinct field names, `FieldByName` of the name of a field finds that
field. -/
theorem findIdx_name_eq (all : List StructField) (hnames : (all.map StructField.Name).Nodup)
    (i : Nat) (f : StructField) (hf : all[i]? = some f) :
    all.findIdx (fun g => decide (g.Name = f.Name)) = i := by
  have hmem : f ∈ all := List.getElem?_mem hf
  have hlt : all.findIdx (fun g => decide (g.Name = f.Name)) < all.length :=
    List.findIdx_lt_length_of_exists ⟨f, hmem, by simp⟩
  obtain ⟨fj, hfj⟩ : ∃ fj, all[all.findIdx (fun g => decide (g.Name = f.Name))]? = some fj :=
    ⟨_, List.getElem?_eq_getElem hlt⟩
  have hname : fj.Name = f.Name := by
    simpa using List.findIdx_of_getElem?_eq_some hfj
  refine nodup_getElem?_inj hnames (a := f.Name) ?_ ?_
  · rw [List.getElem?_map, hfj, Option.map_some', hname]
  · rw [List.getElem?_map, hf, Option.map_some']

/-- With distinct field names, `FieldByName` of the name of another field does
not find field `i`. -/
theorem findIdx_name_ne (all : List StructField) (hnames : (all.map StructField.Name).Nodup)
    (i : Nat) (f g : StructField) (hf : all[i]? = some f) (hg : g ∈ all) (hne : g ≠ f) :
    all.findIdx (fun x => decide (x.Name = g.Name)) ≠ i := by
  obtain ⟨p, hp⟩ := List.getElem?_of_mem hg
  rw [findIdx_name_eq all hnames p g hp]
  intro hpi
  subst hpi
  rw [hp] at hf
  exact hne (Option.some.inj hf)

/-- Fields touched by the inner loop: the loop leaves field `i` alone when no
field it visits with the tag `k` is found at position `i`. -/
theorem scanNested_frame (decode : Option (Ty × Val) → Cache → Except Panic ScanResult)
    (all : List StructField) (k : String) (i : Nat) (rem : List StructField)
    (hrem : ∀ g ∈ rem, g.Tag.Get "scan" = k →
      all.findIdx (fun x => decide (x.Name = g.Name)) ≠ i)
    (vals : List Val) (c : Cache) (vals1 : List Val) (c1 : Cache)
    (hrun : scanNested decode all k rem vals c = .ok (vals1, c1)) :
    vals1[i]? = vals[i]? := by
  induction rem generalizing vals c with
  | nil =>
    simp only [scanNested, Except.ok.injEq, Prod.mk.injEq] at hrun
    rw [hrun.1]
  | cons g rest ih =>
    have hrest : ∀ x ∈ rest, x.Tag.Get "scan" = k →
        all.findIdx (fun y => decide (y.Name = x.Name)) ≠ i :=
      fun x hx => hrem x (List.mem_cons_of_mem _ hx)
    rw [scanNested] at hrun
    by_cases hk : g.Tag.Get "scan" = k
    · rw [if_pos hk] at hrun
      have hj := hrem g (List.mem_cons_self _ _) hk
      revert hrun
      cases all[all.findIdx (fun x => decide (x.Name = g.Name))]? with
      | none => intro hrun; simp at hrun
      | some fj =>
        cases vals[all.findIdx (fun x => decide (x.Name = g.Name))]? with
        | none => intro hrun; simp at hrun
        | some vj =>
          simp only []
          split_ifs
          · intro hrun; cases hrun
          · cases hd : decode (fieldInterface fj.Typ vj) c with
            | error p => intro hrun; simp at hrun
            | ok r1 =>
              simp only []
              intro hrun
              rw [ih hrest _ _ hrun, List.getElem?_set_ne hj]
    · rw [if_neg hk] at hrun
      exact ih hrest _ _ hrun

theorem scanNested_append (decode : Option (Ty × Val) → Cache → Except Panic ScanResult)
    (all : List StructField) (k : String) (A B : List StructField) (vals : List Val)
    (c : Cache) :
    scanNested decode all k (A ++ B) vals c =
      match scanNested decode all k A vals c with
      | .ok (vals1, c1) => scanNested decode all k B vals1 c1
      | .error p => .error p := by
  induction A generalizing vals c with
  | nil => simp [scanNested]
  | cons g rest ih =>
    simp only [List.cons_append, scanNested]
    split_ifs
    · cases all[all.findIdx (fun x => decide (x.Name = g.Name))]? with
      | none => rfl
      | some fj =>
        cases vals[all.findIdx (fun x => decide (x.Name = g.Name))]? with
        | none => rfl
        | some vj =>
          simp only []
          split_ifs
          · rfl
          · cases decode (fieldInterface fj.Typ vj) c with
            | error p => rfl
            | ok r1 => exact ih _ _
    · exact ih _ _

/-- The nested call on a nil pointer returns `errScanStructValue` and changes
nothing. -/
theorem scanInto_nil (body : structSpec → Ty → Val → Cache → Except Panic LoopState)
    (st : Ty) (c : Cache) :
    scanInto body (some (.ptr st, .ptr none)) c =
      .ok ⟨some (.ptr st, .ptr none), some .errScanStructValue, c⟩ := by
  cases st <;> rfl

/-- The nested call hands back a destination of the type it was given, still
pointing to a value when it did on entry. -/
theorem scanInto_dest (body : structSpec → Ty → Val → Cache → Except Panic LoopState)
    (st : Ty) (x : Val) (c : Cache) (r : ScanResult)
    (hrun : scanInto body (some (.ptr st, .ptr (some x))) c = .ok r) :
    ∃ x1, r.dest = some (.ptr st, .ptr (some x1)) := by
  unfold scanInto at hrun
  split at hrun
  · rename_i n fields sc d heq
    simp only [Option.some.injEq, Prod.mk.injEq, Ty.ptr.injEq, Val.ptr.injEq] at heq
    obtain ⟨hst, hx⟩ := heq
    subst hst hx
    split at hrun
    · cases hrun
    · split at hrun
      · cases hrun
      · simp only [Except.ok.injEq] at hrun
        subst hrun
        exact ⟨_, rfl⟩
  · simp only [Except.ok.injEq] at hrun
    subst hrun
    exact ⟨x, rfl⟩

/-- The inner loop at a structure whose field `i`, of pointer type and tagged
`k`, is exported, field names being distinct: afterwards field `i` is what the
nested decode left of it. -/
theorem scanNested_target (decode : Option (Ty × Val) → Cache → Except Panic ScanResult)
    (all : List StructField) (hnames : (all.map StructField.Name).Nodup) (k : String)
    (i : Nat) (f : StructField) (st : Ty) (hf : all[i]? = some f) (hexp : f.PkgPath = "")
    (hty : f.Typ = .ptr st) (htag : f.Tag.Get "scan" = k)
    (vals : List Val) (v : Val) (hv : vals[i]? = some v) (c : Cache) (vals1 : List Val)
    (c1 : Cache) (hrun : scanNested decode all k all vals c = .ok (vals1, c1)) :
    ∃ c2 r, decode (some (.ptr st, v)) c2 = .ok r ∧
      vals1[i]? = some (fieldWriteBack (.ptr st) v r.dest) := by
  obtain ⟨A, B, hall, hlen⟩ : ∃ A B, all = A ++ f :: B ∧ A.length = i := by
    have hi : i < all.length := (List.getElem?_eq_some.mp hf).1
    refine ⟨all.take i, all.drop (i + 1), ?_, by simp [Nat.min_eq_left (Nat.le_of_lt hi)]⟩
    have hd : all.drop i = f :: all.drop (i + 1) := by
      rw [List.drop_eq_getElem_cons hi]
      congr 1
      have := List.getElem?_eq_getElem hi
      rw [hf] at this
      exact (Option.some.inj this).symm
    rw [← hd, List.take_append_drop]
  have hother : ∀ g ∈ A ++ B, g.Tag.Get "scan" = k →
      all.findIdx (fun x => decide (x.Name = g.Name)) ≠ i := by
    intro g hg _
    have hgall : g ∈ all := by
      rw [hall]
      rcases List.mem_append.mp hg with h | h
      · exact List.mem_append_left _ h
      · exact List.mem_append_right _ (List.mem_cons_of_mem _ h)
    refine findIdx_name_ne all hnames i f g hf hgall ?_
    intro hgf
    subst hgf
    have hnd : (A ++ g :: B).Nodup := by
      rw [hall] at hnames
      exact List.Nodup.of_map _ hnames
    rw [List.nodup_append] at hnd
    rcases List.mem_append.mp hg with h | h
    · exact hnd.2.2 h (List.mem_cons_self _ _)
    · exact (List.nodup_cons.mp hnd.2.1).1 h
  have hrun2 := hrun
  conv at hrun2 => lhs; arg 4; rw [hall]
  rw [scanNested_append] at hrun2
  cases hA : scanNested decode all k A vals c with
  | error p => rw [hA] at hrun2; cases hrun2
  | ok rA =>
    obtain ⟨valsA, cA⟩ := rA
    rw [hA] at hrun2
    simp only [] at hrun2
    have hfrA := scanNested_frame decode all k i A
      (fun g hg => hother g (List.mem_append_left _ hg)) vals c valsA cA hA
    rw [scanNested, if_pos htag, findIdx_name_eq all hnames i f hf, hf, hfrA, hv] at hrun2
    simp only [hexp, ne_eq, not_true_eq_false, if_false, hty, fieldInterface] at hrun2
    cases hd : decode (some (.ptr st, v)) cA with
    | error p => rw [hd] at hrun2; cases hrun2
    | ok r =>
      rw [hd] at hrun2
      simp only [] at hrun2
      have hfrB := scanNested_frame decode all k i B
        (fun g hg => hother g (List.mem_append_right _ hg)) _ _ vals1 c1 hrun2
      refine ⟨cA, r, hd, ?_⟩
      rw [hfrB, List.getElem?_set_self]
      have hi : i < vals.length := (List.getElem?_eq_some.mp hv).1
      have hiA : i < valsA.length := by
        rw [← hfrA] at hv
        exact (List.getElem?_eq_some.mp hv).1
      exact hiA

theorem assignAt_frame (h : Host) (s : Dyn) (x : Nat) (rest : List Nat) (f0 : StructField)
    (t : Ty) (d : Val) (o : Outcome) (i : Nat) (hx : x ≠ i)
    (hrun : assignAt h s (x :: rest) false f0 t d = .ok o) : o.val.field i = d.field i := by
  rw [assignAt] at hrun
  cases he : enterStruct false t d with
  | error p => rw [he] at hrun; cases hrun
  | ok e =>
    obtain ⟨fields, vals, viaPtr⟩ := e
    rw [he] at hrun
    have hd : d = .struct vals ∧ viaPtr = false := by
      unfold enterStruct at he
      split at he
      · simp only [Except.ok.injEq, Prod.mk.injEq] at he
        exact ⟨by rw [he.2.1], he.2.2.symm⟩
      · simp at he
      · simp at he
      · cases he
    obtain ⟨hd1, hd2⟩ := hd
    subst hd1 hd2
    simp only [] at hrun
    cases hfx : fields[x]? with
    | none => rw [hfx] at hrun; cases hrun
    | some f1 =>
      cases hvx : vals[x]? with
      | none => rw [hfx, hvx] at hrun; cases hrun
      | some v1 =>
        rw [hfx, hvx] at hrun
        simp only [] at hrun
        cases ha : assignAt h s rest true f1 f1.Typ v1 with
        | error p => rw [ha] at hrun; cases hrun
        | ok o1 =>
          rw [ha] at hrun
          simp only [Except.ok.injEq] at hrun
          subst hrun
          simp only [leaveStruct, Val.field, Bool.false_eq_true, if_false]
          exact List.getElem?_set_ne hx

/-- The body of the loop for a value that is no mapping. -/
theorem scanValue_of_not_mapping (h : Host) (ss : structSpec) (t : Ty) (v : Dyn) (k : String)
    (d : Val) (c : Cache) (hv : v.isMapping = false) :
    scanValue h ss t v k d c =
      match ss.fieldSpec k with
      | none => .ok ⟨d, none, c⟩
      | some fs =>
        match assignAt h v fs.index false (.mk "" "" false [] t) t d with
        | .error p => .error p
        | .ok o => .ok ⟨o.val, o.err.map (Err.assignField fs.name), c⟩ := by
  cases v with
  | mapping vv => simp [Dyn.isMapping] at hv
  | nil => rw [scanValue]; intro vv hvv; cases hvv
  | text s => rw [scanValue]; intro vv hvv; cases hvv
  | bytes b => rw [scanValue]; intro vv hvv; cases hvv
  | int s => rw [scanValue]; intro vv hvv; cases hvv
  | error s => rw [scanValue]; intro vv hvv; cases hvv
  | other n => rw [scanValue]; intro vv hvv; cases hvv

/-- A value that is no mapping, under a key the descriptor resolves to no path
through field `i`, leaves field `i` alone. -/
theorem scanValue_scalar_frame (h : Host) (ss : structSpec) (t : Ty) (v : Dyn) (k : String)
    (d : Val) (c : Cache) (r : LoopState) (i : Nat) (hv : v.isMapping = false)
    (hpath : ∀ fs, ss.m k = some fs → ∃ x rest, fs.index = x :: rest ∧ x ≠ i)
    (hrun : scanValue h ss t v k d c = .ok r) : r.d.field i = d.field i := by
  rw [scanValue_of_not_mapping h ss t v k d c hv] at hrun
  cases hm : ss.m k with
  | none =>
    simp only [structSpec.fieldSpec, hm, Except.ok.injEq] at hrun
    rw [← hrun]
  | some fs =>
    obtain ⟨x, rest, hidx, hx⟩ := hpath fs hm
    simp only [structSpec.fieldSpec, hm, hidx] at hrun
    cases ha : assignAt h v (x :: rest) false (.mk "" "" false [] t) t d with
    | error p => rw [ha] at hrun; cases hrun
    | ok o =>
      rw [ha] at hrun
      simp only [Except.ok.injEq] at hrun
      rw [← hrun]
      exact assignAt_frame h v x rest _ t d o i hx ha

/-- The body of the loop for a nested mapping: the inner loop with the nested
`ScanStruct` as decoder. -/
theorem scanValue_mapping (h : Host) (ss : structSpec) (t : Ty) (vv : List Entry) (k : String)
    (vals : List Val) (c : Cache) :
    scanValue h ss t (.mapping vv) k (.struct vals) c =
      match scanNested (fun dest c1 => ScanStruct h vv dest c1) t.fields k t.fields vals c with
      | .error p => .error p
      | .ok (vals1, c1) => .ok ⟨.struct vals1, none, c1⟩ := by
  rw [scanValue]
  rfl

theorem scanEntry_frame (h : Host) (ss : structSpec) (n : String) (all : List StructField)
    (sc : Option Nat) (hnames : (all.map StructField.Name).Nodup) (k : String) (i : Nat)
    (f : StructField) (hf : all[i]? = some f) (htag : f.Tag.Get "scan" = k)
    (e : Entry) (he : e.Avoids ss k i) (d : Val) (c : Cache) (r : LoopState)
    (hrun : scanEntry h ss (.struct n all sc) e d c = .ok r) : r.d.field i = d.field i := by
  cases e with
  | mk k1 v =>
    rw [scanEntry] at hrun
    simp only [Entry.Avoids, Entry.key, Entry.value] at he
    by_cases hv : v.isMapping = false
    · exact scanValue_scalar_frame h ss _ v k1 d c r i hv (he.2 hv) hrun
    · cases v with
      | mapping vv =>
        cases d with
        | struct vals =>
          rw [scanValue_mapping] at hrun
          cases hn : scanNested (fun dest c1 => ScanStruct h vv dest c1)
              (Ty.struct n all sc).fields k1 (Ty.struct n all sc).fields vals c with
          | error p => rw [hn] at hrun; cases hrun
          | ok rn =>
            obtain ⟨vals1, c1⟩ := rn
            rw [hn] at hrun
            simp only [Except.ok.injEq] at hrun
            rw [← hrun]
            simp only [Val.field]
            refine scanNested_frame _ all k1 i all ?_ vals c vals1 c1 hn
            intro g hg hgk
            refine findIdx_name_ne all hnames i f g hf hg ?_
            intro hgf
            subst hgf
            exact he.1 (hgk.symm.trans htag)
        | _ =>
          rw [scanValue] at hrun
          · cases hrun
          · intro vals hv2
            cases hv2
      | _ => simp [Dyn.isMapping] at hv

theorem scanEntries_frame (h : Host) (ss : structSpec) (n : String) (all : List StructField)
    (sc : Option Nat) (hnames : (all.map StructField.Name).Nodup) (k : String) (i : Nat)
    (f : StructField) (hf : all[i]? = some f) (htag : f.Tag.Get "scan" = k)
    (L : List Entry) (hL : ∀ e ∈ L, e.Avoids ss k i) (d : Val) (c : Cache) (r : LoopState)
    (hrun : scanEntries h ss (.struct n all sc) L d c = .ok r) : r.d.field i = d.field i := by
  induction L generalizing d c with
  | nil =>
    rw [scanEntries] at hrun
    simp only [Except.ok.injEq] at hrun
    rw [← hrun]
  | cons e rest ih =>
    rw [scanEntries] at hrun
    cases he : scanEntry h ss (.struct n all sc) e d c with
    | error p => rw [he] at hrun; cases hrun
    | ok r1 =>
      rw [he] at hrun
      have h1 := scanEntry_frame h ss n all sc hnames k i f hf htag e
        (hL e (List.mem_cons_self _ _)) d c r1 he
      simp only [] at hrun
      cases herr : r1.err with
      | some x =>
        rw [herr] at hrun
        simp only [Except.ok.injEq] at hrun
        rw [← hrun, h1]
      | none =>
        rw [herr] at hrun
        simp only [] at hrun
        rw [ih (fun x hx => hL x (List.mem_cons_of_mem _ hx)) _ _ hrun, h1]

theorem scanEntries_append (h : Host) (ss : structSpec) (t : Ty) (A B : List Entry) (d : Val)
    (c : Cache) :
    scanEntries h ss t (A ++ B) d c =
      match scanEntries h ss t A d c with
      | .error p => .error p
      | .ok r =>
        match r.err with
        | some _ => .ok r
        | none => scanEntries h ss t B r.d r.cache := by
  induction A generalizing d c with
  | nil =>
    rw [List.nil_append, scanEntries]
  | cons e rest ih =>
    rw [List.cons_append, scanEntries, scanEntries]
    cases he : scanEntry h ss t e d c with
    | error p => rfl
    | ok r1 =>
      simp only []
      cases herr : r1.err with
      | some x => simp only [herr]
      | none => exact ih _ _

theorem fieldWriteBack_ptr (st : Ty) (v : Val) (ty : Ty) (v1 : Val) :
    fieldWriteBack (.ptr st) v (some (ty, v1)) = v1 := by
  cases v <;> rfl

/-- Induction along pointer types: a property of every type that is no pointer
which passes from `e` to `*e` holds of all types. -/
theorem Ty.ptr_induction (P : Ty → Prop) (hbase : ∀ t, (∀ e, t ≠ .ptr e) → P t)
    (hptr : ∀ e, P e → P (.ptr e)) : ∀ t, P t := by
  apply @Ty.rec P (fun _ => True) (fun _ => True)
  case int => intro k s; exact hbase _ (fun e h => by cases h)
  case uint => intro k s; exact hbase _ (fun e h => by cases h)
  case float => intro k s; exact hbase _ (fun e h => by cases h)
  case bool => intro s; exact hbase _ (fun e h => by cases h)
  case string => intro s; exact hbase _ (fun e h => by cases h)
  case slice => intro e s _; exact hbase _ (fun e h => by cases h)
  case other => intro s; exact hbase _ (fun e h => by cases h)
  case iface => exact hbase _ (fun e h => by cases h)
  case ptr => intro e ih; exact hptr e ih
  case struct => intro name fields sc _; exact hbase _ (fun e h => by cases h)
  case mk => intros; trivial
  case nil => trivial
  case cons => intros; trivial

theorem Conversion_none : Err.Conversion none := by
  simp [Err.Conversion]

theorem Conversion_numError (fn : String) (e : Option NumErrKind) :
    Err.Conversion (e.map (Err.NumError fn)) := by
  cases e <;> simp [Err.Conversion, Err.kind]

theorem Conversion_cannotConvert (n : String) : Err.Conversion (some (.cannotConvert n)) := by
  simp [Err.Conversion, Err.kind]

theorem convertAssignString_kind (h : Host) (s : GoString) (ty : Ty) : ∀ (v : Val) (v1 : Val)
    (e : Option Err), convertAssignString h ty v s = .ok (v1, e) → Err.Conversion e := by
  refine Ty.ptr_induction
    (fun ty => ∀ (v : Val) (v1 : Val) (e : Option Err),
      convertAssignString h ty v s = .ok (v1, e) → Err.Conversion e) ?_ ?_ ty
  · intro t ht v v1 e hrun
    cases t with
    | ptr e1 => exact absurd rfl (ht e1)
    | slice elem sc =>
      simp only [convertAssignString] at hrun
      split_ifs at hrun <;> simp only [Except.ok.injEq, Prod.mk.injEq] at hrun <;>
        rw [← hrun.2]
      · exact Conversion_none
      · exact Conversion_cannotConvert _
    | _ =>
      simp only [convertAssignString, Except.ok.injEq, Prod.mk.injEq] at hrun
      rw [← hrun.2]
      first
        | exact Conversion_none
        | exact Conversion_cannotConvert _
        | exact Conversion_numError _ _
  · intro elem ih v v1 e hrun
    cases v with
    | ptr o =>
      cases o with
      | none => simp [convertAssignString] at hrun
      | some target =>
        simp only [convertAssignString] at hrun
        split at hrun
        · rename_i target1 err heq
          simp only [Except.ok.injEq, Prod.mk.injEq] at hrun
          rw [← hrun.2]
          exact ih _ _ _ heq
        · cases hrun
    | _ => simp [convertAssignString] at hrun

theorem noCalls_kind (r : Except Panic (Val × Option Err)) (o : Outcome)
    (hr : ∀ v e, r = .ok (v, e) → Err.Conversion e) (hrun : noCalls r = .ok o) :
    Err.Conversion o.err := by
  unfold noCalls at hrun
  split at hrun
  · rename_i v err
    cases hrun
    exact hr v err rfl
  · cases hrun

theorem callScan_kind (h : Host) (id : Nat) (target : Val) (s : Dyn) (tag : StructTag)
    (wrap : Val → Val) : Err.Conversion (callScan h id target s tag wrap).err := by
  simp only [callScan, Err.Conversion]
  cases (h.Scan id target s tag).2 <;> simp [Err.kind]

theorem convertAssignBulkString_kind (h : Host) (t : StructField) (ty : Ty) (v : Val)
    (s : Option GoString) (o : Outcome) (hrun : convertAssignBulkString h t ty v s = .ok o) :
    Err.Conversion o.err := by
  unfold convertAssignBulkString at hrun
  split at hrun
  · split_ifs at hrun <;> cases hrun
    · exact Conversion_none
    · exact Conversion_cannotConvert _
  · split at hrun
    · cases hrun; exact Conversion_none
    · split at hrun
      · cases hrun; exact callScan_kind _ _ _ _ _ _
      · exact noCalls_kind _ _ (fun v e => convertAssignString_kind h _ _ _ v e) hrun
  · exact noCalls_kind _ _ (fun v e => convertAssignString_kind h _ _ _ v e) hrun

theorem convertAssignNil_kind (ty : Ty) (v : Val) : Err.Conversion (convertAssignNil ty v).2 := by
  unfold convertAssignNil
  split
  · exact Conversion_none
  · exact Conversion_none
  · exact Conversion_cannotConvert _

theorem convertAssignInt_kind (ty : Ty) (v : Val) (s : Int) :
    Err.Conversion (convertAssignInt ty v s).2 := by
  unfold convertAssignInt
  split
  · split_ifs <;> simp [Err.Conversion, Err.kind]
  · simp only []
    split_ifs <;> simp [Err.Conversion, Err.kind]
  · exact Conversion_none
  · exact Conversion_cannotConvert _

theorem convertAssignError_kind (ty : Ty) (v : Val) (s : GoString) :
    Err.Conversion (convertAssignError ty v s).2 := by
  unfold convertAssignError
  split
  · exact Conversion_none
  · split_ifs
    · exact Conversion_none
    · exact Conversion_cannotConvert _
  · exact Conversion_cannotConvert _

theorem convertStructural_kind (h : Host) (t : StructField) (ty : Ty) (v : Val) (s : Dyn)
    (o : Outcome) (hrun : convertStructural h t ty v s = .ok o) : Err.Conversion o.err := by
  unfold convertStructural at hrun
  split at hrun
  · cases hrun; exact convertAssignNil_kind _ _
  · exact convertAssignBulkString_kind _ _ _ _ _ _ hrun
  · cases hrun; exact convertAssignInt_kind _ _ _
  · exact noCalls_kind _ _ (fun v e => convertAssignString_kind h _ _ _ v e) hrun
  · cases hrun; exact convertAssignError_kind _ _ _
  · cases hrun; exact Conversion_cannotConvert _

theorem convertAssignValue_kind (h : Host) (t : StructField) (ty : Ty) (v : Val) (s : Dyn)
    (o : Outcome) (hrun : convertAssignValue h t ty v s = .ok o) : Err.Conversion o.err := by
  unfold convertAssignValue at hrun
  split at hrun
  · split at hrun
    · cases hrun; exact callScan_kind _ _ _ _ _ _
    · exact convertStructural_kind _ _ _ _ _ _ hrun
  · split at hrun
    · cases hrun; exact callScan_kind _ _ _ _ _ _
    · exact convertStructural_kind _ _ _ _ _ _ hrun

theorem assignAt_kind (h : Host) (s : Dyn) (index : List Nat) : ∀ (inner : Bool)
    (f : StructField) (ty : Ty) (v : Val) (o : Outcome),
    assignAt h s index inner f ty v = .ok o → Err.Conversion o.err := by
  induction index with
  | nil =>
    intro inner f ty v o hrun
    rw [assignAt] at hrun
    exact convertAssignValue_kind _ _ _ _ _ _ hrun
  | cons x rest ih =>
    intro inner f ty v o hrun
    rw [assignAt] at hrun
    split at hrun
    · cases hrun
    · split at hrun
      · split at hrun
        · rename_i o1 heq
          cases hrun
          exact ih _ _ _ _ o1 heq
        · cases hrun
      · cases hrun

theorem Conversion_assignField (name : String) (e : Option Err) (he : Err.Conversion e) :
    Err.Conversion (e.map (Err.assignField name)) := by
  cases e with
  | none => exact Conversion_none
  | some x => simpa [Err.Conversion, Err.kind] using he

theorem scanValue_kind (h : Host) (ss : structSpec) (t : Ty) (v : Dyn) (k : String) (d : Val)
    (c : Cache) (r : LoopState) (hrun : scanValue h ss t v k d c = .ok r) :
    Err.Conversion r.err := by
  cases v with
  | mapping vv =>
    cases d with
    | struct vals =>
      simp only [scanValue] at hrun
      split at hrun
      · cases hrun
      · cases hrun; exact Conversion_none
    | _ => simp [scanValue] at hrun
  | _ =>
    rw [scanValue] at hrun
    · split at hrun
      · cases hrun; exact Conversion_none
      · split at hrun
        · cases hrun
        · rename_i o heq
          cases hrun
          exact Conversion_assignField _ _ (assignAt_kind _ _ _ _ _ _ _ _ heq)
    · intro _ hh; cases hh

theorem scanEntries_kind (h : Host) (ss : structSpec) (t : Ty) (src : List Entry) :
    ∀ (d : Val) (c : Cache) (r : LoopState),
      scanEntries h ss t src d c = .ok r → Err.Conversion r.err := by
  induction src with
  | nil =>
    intro d c r hrun
    rw [scanEntries] at hrun
    cases hrun
    exact Conversion_none
  | cons e rest ih =>
    intro d c r hrun
    rw [scanEntries] at hrun
    split at hrun
    · cases hrun
    · rename_i r1 heq
      split at hrun
      · cases hrun
        cases e with
        | mk k v =>
          rw [scanEntry] at heq
          exact scanValue_kind _ _ _ _ _ _ _ _ heq
      · exact ih _ _ _ hrun

theorem scanInto_invalid (body : structSpec → Ty → Val → Cache → Except Panic LoopState)
    (dest : Option (Ty × Val)) (c : Cache) (hd : validDest dest = false) :
    scanInto body dest c = .ok ⟨dest, some .errScanStructValue, c⟩ := by
  unfold scanInto
  split
  · simp [validDest] at hd
  · rfl

theorem scanInto_kind (body : structSpec → Ty → Val → Cache → Except Panic LoopState)
    (hbody : ∀ ss t d c r, body ss t d c = .ok r → Err.Conversion r.err)
    (dest : Option (Ty × Val)) (c : Cache) (hd : validDest dest = true) (r : ScanResult)
    (hrun : scanInto body dest c = .ok r) : Err.Conversion r.err := by
  unfold scanInto at hrun
  split at hrun
  · split at hrun
    · cases hrun
    · split at hrun
      · cases hrun
      · rename_i r1 heq
        cases hrun
        exact hbody _ _ _ _ _ heq
  · rename_i hno
    unfold validDest at hd
    split at hd
    · exact absurd rfl (hno _ _ _ _)
    · cases hd

/-- C12: `ScanStruct` returns the error `errScanStructValue`, the one of kind
InvalidDestination, exactly when the destination is not a non-nil pointer to
a structure, for every source; in that case the call returns at once with the
destination and the cache as they were. -/
theorem ScanStruct_invalid_destination (h : Host) (src : List Entry)
    (dest : Option (Ty × Val)) (c : Cache) :
    ((∃ r, ScanStruct h src dest c = .ok r ∧ r.err.map Err.kind = some .InvalidDestination) ↔
        validDest dest = false) ∧
      (validDest dest = false →
        ScanStruct h src dest c = .ok ⟨dest, some .errScanStructValue, c⟩) := by
  have hbad : validDest dest = false →
      ScanStruct h src dest c = .ok ⟨dest, some .errScanStructValue, c⟩ :=
    fun hd => scanInto_invalid _ dest c hd
  refine ⟨⟨?_, fun hd => ⟨_, hbad hd, rfl⟩⟩, hbad⟩
  rintro ⟨r, hrun, hk⟩
  cases hv : validDest dest with
  | false => rfl
  | true =>
    exact absurd hk
      (scanInto_kind _ (fun ss t d c1 r1 => scanEntries_kind h ss t src d c1 r1) dest c hv r hrun)

theorem ScanStruct_invalid_destination_witness :
    ScanStruct plainHost srcArea (some (tyUserInfo, userAbsent)) Cache.empty =
      .ok ⟨some (tyUserInfo, userAbsent), some .errScanStructValue, Cache.empty⟩ :=
  (ScanStruct_invalid_destination plainHost srcArea (some (tyUserInfo, userAbsent))
    Cache.empty).2 rfl

/-- C13, the code at the failing input: the tag `a,omitempty` gives the name
`a` with `omitEmpty` set, but for the tag `,omitempty` the empty first segment
fails the test `first && len(p) > 0`, reaches the default case of `switch p`
and compiling the type panics with `unknown field tag` for the empty option. -/
theorem empty_name_before_option_panics :
    parseTag (plainField "A" "a,omitempty" tyInt) = .field "a" true ∧
    parseTag (plainField "A" ",omitempty" tyInt) = .unknown "" ∧
    compileStructSpec (.struct "T" [plainField "A" ",omitempty" tyInt] none)
      (fun _ => none) [] structSpec.empty = .error (.unknownFieldTag "" "T") := by
  refine ⟨by decide, by decide, rfl⟩

theorem tagLoop_options_unknown (options : List (List Char)) :
    ∀ (name : String) (oe : Bool),
      (options.takeWhile (fun p => decide (p ≠ ['-']))).any
        (fun p => decide (p ≠ "omitempty".data)) = true →
      ∃ p, tagLoop options name oe false = .unknown p := by
  induction options with
  | nil => intro name oe h; simp at h
  | cons a rest ih =>
    intro name oe h
    by_cases ha : a = ['-']
    · simp [ha] at h
    · rw [List.takeWhile_cons_of_pos (by simpa using ha)] at h
      rw [List.any_cons, Bool.or_eq_true] at h
      rw [tagLoop, if_neg ha, if_neg (by simp)]
      by_cases hom : a = "omitempty".data
      · rw [if_pos hom]
        rcases h with h | h
        · simp [hom] at h
        · exact ih _ _ h
      · rw [if_neg hom]
        exact ⟨_, rfl⟩

theorem tagLoop_unknown (segs : List (List Char)) (name : String) (oe : Bool)
    (h : hasUnknownOption segs = true) : ∃ p, tagLoop segs name oe true = .unknown p := by
  cases segs with
  | nil => simp [hasUnknownOption] at h
  | cons a options =>
    simp only [hasUnknownOption, Bool.and_eq_true, decide_eq_true_eq] at h
    rw [tagLoop, if_neg h.1]
    by_cases hlen : a.length > 0
    · rw [if_pos ⟨rfl, hlen⟩]
      exact tagLoop_options_unknown options _ _ h.2
    · rw [if_neg (fun hh => hlen hh.2)]
      have ha : a = [] := by
        cases a with
        | nil => rfl
        | cons x xs => simp at hlen
      subst ha
      rw [if_neg (by decide)]
      exact ⟨_, rfl⟩

theorem runSteps_error (L : List Promoted) (c : Promoted) (hc : c ∈ L)
    (hu : (parseTag c.field).isUnknown = true) (st : DepthMap × structSpec) :
    ∃ p tn, runSteps L st = .error (.unknownFieldTag p tn) := by
  induction L generalizing st with
  | nil => cases hc
  | cons a rest ih =>
    rw [runSteps, stepPromoted_eq]
    cases hp : parseTag a.field with
    | unknown p => exact ⟨p, a.typeName, rfl⟩
    | skip =>
      rcases List.mem_cons.mp hc with h | h
      · rw [h, hp] at hu; cases hu
      · exact ih h _
    | field name oe =>
      rcases List.mem_cons.mp hc with h | h
      · rw [h, hp] at hu; cases hu
      · exact ih h _

/-- C14 as stated fails: in the tag `a,-` the segment `-` comes after the
first and is not `omitempty`, yet compiling the type returns a descriptor, from
which the field is left out without any report. -/
theorem dash_option_is_skipped_silently :
    hasUnknownOption (tagSegments "a,-".data) = false ∧
    parseTag (plainField "A" "a,-" tyInt) = .skip ∧
    compiledFor shapeDashOption "a" = some (none, []) := by
  refine ⟨by decide, by decide, by decide⟩

/-- C14, amended: when an ordinary field met by the walk of a structure type
has a tag in which the loop visits, after the first segment and with no
segment `-` up to it, a segment other than `omitempty`, compiling the type
panics with `unknown field tag`; `structSpecForType` then returns no
descriptor and stores none. -/
theorem compileStructSpec_unknown_option (t : Ty) (c : Promoted) (ht : t.Kind = .Struct)
    (hc : c ∈ promoted t [])
    (hopt : hasUnknownOption (tagSegments (c.field.Tag.Get "scan").data) = true) :
    ∃ p tn,
      compileStructSpec t (fun _ => none) [] structSpec.empty = .error (.unknownFieldTag p tn) ∧
      ∀ cache : Cache, cache t = none →
        structSpecForType cache t = .error (.unknownFieldTag p tn) := by
  have hu : (parseTag c.field).isUnknown = true := by
    obtain ⟨p, hp⟩ := tagLoop_unknown _ c.field.Name false hopt
    unfold parseTag
    rw [hp]
    rfl
  obtain ⟨p, tn, hrun⟩ := runSteps_error (promoted t []) c hc hu (fun _ => none, structSpec.empty)
  rw [← compileStructSpec_eq_runSteps t _ _ _ ht] at hrun
  refine ⟨p, tn, hrun, fun cache hcache => ?_⟩
  unfold structSpecForType
  simp only [hcache, hrun]

theorem compileStructSpec_unknown_option_witness :
    ∃ p tn,
      compileStructSpec shapeBadOption (fun _ => none) [] structSpec.empty =
        .error (.unknownFieldTag p tn) ∧
      ∀ cache : Cache, cache shapeBadOption = none →
        structSpecForType cache shapeBadOption = .error (.unknownFieldTag p tn) :=
  compileStructSpec_unknown_option shapeBadOption
    ⟨"T", plainField "A" "a,omitempty,x" tyInt, [], 0⟩ rfl (List.mem_cons_self _ _) (by decide)

theorem Ty.beq_sound_all (t : Ty) : ∀ u, Ty.beq t u = true → t = u := by
  apply @Ty.rec
    (fun t => ∀ u, Ty.beq t u = true → t = u)
    (fun f => ∀ g, StructField.beq f g = true → f = g)
    (fun fs => ∀ gs, fieldsBeq fs gs = true → fs = gs)
  case int => intro k s u h; cases u <;> simp_all [Ty.beq]
  case uint => intro k s u h; cases u <;> simp_all [Ty.beq]
  case float => intro k s u h; cases u <;> simp_all [Ty.beq]
  case bool => intro s u h; cases u <;> simp_all [Ty.beq]
  case string => intro s u h; cases u <;> simp_all [Ty.beq]
  case other => intro s u h; cases u <;> simp_all [Ty.beq]
  case iface => intro u h; cases u <;> simp_all [Ty.beq]
  case slice =>
    intro e s ih u h
    cases u <;> simp [Ty.beq] at h
    rw [ih _ h.1, h.2]
  case ptr =>
    intro e ih u h
    cases u <;> simp [Ty.beq] at h
    rw [ih _ h]
  case struct =>
    intro name fields sc ih u h
    cases u <;> simp [Ty.beq] at h
    rw [h.1.1, ih _ h.1.2, h.2]
  case mk =>
    intro Name PkgPath Anonymous Tag Typ ih g h
    cases g with
    | mk n p a t ty =>
      simp [StructField.beq] at h
      rw [h.1.1.1.1, h.1.1.1.2, h.1.1.2, h.1.2, ih _ h.2]
  case nil =>
    intro gs h
    cases gs with
    | nil => rfl
    | cons g gs => simp [fieldsBeq] at h
  case cons =>
    intro f fs ihf ihfs gs h
    cases gs with
    | nil => simp [fieldsBeq] at h
    | cons g gs =>
      simp [fieldsBeq] at h
      rw [ihf _ h.1, ihfs _ h.2]

theorem Ty.beq_refl_all (t : Ty) : Ty.beq t t = true := by
  apply @Ty.rec
    (fun t => Ty.beq t t = true)
    (fun f => StructField.beq f f = true)
    (fun fs => fieldsBeq fs fs = true)
  case int => intro k s; simp [Ty.beq]
  case uint => intro k s; simp [Ty.beq]
  case float => intro k s; simp [Ty.beq]
  case bool => intro s; simp [Ty.beq]
  case string => intro s; simp [Ty.beq]
  case other => intro s; simp [Ty.beq]
  case iface => simp [Ty.beq]
  case slice => intro e s ih; simp [Ty.beq, ih]
  case ptr => intro e ih; simp [Ty.beq, ih]
  case struct => intro name fields sc ih; simp [Ty.beq, ih]
  case mk => intro Name PkgPath Anonymous Tag Typ ih; simp [StructField.beq, ih]
  case nil => simp [fieldsBeq]
  case cons => intro f fs ihf ihfs; simp [fieldsBeq, ihf, ihfs]

theorem Ty.beq_iff (t u : Ty) : Ty.beq t u = true ↔ t = u :=
  ⟨Ty.beq_sound_all t u, fun h => h ▸ Ty.beq_refl_all t⟩

theorem structSpecForType_hit (c : Cache) (t : Ty) (ss : structSpec) (h : c t = some ss) :
    structSpecForType c t = .ok (ss, c) := by
  unfold structSpecForType
  simp only [h]

theorem structSpecForType_step (c : Cache) (t : Ty) (ss : structSpec) (c1 : Cache)
    (hc : c.Sound) (hrun : structSpecForType c t = .ok (ss, c1)) :
    c1.Sound ∧ c1 t = some ss ∧ (∀ u s0, c u = some s0 → c1 u = some s0) ∧
      compileFresh t = .ok ss := by
  unfold structSpecForType at hrun
  cases hct : c t with
  | some s1 =>
    simp only [hct, Except.ok.injEq, Prod.mk.injEq] at hrun
    rw [← hrun.1, ← hrun.2]
    exact ⟨hc, hct, fun _ _ h => h, hc t s1 hct⟩
  | none =>
    simp only [hct] at hrun
    cases hcomp : compileStructSpec t (fun _ => none) [] structSpec.empty with
    | error p => simp only [hcomp] at hrun; cases hrun
    | ok r =>
      obtain ⟨dm, s1⟩ := r
      simp only [hcomp, Except.ok.injEq, Prod.mk.injEq] at hrun
      have hfresh : compileFresh t = .ok ss := by
        unfold compileFresh
        rw [hcomp, hrun.1]
      rw [← hrun.2]
      refine ⟨?_, ?_, ?_, hfresh⟩
      · intro u s0 hu
        unfold Cache.store at hu
        split_ifs at hu with hb
        · rw [Ty.beq_sound_all u t hb]
          cases hu
          rw [hrun.1]
          exact hfresh
        · exact hc u s0 hu
      · unfold Cache.store
        rw [if_pos (Ty.beq_refl_all t), hrun.1]
      · intro u s0 hu
        unfold Cache.store
        split_ifs with hb
        · rw [Ty.beq_sound_all u t hb, hct] at hu
          cases hu
        · exact hu

theorem cacheAfter_sound (ts : List Ty) : ∀ c : Cache, c.Sound →
    (cacheAfter c ts).Sound ∧ ∀ u s0, c u = some s0 → cacheAfter c ts u = some s0 := by
  induction ts with
  | nil => intro c hc; exact ⟨hc, fun _ _ h => h⟩
  | cons t ts ih =>
    intro c hc
    rw [cacheAfter]
    cases hrun : structSpecForType c t with
    | error p => exact ih c hc
    | ok r =>
      obtain ⟨ss, c1⟩ := r
      obtain ⟨h1, _, h3, _⟩ := structSpecForType_step c t ss c1 hc hrun
      exact ⟨(ih c1 h1).1, fun u s0 hu => (ih c1 h1).2 u s0 (h3 u s0 hu)⟩

theorem Cache.empty_sound : Cache.empty.Sound := by
  intro u s0 h
  cases h

theorem structSpecForType_returned (c : Cache) (t : Ty) (hc : c.Sound) :
    returned (structSpecForType c t) = compileFresh t := by
  cases hct : c t with
  | some s1 =>
    rw [structSpecForType_hit c t s1 hct, hc t s1 hct]
    rfl
  | none =>
    unfold structSpecForType compileFresh
    simp only [hct]
    cases compileStructSpec t (fun _ => none) [] structSpec.empty with
    | error p => rfl
    | ok r => rfl

/-- C16: after any sequence `before` of calls of `structSpecForType` from the
empty cache, a call for a type `t` returns what compiling `t` gives (the
descriptor, or the panic); when it returns `ss`, the cache holds `ss` for `t`
and, after any further calls `later`, a call for `t` returns `ss` again and
leaves the cache alone; and whatever the cache holds for a type `u` it still
holds after the call for `t` and after any further calls. -/
theorem structSpecForType_stable (before later : List Ty) (t : Ty) :
    returned (structSpecForType (cacheAfter Cache.empty before) t) = compileFresh t ∧
    (∀ ss c1, structSpecForType (cacheAfter Cache.empty before) t = .ok (ss, c1) →
      c1 t = some ss ∧
        structSpecForType (cacheAfter c1 later) t = .ok (ss, cacheAfter c1 later)) ∧
    (∀ u s0, cacheAfter Cache.empty before u = some s0 →
      cacheAfter (cacheAfter Cache.empty before) (t :: later) u = some s0) := by
  have hc := (cacheAfter_sound before Cache.empty Cache.empty_sound).1
  refine ⟨structSpecForType_returned _ t hc, fun ss c1 hrun => ?_, fun u s0 hu => ?_⟩
  · obtain ⟨h1, h2, _, _⟩ := structSpecForType_step _ t ss c1 hc hrun
    exact ⟨h2, structSpecForType_hit _ t ss ((cacheAfter_sound later c1 h1).2 t ss h2)⟩
  · exact (cacheAfter_sound (t :: later) _ hc).2 u s0 hu

theorem structSpecForType_stable_witness :
    returned (structSpecForType (cacheAfter Cache.empty [tyArea, tyNum]) tyNum) =
      compileFresh tyNum :=
  (structSpecForType_stable [tyArea, tyNum] [tyUserInfo] tyNum).1

/-- C17, the code at the failing input: for `struct { Inner; Top int "scan:x";
*Other }` the field `Top` at depth 0 replaces the map entry of the deeper
`Inner.X`, but the branch `len(index) < d` only appends to the ordered list,
which keeps the shadowed entry: the list holds the name `x` twice and its
first entry is not the map entry for `x`.  For a tie the branch
`len(index) == d` removes the name from both. -/
theorem shadowed_entry_stays_in_list :
    compiledFor shapeShadow "x" =
      some (some ⟨"x", [1], false⟩, [⟨"x", [0, 0], false⟩, ⟨"x", [1], false⟩]) ∧
    compiledFor shapeTie "x" = some (none, []) := by
  decide

/-- On any sequence of bytes the loop of `ParseUint` reports a range error as
soon as the digits read exceed the bound, a syntax error at the first byte
that is no digit if it gets there, and the value otherwise. -/
theorem parseUintLoop_any (maxVal : Nat) (hmax : maxVal < 2 ^ 64) (s : List UInt8)
    (n : Nat) (hn : n ≤ maxVal) :
    parseUintLoop maxVal s n =
      if digitsValue (s.takeWhile isDigit) n ≤ maxVal then
        (if s.all isDigit = true then (digitsValue s n, none) else (0, some .malformed))
      else (maxVal, some .outOfRange) := by
  induction s generalizing n with
  | nil => simp [parseUintLoop, digitsValue, hn]
  | cons c cs ih =>
    by_cases hc : 48 ≤ c.toNat ∧ c.toNat ≤ 57
    · have hcd : isDigit c = true := by simp [isDigit, hc]
      have hge := le_digitsValue (cs.takeWhile isDigit) (10 * n + (c.toNat - 48))
      rw [parseUintLoop, if_pos hc, List.takeWhile_cons_of_pos hcd, digitsValue_cons,
        digitsValue_cons, List.all_cons, hcd, Bool.true_and]
      norm_num at hmax
      by_cases h1 : n ≥ parseCutoff
      · rw [if_pos h1, if_neg]
        rw [parseCutoff_eq] at h1
        omega
      · rw [if_neg h1]
        rw [parseCutoff_eq] at h1
        have h10 : n * 10 % 2 ^ 64 = n * 10 := Nat.mod_eq_of_lt (by norm_num; omega)
        simp only [h10]
        by_cases h2 : 10 * n + (c.toNat - 48) < 2 ^ 64
        · have h3 : (n * 10 + (c.toNat - 48)) % 2 ^ 64 = 10 * n + (c.toNat - 48) := by
            rw [Nat.mod_eq_of_lt (by omega)]
            omega
          rw [h3]
          by_cases h4 : 10 * n + (c.toNat - 48) > maxVal
          · rw [if_pos (Or.inr h4), if_neg (by omega)]
          · rw [if_neg (by omega)]
            exact ih _ (by omega)
        · have h3 : (n * 10 + (c.toNat - 48)) % 2 ^ 64 < n * 10 := by
            norm_num at h2 ⊢
            omega
          rw [if_pos (Or.inl h3), if_neg]
          norm_num at h2
          omega
    · have hcd : isDigit c = false := by simp [isDigit, hc]
      rw [parseUintLoop, if_neg hc, List.takeWhile_cons_of_neg (by simp [hcd]), List.all_cons,
        hcd, Bool.false_and]
      simp only [digitsValue, List.foldl_nil, if_pos hn]
      split_ifs <;> first | rfl | contradiction

theorem ParseInt_eq (s : GoString) (bits : Nat) :
    ParseInt s bits = parseIntFinish (isNegative s) (ParseUint (unsignedPart s) bits) bits := by
  cases s with
  | nil => rfl
  | cons c cs => rfl

theorem parseIntFinish_bound (neg : Bool) (k : IntKind) :
    parseIntFinish neg (2 ^ k.Bits - 1, some .outOfRange) k.Bits =
      (nearestBound k.Bits neg, some .outOfRange) := by
  cases neg <;> cases k <;> rfl

theorem literalValue_some (s : GoString) (n : Int) (h : literalValue s = some n) :
    unsignedPart s ≠ [] ∧ (unsignedPart s).all isDigit = true ∧
      n = if isNegative s = true then -((digitsValue (unsignedPart s) 0 : Nat) : Int)
        else ((digitsValue (unsignedPart s) 0 : Nat) : Int) := by
  cases s with
  | nil => simp [literalValue] at h
  | cons c cs =>
    simp only [literalValue] at h
    by_cases h43 : c = 43
    · subst h43
      simp only [if_true] at h
      split_ifs at h with hd
      simp only [Option.some.injEq] at h
      have hneg : isNegative (43 :: cs) = false := by simp [isNegative]
      simp only [unsignedPart, true_or, if_true, hneg]
      exact ⟨hd.1, hd.2, by simp [h]⟩
    · rw [if_neg h43] at h
      by_cases h45 : c = 45
      · subst h45
        simp only [if_true] at h
        split_ifs at h with hd
        simp only [Option.some.injEq] at h
        have hneg : isNegative (45 :: cs) = true := by simp [isNegative]
        simp only [unsignedPart, or_true, if_true, hneg]
        exact ⟨hd.1, hd.2, by simp [h]⟩
      · rw [if_neg h45] at h
        split_ifs at h with hd
        simp only [Option.some.injEq] at h
        have hneg : isNegative (c :: cs) = false := by simp [isNegative, h45]
        have hor : ¬ (c = 43 ∨ c = 45) := by simp [h43, h45]
        simp only [unsignedPart, if_neg hor, hneg]
        exact ⟨by simp, hd, by simp [h]⟩

theorem literalValue_none (s : GoString) (h : literalValue s = none) :
    ¬ (unsignedPart s ≠ [] ∧ (unsignedPart s).all isDigit = true) := by
  cases s with
  | nil => simp [unsignedPart]
  | cons c cs =>
    simp only [literalValue] at h
    by_cases h43 : c = 43
    · subst h43
      simp only [if_true] at h
      split_ifs at h with hd
      simpa [unsignedPart] using hd
    · rw [if_neg h43] at h
      by_cases h45 : c = 45
      · subst h45
        simp only [if_true] at h
        split_ifs at h with hd
        simpa [unsignedPart] using hd
      · rw [if_neg h45] at h
        split_ifs at h with hd
        have hor : ¬ (c = 43 ∨ c = 45) := by simp [h43, h45]
        simp only [unsignedPart, if_neg hor]
        exact fun hh => hd hh.2

theorem ParseUint_any (k : IntKind) (s : GoString) :
    ParseUint s k.Bits =
      if digitsValue (s.takeWhile isDigit) 0 ≤ 2 ^ k.Bits - 1 then
        (if s ≠ [] ∧ s.all isDigit = true then (digitsValue s 0, none)
          else (0, some .malformed))
      else (2 ^ k.Bits - 1, some .outOfRange) := by
  unfold ParseUint
  by_cases hs : s = []
  · subst hs
    simp [digitsValue]
  · rw [if_neg hs, parseUintLoop_any _ (by cases k <;> norm_num [IntKind.Bits]) s 0
      (Nat.zero_le _)]
    simp only [ne_eq, hs, not_false_eq_true, true_and]

/-- What `strconv.ParseInt` returns for a text that is no literal: zero and a
syntax error, unless the digits it starts with exceed `2^bits - 1`, which
gives the bound on the side of the sign and a range error. -/
theorem ParseInt_not_literal (k : IntKind) (s : GoString) (h : literalValue s = none) :
    ParseInt s k.Bits =
      if digitsValue (digitPrefix s) 0 ≤ 2 ^ k.Bits - 1 then (0, some .malformed)
      else (nearestBound k.Bits (isNegative s), some .outOfRange) := by
  rw [ParseInt_eq, ParseUint_any, if_neg (literalValue_none s h)]
  unfold digitPrefix
  split_ifs
  · exact parseIntFinish_malformed _ _
  · exact parseIntFinish_bound _ _

/-- What `strconv.ParseInt` returns for a literal whose value does not fit:
the nearest bound and a range error. -/
theorem ParseInt_literal_range (k : IntKind) (s : GoString) (n : Int)
    (h : literalValue s = some n) (hr : ¬ InIntRange k.Bits n) :
    ParseInt s k.Bits = (nearestBound k.Bits (decide (n < 0)), some .outOfRange) := by
  obtain ⟨hne, hds, hn⟩ := literalValue_some s n h
  obtain ⟨c, hc, hci, hc0, hc63⟩ := pow_bits_pred k
  have hzero : InIntRange k.Bits 0 := by
    simp only [InIntRange, hci]
    omega
  rw [ParseInt_eq, ParseUint_digits k _ hne hds]
  cases hneg : isNegative s with
  | false =>
    rw [hneg] at hn
    simp only [Bool.false_eq_true, if_false] at hn
    have hlt : decide (n < 0) = false := by
      rw [decide_eq_false_iff_not, hn]
      omega
    rw [hlt]
    split_ifs
    · rw [parseIntFinish_pos, if_neg (hn ▸ hr)]
      simp only [nearestBound, Bool.false_eq_true, if_false, hc, hci]
      have hcast : ((c - 1 : Nat) : Int) = (c : Int) - 1 := by omega
      rw [hcast]
    · exact parseIntFinish_bound _ _
  | true =>
    rw [hneg] at hn
    simp only [if_true] at hn
    have hlt : decide (n < 0) = true := by
      rw [decide_eq_true_iff, hn]
      by_contra hcon
      have : n = 0 := by omega
      exact hr (this ▸ hzero)
    rw [hlt]
    split_ifs
    · rw [parseIntFinish_neg, if_neg (hn ▸ hr)]
      simp only [nearestBound, if_true, hc, hci]
    · exact parseIntFinish_bound _ _

theorem wrapInt_nearestBound (k : IntKind) (neg : Bool) :
    wrapInt k.Bits (nearestBound k.Bits neg) = nearestBound k.Bits neg := by
  cases neg <;> cases k <;> rfl

/-- C20 as stated fails: the text `999x` is no integer literal, yet coercing it
into an 8-bit signed destination that holds 7 leaves 127, not 0:
`strconv.ParseUint` reports the range error at the third digit, before it
reaches the `x`. -/
theorem digits_overflow_before_bad_byte :
    literalValue (ascii "999x") = none ∧
    convertAssignValue plainHost (plainField "N" "n" (.int .Int8 none)) (.int .Int8 none)
      (.int 7) (.text (ascii "999x")) =
      .ok ⟨.int 127, some (.NumError "ParseInt" .outOfRange), []⟩ := by
  exact ⟨by decide, rfl⟩

/-- C20, amended: the state after a failed coercion of a text into a signed
integer destination without custom decoder, whatever it held before.  A
literal whose value does not fit leaves the nearest bound, with a range error.
A text that is no literal leaves 0, with a syntax error, when the digits it
starts with (after an optional sign) denote at most `2^w - 1`; when they
denote more it leaves the bound on the side of the sign, with a range
error. -/
theorem convertAssignValue_text_failure (h : Host) (t : StructField) (k : IntKind) (v : Val)
    (s : GoString) :
    (∀ n, literalValue s = some n → ¬ InIntRange k.Bits n →
      convertAssignValue h t (.int k none) v (.text s) =
        .ok ⟨.int (nearestBound k.Bits (decide (n < 0))),
          some (.NumError "ParseInt" .outOfRange), []⟩) ∧
    (literalValue s = none → digitsValue (digitPrefix s) 0 ≤ 2 ^ k.Bits - 1 →
      convertAssignValue h t (.int k none) v (.text s) =
        .ok ⟨.int 0, some (.NumError "ParseInt" .malformed), []⟩) ∧
    (literalValue s = none → 2 ^ k.Bits - 1 < digitsValue (digitPrefix s) 0 →
      convertAssignValue h t (.int k none) v (.text s) =
        .ok ⟨.int (nearestBound k.Bits (isNegative s)),
          some (.NumError "ParseInt" .outOfRange), []⟩) := by
  refine ⟨fun n hn hr => ?_, fun hn hv => ?_, fun hn hv => ?_⟩
  · rw [convertAssignValue_text_int, ParseInt_literal_range k s n hn hr, wrapInt_nearestBound]
    rfl
  · rw [convertAssignValue_text_int, ParseInt_not_literal k s hn, if_pos hv, wrapInt_zero]
    rfl
  · rw [convertAssignValue_text_int, ParseInt_not_literal k s hn, if_neg (by omega),
      wrapInt_nearestBound]
    rfl

theorem convertAssignValue_text_failure_witness :
    convertAssignValue plainHost (plainField "N" "n" (.int .Int8 none)) (.int .Int8 none)
      (.int 7) (.text (ascii "-300")) =
      .ok ⟨.int (-128), some (.NumError "ParseInt" .outOfRange), []⟩ := by
  have hrun := (convertAssignValue_text_failure plainHost (plainField "N" "n" (.int .Int8 none))
    .Int8 (.int 7) (ascii "-300")).1 (-300) (by decide) (by decide)
  rw [hrun]
  have hb : nearestBound IntKind.Int8.Bits (decide ((-300 : Int) < 0)) = -128 := by decide
  rw [hb]

theorem pathFields_cons (inner : Bool) (ty : Ty) (x : Nat) (rest : List Nat)
    (fields : List StructField) (f : StructField) (fs : List StructField)
    (h1 : fieldsAt inner ty = some fields) (h2 : fields[x]? = some f)
    (h3 : pathFields true f.Typ rest = some fs) :
    pathFields inner ty (x :: rest) = some (f :: fs) := by
  rw [pathFields]
  simp only [h1, h2, h3]

theorem pathFields_embedded (f : StructField) (n : String) (fields : List StructField)
    (sc : Option Nat) (x : Nat) (rest : List Nat)
    (hf : f.Typ = .struct n fields sc ∨ f.Typ = .ptr (.struct n fields sc)) :
    pathFields true f.Typ (x :: rest) = pathFields false (.struct n fields sc) (x :: rest) := by
  rcases hf with h | h <;> rw [h] <;> simp only [pathFields, fieldsAt, if_true]

theorem promotedFields_mem (tname : String) (fs : List StructField) :
    ∀ (i : Nat) (index : List Nat) (c : Promoted), c ∈ promotedFields tname fs i index →
      ∃ j f, fs[j]? = some f ∧ c ∈ promotedField tname f (i + j) index := by
  induction fs with
  | nil => intro i index c hc; simp [promotedFields] at hc
  | cons g gs ih =>
    intro i index c hc
    rw [promotedFields, List.mem_append] at hc
    rcases hc with h | h
    · exact ⟨0, g, by simp, h⟩
    · obtain ⟨j, f, hj, hf⟩ := ih (i + 1) index c h
      refine ⟨j + 1, f, by simpa using hj, ?_⟩
      have : i + (j + 1) = i + 1 + j := by omega
      rw [this]
      exact hf

theorem promotedField_skip (tname Name PkgPath : String) (Anonymous : Bool) (Tag : StructTag)
    (Typ : Ty) (i : Nat) (index : List Nat) (h : PkgPath ≠ "" ∧ Anonymous = false) :
    promotedField tname (.mk Name PkgPath Anonymous Tag Typ) i index = [] := by
  cases Typ with
  | ptr e => cases e <;> simp only [promotedField, if_pos h]
  | _ => simp only [promotedField, if_pos h]

theorem promotedField_ordinary (tname Name PkgPath : String) (Anonymous : Bool)
    (Tag : StructTag) (Typ : Ty) (i : Nat) (index : List Nat)
    (h : ¬ (PkgPath ≠ "" ∧ Anonymous = false)) (hA : ¬ Anonymous = true) :
    promotedField tname (.mk Name PkgPath Anonymous Tag Typ) i index =
      [⟨tname, .mk Name PkgPath Anonymous Tag Typ, index, i⟩] := by
  cases Typ with
  | ptr e => cases e <;> simp only [promotedField, if_neg h, if_neg hA]
  | _ => simp only [promotedField, if_neg h, if_neg hA]

theorem promoted_valid_all (t : Ty) :
    (∀ (index : List Nat) (c : Promoted), c ∈ promoted t index →
      ∃ rel, c.path = index ++ rel ∧ ValidPath t rel c.field) ∧
    (∀ e, t = .ptr e → ∀ (index : List Nat) (c : Promoted), c ∈ promoted e index →
      ∃ rel, c.path = index ++ rel ∧ ValidPath e rel c.field) := by
  apply @Ty.rec
    (fun t => (∀ (index : List Nat) (c : Promoted), c ∈ promoted t index →
        ∃ rel, c.path = index ++ rel ∧ ValidPath t rel c.field) ∧
      (∀ e, t = .ptr e → ∀ (index : List Nat) (c : Promoted), c ∈ promoted e index →
        ∃ rel, c.path = index ++ rel ∧ ValidPath e rel c.field))
    (fun f => ∀ (tname : String) (i : Nat) (index : List Nat) (c : Promoted),
      c ∈ promotedField tname f i index →
        (c = ⟨tname, f, index, i⟩ ∧ f.Anonymous = false ∧ f.PkgPath = "") ∨
        (f.embedsStruct = true ∧ ∃ x rest passed, c.path = index ++ i :: x :: rest ∧
          pathFields true f.Typ (x :: rest) = some (passed ++ [c.field]) ∧
          (∀ g ∈ passed, g.embedsStruct = true) ∧
          c.field.Anonymous = false ∧ c.field.PkgPath = "" ∧
          (x :: rest).length = passed.length + 1))
    (fun fs => ∀ f ∈ fs, ∀ (tname : String) (i : Nat) (index : List Nat) (c : Promoted),
      c ∈ promotedField tname f i index →
        (c = ⟨tname, f, index, i⟩ ∧ f.Anonymous = false ∧ f.PkgPath = "") ∨
        (f.embedsStruct = true ∧ ∃ x rest passed, c.path = index ++ i :: x :: rest ∧
          pathFields true f.Typ (x :: rest) = some (passed ++ [c.field]) ∧
          (∀ g ∈ passed, g.embedsStruct = true) ∧
          c.field.Anonymous = false ∧ c.field.PkgPath = "" ∧
          (x :: rest).length = passed.length + 1))
  case int => intro k s; exact ⟨fun _ _ h => by simp [promoted] at h, fun e h => by cases h⟩
  case uint => intro k s; exact ⟨fun _ _ h => by simp [promoted] at h, fun e h => by cases h⟩
  case float => intro k s; exact ⟨fun _ _ h => by simp [promoted] at h, fun e h => by cases h⟩
  case bool => intro s; exact ⟨fun _ _ h => by simp [promoted] at h, fun e h => by cases h⟩
  case string => intro s; exact ⟨fun _ _ h => by simp [promoted] at h, fun e h => by cases h⟩
  case slice => intro e s _; exact ⟨fun _ _ h => by simp [promoted] at h, fun e h => by cases h⟩
  case other => intro s; exact ⟨fun _ _ h => by simp [promoted] at h, fun e h => by cases h⟩
  case iface => exact ⟨fun _ _ h => by simp [promoted] at h, fun e h => by cases h⟩
  case ptr =>
    intro e ih
    refine ⟨fun _ _ h => by simp [promoted] at h, fun e1 h => ?_⟩
    cases h
    exact ih.1
  case struct =>
    intro name fields sc ih
    refine ⟨fun index c hc => ?_, fun e h => by cases h⟩
    rw [promoted] at hc
    obtain ⟨j, f, hj, hf⟩ := promotedFields_mem name fields 0 index c hc
    rw [Nat.zero_add] at hf
    rcases ih f (List.getElem?_mem hj) name j index c hf with h | h
    · obtain ⟨hceq, hanon, hpkg⟩ := h
      refine ⟨[j], by rw [hceq]; rfl, ?_⟩
      unfold ValidPath
      refine ⟨[], ?_, fun g hg => absurd hg (List.not_mem_nil g), ?_, ?_, rfl⟩
      · rw [hceq]
        exact pathFields_cons false _ j [] fields f [] rfl hj rfl
      · rw [hceq]; exact hanon
      · rw [hceq]; exact hpkg
    · obtain ⟨hemb, x, rest, passed, hpath, hpf, hpassed, hanon, hpkg, hlen⟩ := h
      refine ⟨j :: x :: rest, hpath, ?_⟩
      unfold ValidPath
      refine ⟨f :: passed, ?_, ?_, hanon, hpkg, ?_⟩
      · exact pathFields_cons false _ j (x :: rest) fields f _ rfl hj hpf
      · intro g hg
        rcases List.mem_cons.mp hg with h1 | h1
        · rw [h1]; exact hemb
        · exact hpassed g h1
      · simp only [List.length_cons] at hlen ⊢
        omega
  case mk =>
    intro Name PkgPath Anonymous Tag Typ ih tname i index c hc
    have hsub : ∀ (n : String) (fs : List StructField) (sc : Option Nat),
        (Typ = .struct n fs sc ∨ Typ = .ptr (.struct n fs sc)) → Anonymous = true →
        (∀ (index : List Nat) (c : Promoted), c ∈ promoted (.struct n fs sc) index →
          ∃ rel, c.path = index ++ rel ∧ ValidPath (.struct n fs sc) rel c.field) →
        c ∈ promoted (.struct n fs sc) (index ++ [i]) →
        (StructField.mk Name PkgPath Anonymous Tag Typ).embedsStruct = true ∧
        ∃ x rest passed, c.path = index ++ i :: x :: rest ∧
          pathFields true (StructField.mk Name PkgPath Anonymous Tag Typ).Typ (x :: rest) =
            some (passed ++ [c.field]) ∧
          (∀ g ∈ passed, g.embedsStruct = true) ∧
          c.field.Anonymous = false ∧ c.field.PkgPath = "" ∧
          (x :: rest).length = passed.length + 1 := by
      intro n fs sc hty hA hP hmem
      obtain ⟨rel, hpath, passed, hpf, hpassed, hanon, hpkg, hlen⟩ := hP _ c hmem
      have hemb : (StructField.mk Name PkgPath Anonymous Tag Typ).embedsStruct = true := by
        rcases hty with h | h <;>
          simp [StructField.embedsStruct, StructField.Anonymous, StructField.Typ, hA, h]
      cases rel with
      | nil => simp at hlen
      | cons x rest =>
        refine ⟨hemb, x, rest, passed, ?_, ?_, hpassed, hanon, hpkg, hlen⟩
        · rw [hpath]; simp
        · rw [pathFields_embedded (StructField.mk Name PkgPath Anonymous Tag Typ) n fs sc x rest
            hty]
          exact hpf
    by_cases hskip : PkgPath ≠ "" ∧ Anonymous = false
    · rw [promotedField_skip _ _ _ _ _ _ _ _ hskip] at hc
      cases hc
    · by_cases hA : Anonymous = true
      · right
        cases Typ with
        | struct n fs sc =>
          rw [promotedField, if_neg hskip, if_pos hA] at hc
          exact hsub n fs sc (Or.inl rfl) hA ih.1 hc
        | ptr e =>
          cases e with
          | struct n fs sc =>
            rw [promotedField, if_neg hskip, if_pos hA] at hc
            exact hsub n fs sc (Or.inr rfl) hA (ih.2 _ rfl) hc
          | _ =>
            simp only [promotedField, if_neg hskip, if_pos hA] at hc
            cases hc
        | _ =>
          simp only [promotedField, if_neg hskip, if_pos hA] at hc
          cases hc
      · left
        have hA2 : Anonymous = false := by simpa using hA
        have hP : PkgPath = "" := by
          by_contra hne
          exact hskip ⟨hne, hA2⟩
        rw [promotedField_ordinary _ _ _ _ _ _ _ _ hskip hA] at hc
        exact ⟨List.mem_singleton.mp hc, hA2, hP⟩
  case nil => intro f hf; cases hf
  case cons =>
    intro f fs ihf ihfs g hg
    rcases List.mem_cons.mp hg with h | h
    · rw [h]; exact ihf
    · exact ihfs g h

theorem resolveName_allFrom (L : List Promoted) (c : Promoted) (hc : c ∈ L) (name : String)
    (oe : Bool) (hp : parseTag c.field = .field name oe) (depth : DepthMap) (ss : structSpec)
    (hss : ss.AllFrom L) : (resolveName depth ss name oe c.index c.pos).2.AllFrom L := by
  unfold resolveName
  simp only []
  split_ifs with h1 h2
  · refine ⟨fun k fs hk => ?_, fun fs hfs => ?_⟩
    · simp only [] at hk
      split_ifs at hk
      exact hss.1 k fs hk
    · exact hss.2 fs (List.mem_filter.mp hfs).1
  · refine ⟨fun k fs hk => ?_, fun fs hfs => ?_⟩
    · simp only [] at hk
      split_ifs at hk with hkn
      · simp only [Option.some.injEq] at hk
        rw [← hk]
        exact ⟨hkn.symm, c, hc, rfl, hp⟩
      · exact hss.1 k fs hk
    · simp only [List.mem_append, List.mem_singleton] at hfs
      rcases hfs with h | h
      · exact hss.2 fs h
      · rw [h]
        exact ⟨c, hc, rfl, hp⟩
  · exact hss

theorem runSteps_allFrom (L : List Promoted) (st st1 : DepthMap × structSpec)
    (hst : st.2.AllFrom L) (hrun : runSteps L st = .ok st1) : st1.2.AllFrom L := by
  refine runSteps_preserves (fun s => s.2.AllFrom L) L ?_ st st1 hst hrun
  intro c hc s s1 hs hstep
  rw [stepPromoted_eq] at hstep
  cases hp : parseTag c.field with
  | skip =>
    rw [hp] at hstep
    simp only [Except.ok.injEq] at hstep
    rw [← hstep]
    exact hs
  | unknown p =>
    rw [hp] at hstep
    cases hstep
  | field name oe =>
    rw [hp] at hstep
    simp only [Except.ok.injEq] at hstep
    rw [← hstep]
    exact resolveName_allFrom L c hc name oe hp s.1 s.2 hs

theorem structSpec.empty_allFrom (L : List Promoted) : structSpec.empty.AllFrom L :=
  ⟨fun _ _ h => Option.noConfusion h, fun fs h => absurd h (List.not_mem_nil fs)⟩

theorem compileStructSpec_allFrom (t : Ty) (ht : t.Kind = .Struct) (dm : DepthMap)
    (ss : structSpec)
    (hrun : compileStructSpec t (fun _ => none) [] structSpec.empty = .ok (dm, ss)) :
    ss.AllFrom (promoted t []) := by
  rw [compileStructSpec_eq_runSteps t _ _ _ ht] at hrun
  exact runSteps_allFrom _ _ _ (structSpec.empty_allFrom _) hrun

theorem From_valid (t : Ty) (fs : fieldSpec) (h : fs.From (promoted t [])) :
    ∃ final, ValidPath t fs.index final ∧ parseTag final = .field fs.name fs.omitEmpty := by
  obtain ⟨c, hc, hidx, hp⟩ := h
  obtain ⟨rel, hrel, hv⟩ := (promoted_valid_all t).1 [] c hc
  rw [List.nil_append] at hrel
  rw [hidx, hrel]
  exact ⟨c.field, hv, hp⟩

/-- C18: for a structure type none of whose promoted fields has an
unrecognised tag option, compilation returns a descriptor, and for every entry
of it, in the ordered list or in the name map, `Type.FieldByIndex` follows its
path without leaving the range of any structure: the fields passed are
embedded structures (or pointers to them), the field reached is an exported,
not embedded field for which the tag loop gives the name and the option of the
entry, and the length of the path is the number of fields passed plus one. -/
theorem compileStructSpec_paths_valid (t : Ty) (ht : t.Kind = .Struct)
    (htags : ∀ e ∈ promoted t [], (parseTag e.field).isUnknown = false) :
    ∃ dm ss, compileStructSpec t (fun _ => none) [] structSpec.empty = .ok (dm, ss) ∧
      ∀ fs, (fs ∈ ss.l ∨ ∃ name, ss.m name = some fs) →
        ∃ passed final,
          pathFields false t fs.index = some (passed ++ [final]) ∧
          (∀ g ∈ passed, g.embedsStruct = true) ∧
          final.Anonymous = false ∧ final.PkgPath = "" ∧
          parseTag final = .field fs.name fs.omitEmpty ∧
          fs.index.length = passed.length + 1 := by
  obtain ⟨st1, hrun⟩ := runSteps_ok (promoted t []) htags (fun _ => none, structSpec.empty)
  rw [← compileStructSpec_eq_runSteps t _ _ _ ht] at hrun
  obtain ⟨dm, ss⟩ := st1
  refine ⟨dm, ss, hrun, fun fs hfs => ?_⟩
  have hall := compileStructSpec_allFrom t ht dm ss hrun
  have hfrom : fs.From (promoted t []) := by
    rcases hfs with h | ⟨name, h⟩
    · exact hall.2 fs h
    · exact (hall.1 name fs h).2
  obtain ⟨final, ⟨passed, h1, h2, h3, h4, h5⟩, hp⟩ := From_valid t fs hfrom
  exact ⟨passed, final, h1, h2, h3, h4, hp, h5⟩

theorem compileStructSpec_paths_valid_witness :
    ∃ dm ss, compileStructSpec shapeShadow (fun _ => none) [] structSpec.empty = .ok (dm, ss) ∧
      ∀ fs, (fs ∈ ss.l ∨ ∃ name, ss.m name = some fs) →
        ∃ passed final,
          pathFields false shapeShadow fs.index = some (passed ++ [final]) ∧
          (∀ g ∈ passed, g.embedsStruct = true) ∧
          final.Anonymous = false ∧ final.PkgPath = "" ∧
          parseTag final = .field fs.name fs.omitEmpty ∧
          fs.index.length = passed.length + 1 :=
  compileStructSpec_paths_valid shapeShadow rfl (by decide)

theorem enterStruct_leave (inner : Bool) (ty : Ty) (v : Val) (fields : List StructField)
    (vals : List Val) (viaPtr : Bool) (he : enterStruct inner ty v = .ok (fields, vals, viaPtr))
    (vals1 : List Val) :
    enterStruct inner ty (leaveStruct viaPtr vals1) = .ok (fields, vals1, viaPtr) := by
  unfold enterStruct at he
  split at he
  · simp only [Except.ok.injEq, Prod.mk.injEq] at he
    obtain ⟨h1, _, h3⟩ := he
    subst h1 h3
    rfl
  · split_ifs at he with hi
    simp only [Except.ok.injEq, Prod.mk.injEq] at he
    obtain ⟨h1, _, h3⟩ := he
    subst h1 h3
    simp [leaveStruct, enterStruct, hi]
  · split_ifs at he
  · cases he

theorem diverge_cons (x y : Nat) (p q : List Nat) (h : diverge (x :: p) (y :: q) = true) :
    x ≠ y ∨ (x = y ∧ diverge p q = true) := by
  rw [diverge] at h
  by_cases hxy : x = y
  · rw [if_pos hxy] at h
    exact Or.inr ⟨hxy, h⟩
  · exact Or.inl hxy

theorem diverge_symm (p : List Nat) : ∀ q, diverge p q = diverge q p := by
  induction p with
  | nil => intro q; cases q <;> rfl
  | cons x p ih =>
    intro q
    cases q with
    | nil => rfl
    | cons y q =>
      rw [diverge, diverge]
      by_cases hxy : x = y
      · rw [if_pos hxy, if_pos hxy.symm, ih q]
      · rw [if_neg hxy, if_neg (fun h => hxy h.symm)]

/-- Frame of one assignment: writing at the path `q` leaves what is read at a
path that parts from `q` as it was. -/
theorem assignAt_valueAt_frame (h : Host) (s : Dyn) (q : List Nat) :
    ∀ (p : List Nat) (inner : Bool) (f : StructField) (ty : Ty) (v : Val) (o : Outcome),
      diverge p q = true → assignAt h s q inner f ty v = .ok o →
      valueAt p inner ty o.val = valueAt p inner ty v := by
  induction q with
  | nil =>
    intro p inner f ty v o hd
    cases p <;> simp [diverge] at hd
  | cons y q ih =>
    intro p inner f ty v o hd hrun
    cases p with
    | nil => simp [diverge] at hd
    | cons x p =>
      rw [assignAt] at hrun
      cases he : enterStruct inner ty v with
      | error e => rw [he] at hrun; cases hrun
      | ok r =>
        obtain ⟨fields, vals, viaPtr⟩ := r
        rw [he] at hrun
        simp only [] at hrun
        cases hf : fields[y]? with
        | none => rw [hf] at hrun; cases hrun
        | some f1 =>
          cases hv : vals[y]? with
          | none => rw [hf, hv] at hrun; cases hrun
          | some v1 =>
            rw [hf, hv] at hrun
            simp only [] at hrun
            cases ha : assignAt h s q true f1 f1.Typ v1 with
            | error e => rw [ha] at hrun; cases hrun
            | ok o1 =>
              rw [ha] at hrun
              simp only [Except.ok.injEq] at hrun
              rw [← hrun]
              rw [valueAt, valueAt, enterStruct_leave inner ty v fields vals viaPtr he, he]
              simp only []
              rcases diverge_cons x y p q hd with hxy | ⟨hxy, hd1⟩
              · rw [List.getElem?_set_ne (fun hh => hxy hh.symm)]
              · subst hxy
                have hlt : x < vals.length := (List.getElem?_eq_some.mp hv).1
                rw [List.getElem?_set_self hlt, hf, hv]
                simp only []
                exact ih p true f1 f1.Typ v1 o1 hd1 ha

theorem assignAt_cons_ok (h : Host) (s : Dyn) (x : Nat) (rest : List Nat) (inner : Bool)
    (f : StructField) (ty : Ty) (v : Val) (o : Outcome) :
    assignAt h s (x :: rest) inner f ty v = .ok o ↔
      ∃ fields vals viaPtr f1 v1 o1,
        enterStruct inner ty v = .ok (fields, vals, viaPtr) ∧ fields[x]? = some f1 ∧
        vals[x]? = some v1 ∧ assignAt h s rest true f1 f1.Typ v1 = .ok o1 ∧
        o = ⟨leaveStruct viaPtr (vals.set x o1.val), o1.err, o1.calls⟩ := by
  rw [assignAt]
  constructor
  · intro hrun
    cases he : enterStruct inner ty v with
    | error e => rw [he] at hrun; cases hrun
    | ok r =>
      obtain ⟨fields, vals, viaPtr⟩ := r
      rw [he] at hrun
      simp only [] at hrun
      cases hf : fields[x]? with
      | none => rw [hf] at hrun; cases hrun
      | some f1 =>
        cases hv : vals[x]? with
        | none => rw [hf, hv] at hrun; cases hrun
        | some v1 =>
          rw [hf, hv] at hrun
          simp only [] at hrun
          cases ha : assignAt h s rest true f1 f1.Typ v1 with
          | error e => rw [ha] at hrun; cases hrun
          | ok o1 =>
            rw [ha] at hrun
            simp only [Except.ok.injEq] at hrun
            exact ⟨fields, vals, viaPtr, f1, v1, o1, rfl, hf, hv, ha, hrun.symm⟩
  · rintro ⟨fields, vals, viaPtr, f1, v1, o1, he, hf, hv, ha, ho⟩
    rw [he]
    simp only [hf, hv, ha, ho]

/-- Two assignments at paths that part from each other can be swapped: both
orders run through, return the same errors and leave the same value. -/
theorem assignAt_comm (h : Host) (s1 s2 : Dyn) (p : List Nat) :
    ∀ (q : List Nat) (inner : Bool) (f : StructField) (ty : Ty) (v : Val) (o1 o2 : Outcome),
      diverge p q = true → assignAt h s1 p inner f ty v = .ok o1 →
      assignAt h s2 q inner f ty o1.val = .ok o2 →
      ∃ o2a o1a, assignAt h s2 q inner f ty v = .ok o2a ∧ o2a.err = o2.err ∧
        assignAt h s1 p inner f ty o2a.val = .ok o1a ∧ o1a.err = o1.err ∧
        o1a.val = o2.val := by
  induction p with
  | nil => intro q inner f ty v o1 o2 hd; cases q <;> simp [diverge] at hd
  | cons x p ih =>
    intro q inner f ty v o1 o2 hd h1 h2
    cases q with
    | nil => simp [diverge] at hd
    | cons y q =>
      obtain ⟨fields, vals, viaPtr, fx, vx, a1, he, hfx, hvx, ha1, ho1⟩ :=
        (assignAt_cons_ok h s1 x p inner f ty v o1).mp h1
      have hxlt : x < vals.length := (List.getElem?_eq_some.mp hvx).1
      obtain ⟨fields2, vals2, viaPtr2, fy, vy, a2, he2, hfy, hvy, ha2, ho2⟩ :=
        (assignAt_cons_ok h s2 y q inner f ty o1.val o2).mp h2
      rw [ho1] at he2
      simp only [] at he2
      rw [enterStruct_leave inner ty v fields vals viaPtr he] at he2
      simp only [Except.ok.injEq, Prod.mk.injEq] at he2
      obtain ⟨hF, hV, hP⟩ := he2
      subst hF hV hP
      rcases diverge_cons x y p q hd with hxy | ⟨hxy, hd1⟩
      · rw [List.getElem?_set_ne hxy] at hvy
        refine ⟨⟨leaveStruct viaPtr (vals.set y a2.val), a2.err, a2.calls⟩,
          ⟨leaveStruct viaPtr ((vals.set y a2.val).set x a1.val), a1.err, a1.calls⟩,
          ?_, ?_, ?_, ?_, ?_⟩
        · exact (assignAt_cons_ok h s2 y q inner f ty v _).mpr
            ⟨fields, vals, viaPtr, fy, vy, a2, he, hfy, hvy, ha2, rfl⟩
        · rw [ho2]
        · refine (assignAt_cons_ok h s1 x p inner f ty _ _).mpr
            ⟨fields, vals.set y a2.val, viaPtr, fx, vx, a1,
              enterStruct_leave inner ty v fields vals viaPtr he _, hfx, ?_, ha1, rfl⟩
          rw [List.getElem?_set_ne (fun hh => hxy hh.symm)]
          exact hvx
        · rw [ho1]
        · rw [ho2]
          simp only []
          rw [List.set_comm _ _ _ (fun hh => hxy hh.symm)]
      · subst hxy
        rw [List.getElem?_set_self hxlt] at hvy
        simp only [Option.some.injEq] at hvy
        subst hvy
        rw [hfx] at hfy
        simp only [Option.some.injEq] at hfy
        subst hfy
        obtain ⟨b2, b1, hb2, hb2e, hb1, hb1e, hb1v⟩ :=
          ih q true fx fx.Typ vx a1 a2 hd1 ha1 ha2
        refine ⟨⟨leaveStruct viaPtr (vals.set x b2.val), b2.err, b2.calls⟩,
          ⟨leaveStruct viaPtr ((vals.set x b2.val).set x b1.val), b1.err, b1.calls⟩,
          ?_, ?_, ?_, ?_, ?_⟩
        · exact (assignAt_cons_ok h s2 x q inner f ty v _).mpr
            ⟨fields, vals, viaPtr, fx, vx, b2, he, hfx, hvx, hb2, rfl⟩
        · rw [ho2]
          exact hb2e
        · refine (assignAt_cons_ok h s1 x p inner f ty _ _).mpr
            ⟨fields, vals.set x b2.val, viaPtr, fx, b2.val, b1,
              enterStruct_leave inner ty v fields vals viaPtr he _, hfx, ?_, hb1, rfl⟩
          rw [List.getElem?_set_self hxlt]
        · rw [ho1]
          exact hb1e
        · rw [ho2]
          simp only [List.set_set, hb1v]

theorem pathFields_prefix (p : List Nat) :
    ∀ (q : List Nat) (inner : Bool) (ty : Ty) (L1 L2 : List StructField),
      pathFields inner ty p = some L1 → pathFields inner ty q = some L2 →
      diverge p q = false → (∃ r, L2 = L1 ++ r) ∨ (∃ r, L1 = L2 ++ r) := by
  induction p with
  | nil =>
    intro q inner ty L1 L2 h1 h2 _
    rw [pathFields] at h1
    simp only [Option.some.injEq] at h1
    exact Or.inl ⟨L2, by rw [← h1]; rfl⟩
  | cons x p ih =>
    intro q inner ty L1 L2 h1 h2 hd
    cases q with
    | nil =>
      rw [pathFields] at h2
      simp only [Option.some.injEq] at h2
      exact Or.inr ⟨L1, by rw [← h2]; rfl⟩
    | cons y q =>
      rw [diverge] at hd
      by_cases hxy : x = y
      · rw [if_pos hxy] at hd
        subst hxy
        rw [pathFields] at h1 h2
        cases hfa : fieldsAt inner ty with
        | none => rw [hfa] at h1; cases h1
        | some fields =>
          rw [hfa] at h1 h2
          simp only [] at h1 h2
          cases hf : fields[x]? with
          | none => rw [hf] at h1; cases h1
          | some f =>
            rw [hf] at h1 h2
            simp only [] at h1 h2
            cases hp : pathFields true f.Typ p with
            | none => rw [hp] at h1; cases h1
            | some M1 =>
              cases hq : pathFields true f.Typ q with
              | none => rw [hq] at h2; cases h2
              | some M2 =>
                rw [hp] at h1
                rw [hq] at h2
                simp only [Option.some.injEq] at h1 h2
                rcases ih q true f.Typ M1 M2 hp hq hd with ⟨r, hr⟩ | ⟨r, hr⟩
                · exact Or.inl ⟨r, by rw [← h1, ← h2, hr]; rfl⟩
                · exact Or.inr ⟨r, by rw [← h1, ← h2, hr]; rfl⟩
      · rw [if_neg hxy] at hd
        cases hd

theorem last_of_extension (passed1 passed2 r : List StructField) (f1 f2 : StructField)
    (h : passed2 ++ [f2] = (passed1 ++ [f1]) ++ r) : f1 = f2 ∨ f1 ∈ passed2 := by
  rcases List.eq_nil_or_concat r with hr | ⟨r1, z, hr⟩
  · subst hr
    rw [List.append_nil] at h
    have := List.append_inj' h rfl
    left
    simpa using this.2.symm
  · subst hr
    right
    rw [List.concat_eq_append, ← List.append_assoc] at h
    have := (List.append_inj' h rfl).1
    rw [this]
    simp

/-- Two valid paths that end at different ordinary fields part from each
other: none is a prefix of the other, since the fields a path passes are
embedded. -/
theorem ValidPath_diverge (t : Ty) (p q : List Nat) (f1 f2 : StructField)
    (h1 : ValidPath t p f1) (h2 : ValidPath t q f2) (hne : f1 ≠ f2) :
    diverge p q = true := by
  obtain ⟨passed1, hp1, hemb1, hA1, _, _⟩ := h1
  obtain ⟨passed2, hp2, hemb2, hA2, _, _⟩ := h2
  cases hd : diverge p q with
  | true => rfl
  | false =>
    exfalso
    have hnot : ∀ g : StructField, g.Anonymous = false → g.embedsStruct = true → False := by
      intro g hg he
      simp [StructField.embedsStruct, hg] at he
    rcases pathFields_prefix p q false t _ _ hp1 hp2 hd with ⟨r, hr⟩ | ⟨r, hr⟩
    · rcases last_of_extension passed1 passed2 r f1 f2 hr with h | h
      · exact hne h
      · exact hnot f1 hA1 (hemb2 f1 h)
    · rcases last_of_extension passed2 passed1 r f2 f1 hr with h | h
      · exact hne h.symm
      · exact hnot f2 hA2 (hemb1 f2 h)

/-- In a compiled descriptor the paths stored under two different names part
from each other. -/
theorem AllFrom_diverge (t : Ty) (ss : structSpec) (hss : ss.AllFrom (promoted t []))
    (k1 k2 : String) (fs1 fs2 : fieldSpec) (h1 : ss.m k1 = some fs1) (h2 : ss.m k2 = some fs2)
    (hne : k1 ≠ k2) : diverge fs1.index fs2.index = true := by
  obtain ⟨hn1, hf1⟩ := hss.1 k1 fs1 h1
  obtain ⟨hn2, hf2⟩ := hss.1 k2 fs2 h2
  obtain ⟨g1, hv1, hp1⟩ := From_valid t fs1 hf1
  obtain ⟨g2, hv2, hp2⟩ := From_valid t fs2 hf2
  refine ValidPath_diverge t _ _ g1 g2 hv1 hv2 ?_
  intro hg
  rw [hg, hp2] at hp1
  simp only [TagResult.field.injEq] at hp1
  exact hne (by rw [← hn1, ← hn2, hp1.1])

theorem ScanStruct_valid_ok (h : Host) (src : List Entry) (n : String)
    (all : List StructField) (sc : Option Nat) (d0 : Val) (c : Cache) (r : ScanResult) :
    ScanStruct h src (some (.ptr (.struct n all sc), .ptr (some d0))) c = .ok r ↔
      ∃ ss c1 rl, structSpecForType c (.struct n all sc) = .ok (ss, c1) ∧
        scanEntries h ss (.struct n all sc) src d0 c1 = .ok rl ∧
        r = ⟨some (.ptr (.struct n all sc), .ptr (some rl.d)), rl.err, rl.cache⟩ := by
  simp only [ScanStruct, scanInto]
  constructor
  · intro hrun
    cases hss : structSpecForType c (.struct n all sc) with
    | error p => rw [hss] at hrun; cases hrun
    | ok sc1 =>
      obtain ⟨ss, c1⟩ := sc1
      rw [hss] at hrun
      simp only [] at hrun
      cases hl : scanEntries h ss (.struct n all sc) src d0 c1 with
      | error p => rw [hl] at hrun; cases hrun
      | ok rl =>
        rw [hl] at hrun
        simp only [Except.ok.injEq] at hrun
        exact ⟨ss, c1, rl, rfl, hl, hrun.symm⟩
  · rintro ⟨ss, c1, rl, hss, hl, hr⟩
    rw [hss]
    simp only [hl, hr]

theorem scanEntries_preserves (h : Host) (ss : structSpec) (t : Ty) (I : Val → Prop)
    (L : List Entry)
    (hstep : ∀ e ∈ L, ∀ d c r, I d → scanEntry h ss t e d c = .ok r → I r.d)
    (d : Val) (c : Cache) (r : LoopState) (hI : I d)
    (hrun : scanEntries h ss t L d c = .ok r) : I r.d := by
  induction L generalizing d c with
  | nil =>
    rw [scanEntries] at hrun
    simp only [Except.ok.injEq] at hrun
    rw [← hrun]
    exact hI
  | cons e rest ih =>
    rw [scanEntries] at hrun
    cases he : scanEntry h ss t e d c with
    | error p => rw [he] at hrun; cases hrun
    | ok r1 =>
      rw [he] at hrun
      have h1 := hstep e (List.mem_cons_self _ _) d c r1 hI he
      simp only [] at hrun
      cases herr : r1.err with
      | some x =>
        rw [herr] at hrun
        simp only [Except.ok.injEq] at hrun
        rw [← hrun]
        exact h1
      | none =>
        rw [herr] at hrun
        simp only [] at hrun
        exact ih (fun x hx => hstep x (List.mem_cons_of_mem _ hx)) _ _ h1 hrun

/-- The first step of a path of a compiled descriptor: it indexes a field of
the structure, which is either the ordinary field the entry was made for or an
embedded structure. -/
theorem AllFrom_head (n : String) (all : List StructField) (sc : Option Nat) (ss : structSpec)
    (hss : ss.AllFrom (promoted (.struct n all sc) [])) (k : String) (fs : fieldSpec)
    (hm : ss.m k = some fs) :
    ∃ x rest fx, fs.index = x :: rest ∧ all[x]? = some fx ∧
      ((rest = [] ∧ fx.Anonymous = false ∧ parseTag fx = .field fs.name fs.omitEmpty) ∨
        fx.embedsStruct = true) := by
  obtain ⟨final, ⟨passed, hp, hemb, hA, _, hlen⟩, htag⟩ := From_valid _ fs (hss.1 k fs hm).2
  cases hidx : fs.index with
  | nil => rw [hidx] at hlen; simp at hlen
  | cons x rest =>
    rw [hidx] at hp hlen
    rw [pathFields] at hp
    simp only [fieldsAt] at hp
    cases hf : all[x]? with
    | none => rw [hf] at hp; cases hp
    | some fx =>
      rw [hf] at hp
      simp only [] at hp
      cases hM : pathFields true fx.Typ rest with
      | none => rw [hM] at hp; cases hp
      | some M =>
        rw [hM] at hp
        simp only [Option.some.injEq] at hp
        refine ⟨x, rest, fx, rfl, hf, ?_⟩
        cases passed with
        | nil =>
          left
          simp only [List.nil_append, List.cons.injEq] at hp
          simp only [List.length_cons, List.length_nil] at hlen
          refine ⟨List.eq_nil_of_length_eq_zero (by omega), ?_, ?_⟩
          · rw [hp.1]; exact hA
          · rw [hp.1]; exact htag
        | cons g passed1 =>
          right
          simp only [List.cons_append, List.cons.injEq] at hp
          rw [hp.1]
          exact hemb g (List.mem_cons_self _ _)

theorem parseTag_dash (f : StructField) (htag : f.Tag.Get "scan" = "-") : parseTag f = .skip := by
  rw [parseTag, htag]
  rfl

theorem Sound_allFrom (c : Cache) (hc : c.Sound) (n : String) (all : List StructField)
    (sc : Option Nat) (ss : structSpec) (c1 : Cache)
    (hss : structSpecForType c (.struct n all sc) = .ok (ss, c1)) :
    ss.AllFrom (promoted (.struct n all sc) []) ∧ c1.Sound := by
  obtain ⟨h1, _, _, h4⟩ := structSpecForType_step c _ ss c1 hc hss
  refine ⟨?_, h1⟩
  unfold compileFresh at h4
  cases hcomp : compileStructSpec (.struct n all sc) (fun _ => none) [] structSpec.empty with
  | error p => rw [hcomp] at h4; cases h4
  | ok r =>
    obtain ⟨dm, s1⟩ := r
    rw [hcomp] at h4
    simp only [Except.ok.injEq] at h4
    rw [← h4]
    exact compileStructSpec_allFrom (.struct n all sc) rfl dm s1 hcomp

theorem ranTo_ScanStruct (h : Host) (src : List Entry) (n : String) (all : List StructField)
    (sc : Option Nat) (d0 : Val) (c : Cache) (d1 : Val) (err : Option Err)
    (hrun : ranTo (ScanStruct h src (some (.ptr (.struct n all sc), .ptr (some d0))) c) =
      some (d1, err)) :
    ∃ ss c1 rl, structSpecForType c (.struct n all sc) = .ok (ss, c1) ∧
      scanEntries h ss (.struct n all sc) src d0 c1 = .ok rl ∧ rl.d = d1 ∧ rl.err = err := by
  cases hr : ScanStruct h src (some (.ptr (.struct n all sc), .ptr (some d0))) c with
  | error p => rw [hr] at hrun; simp [ranTo] at hrun
  | ok r =>
    obtain ⟨ss, c1, rl, hss, hl, hreq⟩ := (ScanStruct_valid_ok h src n all sc d0 c r).mp hr
    rw [hr, hreq] at hrun
    simp only [ranTo, Option.some.injEq, Prod.mk.injEq] at hrun
    exact ⟨ss, c1, rl, hss, hl, hrun.1, hrun.2⟩

/-- C15 as stated fails: for `Hidden`, whose field `Num` is tagged `-`,
decoding `{"-": {"one": "1"}}` stores 1 in the `Num` the field refers to: the
loop over the fields compares the tag with the key and finds `-` equal to
`-`. -/
theorem dash_field_is_decoded_by_key_dash :
    ranTo (ScanStruct plainHost srcDash
      (some (.ptr tyHidden, .ptr (some (.struct [.ptr (some (.struct [.int 0, .int 0]))]))))
      Cache.empty) =
      some (.struct [.ptr (some (.struct [.int 1, .int 0]))], none) := by
  rfl

/-- C15, amended: an ordinary (not embedded) field of the destination whose
`scan` tag is exactly `-` holds after `ScanStruct` what it held on entry, with
everything it refers to, whether the call returns an error or not, provided
the field names of the destination are distinct and the source has no mapping
under the key `-`. -/
theorem ScanStruct_dash_field_untouched (h : Host) (n : String) (all : List StructField)
    (sc : Option Nat) (vals : List Val) (i : Nat) (f : StructField) (src : List Entry)
    (c : Cache) (d1 : Val) (err : Option Err)
    (hnames : (all.map StructField.Name).Nodup)
    (hf : all[i]? = some f) (hA : f.Anonymous = false) (htag : f.Tag.Get "scan" = "-")
    (hsrc : ∀ e ∈ src, e.value.isMapping = true → e.key ≠ "-")
    (hc : c.Sound)
    (hrun : ranTo (ScanStruct h src
      (some (.ptr (.struct n all sc), .ptr (some (.struct vals)))) c) = some (d1, err)) :
    d1.field i = vals[i]? := by
  obtain ⟨ss, c1, rl, hss, hl, hd, _⟩ := ranTo_ScanStruct h src n all sc _ c d1 err hrun
  have hall := (Sound_allFrom c hc n all sc ss c1 hss).1
  rw [← hd]
  refine scanEntries_preserves h ss (.struct n all sc) (fun d => d.field i = vals[i]?) src ?_
    (.struct vals) c1 rl rfl hl
  intro e he d c2 r hI hstep
  simp only [] at hI ⊢
  rw [← hI]
  cases hv : e.value.isMapping with
  | false =>
    cases e with
    | mk k v =>
      rw [scanEntry] at hstep
      refine scanValue_scalar_frame h ss _ v k d c2 r i hv ?_ hstep
      intro fs hm
      obtain ⟨x, rest, fx, hidx, hfx, hcase⟩ := AllFrom_head n all sc ss hall k fs hm
      refine ⟨x, rest, hidx, ?_⟩
      intro hxi
      subst hxi
      rw [hf] at hfx
      simp only [Option.some.injEq] at hfx
      subst hfx
      rcases hcase with ⟨_, _, hp⟩ | hemb
      · rw [parseTag_dash f htag] at hp
        cases hp
      · simp [StructField.embedsStruct, hA] at hemb
  | true =>
    refine scanEntry_frame h ss n all sc hnames "-" i f hf htag e ⟨hsrc e he hv, ?_⟩ d c2 r hstep
    intro hv2
    rw [hv] at hv2
    cases hv2

theorem ScanStruct_dash_field_untouched_witness :
    (Val.struct [.int 7, .int 5]).field 0 = [Val.int 7, Val.int 0][0]? :=
  ScanStruct_dash_field_untouched plainHost "Partly"
    [plainField "A" "-" tyInt, plainField "B" "b" tyInt] none [.int 7, .int 0] 0
    (plainField "A" "-" tyInt) srcPartly Cache.empty (.struct [.int 7, .int 5]) none
    (by decide) rfl rfl rfl (by decide) Cache.empty_sound rfl

theorem valueAt_struct (i : Nat) (rest : List Nat) (n : String) (all : List StructField)
    (sc : Option Nat) (d : Val) :
    valueAt (i :: rest) false (.struct n all sc) d =
      match all[i]?, d.field i with
      | some f1, some v1 => valueAt rest true f1.Typ v1
      | _, _ => none := by
  cases d <;> simp only [valueAt, enterStruct, Val.field] <;> cases all[i]? <;> rfl

/-- C11 as stated fails: in `WithLite` the promoted field `X` has the name `x`
in the descriptor, with the path `[0, 0]`; the source `{"lite": {"x": "5"}}`
has no key `x`, yet after decoding the field holds 5 instead of 0, because the
mapping under `lite` is decoded into the embedded field tagged `lite`. -/
theorem promoted_field_changes_without_its_key :
    compiledFor tyWithLite "x" = some (some ⟨"x", [0, 0], false⟩, [⟨"x", [0, 0], false⟩]) ∧
    valueAt [0, 0] false tyWithLite (.struct [.ptr (some (.struct [.int 0]))]) =
      some (.int 0) ∧
    (ranTo (ScanStruct plainHost srcLite
      (some (.ptr tyWithLite, .ptr (some (.struct [.ptr (some (.struct [.int 0]))]))))
      Cache.empty)).bind (fun p => valueAt [0, 0] false tyWithLite p.1) = some (.int 5) := by
  refine ⟨by decide, rfl, rfl⟩

theorem structSpecForType_compiled (c : Cache) (hc : c.Sound) (t : Ty) (ss ss1 : structSpec)
    (c1 : Cache) (hcomp : compileFresh t = .ok ss)
    (hrun : structSpecForType c t = .ok (ss1, c1)) : ss1 = ss := by
  have h4 := (structSpecForType_step c t ss1 c1 hc hrun).2.2.2
  rw [hcomp] at h4
  simp only [Except.ok.injEq] at h4
  exact h4.symm

/-- C11, amended: take a destination structure with distinct field names and a
field that the descriptor lists under the name `x`, with the path `fs.index`.
If `x` is no key of the source, and no mapping of the source sits under a key
equal to the `scan` tag of the field of the structure at which the path
starts, then what the path reads after `ScanStruct` is what it read on entry,
whether the call returns an error or not. -/
theorem ScanStruct_absent_key_frame (h : Host) (n : String) (all : List StructField)
    (sc : Option Nat) (d0 : Val) (src : List Entry) (c : Cache) (ss : structSpec)
    (x : String) (fs : fieldSpec) (d1 : Val) (err : Option Err)
    (hnames : (all.map StructField.Name).Nodup)
    (hc : c.Sound)
    (hcomp : compileFresh (.struct n all sc) = .ok ss)
    (hx : ss.m x = some fs)
    (hkeys : ∀ e ∈ src, e.key ≠ x)
    (hmaps : ∀ e ∈ src, e.value.isMapping = true →
      ∀ i f, fs.index.head? = some i → all[i]? = some f → f.Tag.Get "scan" ≠ e.key)
    (hrun : ranTo (ScanStruct h src
      (some (.ptr (.struct n all sc), .ptr (some d0))) c) = some (d1, err)) :
    valueAt fs.index false (.struct n all sc) d1 =
      valueAt fs.index false (.struct n all sc) d0 := by
  obtain ⟨ss1, c1, rl, hss, hl, hd, _⟩ := ranTo_ScanStruct h src n all sc _ c d1 err hrun
  have hall := (Sound_allFrom c hc n all sc ss1 c1 hss).1
  have hsame := structSpecForType_compiled c hc _ ss ss1 c1 hcomp hss
  subst hsame
  obtain ⟨i, rest, fi, hidx, hfi, _⟩ := AllFrom_head n all sc ss1 hall x fs hx
  rw [← hd]
  refine scanEntries_preserves h ss1 (.struct n all sc)
    (fun d => valueAt fs.index false (.struct n all sc) d =
      valueAt fs.index false (.struct n all sc) d0) src ?_ d0 c1 rl rfl hl
  intro e he d c2 r hI hstep
  simp only [] at hI ⊢
  rw [← hI]
  cases hv : e.value.isMapping with
  | false =>
    cases e with
    | mk k v =>
      have hk : k ≠ x := hkeys _ he
      rw [scanEntry, scanValue_of_not_mapping h ss1 _ v k d c2 hv] at hstep
      cases hm : ss1.m k with
      | none =>
        simp only [structSpec.fieldSpec, hm, Except.ok.injEq] at hstep
        rw [← hstep]
      | some fs2 =>
        simp only [structSpec.fieldSpec, hm] at hstep
        cases ha : assignAt h v fs2.index false (.mk "" "" false [] (.struct n all sc))
            (.struct n all sc) d with
        | error p => rw [ha] at hstep; cases hstep
        | ok o =>
          rw [ha] at hstep
          simp only [Except.ok.injEq] at hstep
          rw [← hstep]
          exact assignAt_valueAt_frame h v fs2.index fs.index false _ _ d o
            (AllFrom_diverge _ ss1 hall x k fs fs2 hx hm (fun hh => hk hh.symm)) ha
  | true =>
    have hne : e.key ≠ fi.Tag.Get "scan" := by
      intro hh
      exact hmaps e he hv i fi (by rw [hidx]; rfl) hfi hh.symm
    have hfield := scanEntry_frame h ss1 n all sc hnames (fi.Tag.Get "scan") i fi hfi rfl e
      ⟨hne, fun hv2 => by rw [hv] at hv2; cases hv2⟩ d c2 r hstep
    rw [hidx, valueAt_struct, valueAt_struct, hfield]

theorem ScanStruct_absent_key_frame_witness :
    valueAt [0] false tyPair (.struct [.int 7, .int 5]) =
      valueAt [0] false tyPair (.struct [.int 7, .int 0]) :=
  ScanStruct_absent_key_frame plainHost "Pair"
    [plainField "A" "a" tyInt, plainField "B" "b" tyInt] none (.struct [.int 7, .int 0])
    [.mk "b" (.text (ascii "5"))] Cache.empty
    ⟨fun k => if k = "b" then some ⟨"b", [1], false⟩
      else if k = "a" then some ⟨"a", [0], false⟩ else none,
      [⟨"a", [0], false⟩, ⟨"b", [1], false⟩]⟩
    "a" ⟨"a", [0], false⟩ (.struct [.int 7, .int 5]) none
    (by decide) Cache.empty_sound rfl rfl (by decide)
    (fun e he hv => by
      rw [List.mem_singleton] at he
      subst he
      exact absurd hv (by decide))
    rfl

theorem scanEntry_stepTo (h : Host) (ss : structSpec) (t : Ty) (e : Entry)
    (he : e.value.isMapping = false) (d : Val) (c : Cache) (d1 : Val) :
    (∃ r, scanEntry h ss t e d c = .ok r ∧ r.err = none ∧ r.d = d1) ↔ StepTo h ss t e d d1 := by
  cases e with
  | mk k v =>
    simp only [Entry.value] at he
    rw [scanEntry, scanValue_of_not_mapping h ss t v k d c he]
    unfold StepTo
    simp only [Entry.key, Entry.value, structSpec.fieldSpec]
    cases hm : ss.m k with
    | none =>
      simp only []
      constructor
      · rintro ⟨r, hr, _, hd⟩
        simp only [Except.ok.injEq] at hr
        rw [← hd, ← hr]
      · intro hd
        exact ⟨⟨d, none, c⟩, rfl, rfl, hd.symm⟩
    | some fs =>
      simp only []
      constructor
      · rintro ⟨r, hr, herr, hd⟩
        cases ha : assignAt h v fs.index false (.mk "" "" false [] t) t d with
        | error p => rw [ha] at hr; cases hr
        | ok o =>
          rw [ha] at hr
          simp only [Except.ok.injEq] at hr
          rw [← hr] at herr hd
          simp only [Option.map_eq_none'] at herr
          exact ⟨o, rfl, herr, hd⟩
      · rintro ⟨o, ha, herr, hd⟩
        rw [ha]
        exact ⟨_, rfl, by simp [herr], hd⟩

theorem scanEntries_runTo (h : Host) (ss : structSpec) (t : Ty) (L : List Entry)
    (hL : ∀ e ∈ L, e.value.isMapping = false) :
    ∀ (d : Val) (c : Cache) (d1 : Val),
      (∃ rl, scanEntries h ss t L d c = .ok rl ∧ rl.err = none ∧ rl.d = d1) ↔
        RunTo h ss t L d d1 := by
  induction L with
  | nil =>
    intro d c d1
    rw [scanEntries, RunTo]
    constructor
    · rintro ⟨rl, hr, _, hd⟩
      simp only [Except.ok.injEq] at hr
      rw [← hd, ← hr]
    · intro hd
      exact ⟨_, rfl, rfl, hd.symm⟩
  | cons e rest ih =>
    intro d c d1
    have hrest : ∀ x ∈ rest, x.value.isMapping = false :=
      fun x hx => hL x (List.mem_cons_of_mem _ hx)
    have hstep := scanEntry_stepTo h ss t e (hL e (List.mem_cons_self _ _)) d c
    rw [scanEntries, RunTo]
    constructor
    · rintro ⟨rl, hr, herr, hd⟩
      cases he : scanEntry h ss t e d c with
      | error p => rw [he] at hr; cases hr
      | ok r1 =>
        rw [he] at hr
        simp only [] at hr
        cases h1 : r1.err with
        | some x =>
          rw [h1] at hr
          simp only [Except.ok.injEq] at hr
          rw [← hr, h1] at herr
          cases herr
        | none =>
          rw [h1] at hr
          simp only [] at hr
          exact ⟨r1.d, (hstep r1.d).mp ⟨r1, he, h1, rfl⟩,
            (ih hrest r1.d r1.cache d1).mp ⟨rl, hr, herr, hd⟩⟩
    · rintro ⟨d2, hs, hr⟩
      obtain ⟨r1, he, h1, hd2⟩ := (hstep d2).mpr hs
      rw [← hd2] at hr
      obtain ⟨rl, hrl, herr, hd⟩ := (ih hrest r1.d r1.cache d1).mpr hr
      refine ⟨rl, ?_, herr, hd⟩
      rw [he]
      simp only [h1]
      exact hrl

theorem StepTo_swap (h : Host) (ss : structSpec) (t : Ty) (hall : ss.AllFrom (promoted t []))
    (e1 e2 : Entry) (hne : e1.key ≠ e2.key) (d d1 d2 : Val)
    (h1 : StepTo h ss t e1 d d1) (h2 : StepTo h ss t e2 d1 d2) :
    ∃ d3, StepTo h ss t e2 d d3 ∧ StepTo h ss t e1 d3 d2 := by
  unfold StepTo at h1 h2 ⊢
  cases hm1 : ss.m e1.key with
  | none =>
    rw [hm1] at h1
    simp only [] at h1 ⊢
    subst h1
    exact ⟨d2, h2, rfl⟩
  | some fs1 =>
    cases hm2 : ss.m e2.key with
    | none =>
      rw [hm2] at h2
      rw [hm1] at h1
      simp only [] at h1 h2 ⊢
      subst h2
      exact ⟨d, rfl, h1⟩
    | some fs2 =>
      rw [hm1] at h1
      rw [hm2] at h2
      simp only [] at h1 h2 ⊢
      obtain ⟨o1, ha1, he1, hv1⟩ := h1
      obtain ⟨o2, ha2, he2, hv2⟩ := h2
      rw [← hv1] at ha2
      obtain ⟨b2, b1, hb2, hb2e, hb1, hb1e, hb1v⟩ :=
        assignAt_comm h e1.value e2.value fs1.index fs2.index false _ t d o1 o2
          (AllFrom_diverge t ss hall _ _ fs1 fs2 hm1 hm2 hne) ha1 ha2
      exact ⟨b2.val, ⟨b2, hb2, by rw [hb2e, he2], rfl⟩,
        ⟨b1, hb1, by rw [hb1e, he1], by rw [hb1v, hv2]⟩⟩

theorem RunTo_perm (h : Host) (ss : structSpec) (t : Ty) (hall : ss.AllFrom (promoted t []))
    (L1 L2 : List Entry) (hperm : L1.Perm L2) :
    (L1.map Entry.key).Nodup → ∀ d d1, RunTo h ss t L1 d d1 → RunTo h ss t L2 d d1 := by
  induction hperm with
  | nil => intro _ d d1 hr; exact hr
  | cons e _ ih =>
    intro hk d d1 hr
    rw [List.map_cons, List.nodup_cons] at hk
    rw [RunTo] at hr ⊢
    obtain ⟨d2, hs, hrest⟩ := hr
    exact ⟨d2, hs, ih hk.2 d2 d1 hrest⟩
  | swap x y l =>
    intro hk d d1 hr
    rw [List.map_cons, List.map_cons, List.nodup_cons] at hk
    have hne : y.key ≠ x.key := by
      intro hh
      exact hk.1 (by rw [hh]; exact List.mem_cons_self _ _)
    simp only [RunTo] at hr ⊢
    obtain ⟨d2, hs1, d3, hs2, hrest⟩ := hr
    obtain ⟨d4, hs3, hs4⟩ := StepTo_swap h ss t hall y x hne d d2 d3 hs1 hs2
    exact ⟨d4, hs3, d3, hs4, hrest⟩
  | trans hp1 _ ih1 ih2 =>
    intro hk d d1 hr
    exact ih2 ((List.Perm.nodup_iff (hp1.map Entry.key)).mp hk) d d1 (ih1 hk d d1 hr)

theorem validDest_shape (dest : Option (Ty × Val)) (hv : validDest dest = true) :
    ∃ n all sc d0, dest = some (.ptr (.struct n all sc), .ptr (some d0)) := by
  unfold validDest at hv
  split at hv
  · exact ⟨_, _, _, _, rfl⟩
  · cases hv

theorem ScanStruct_order_dir (h : Host) (src1 src2 : List Entry) (dest : Option (Ty × Val))
    (c : Cache) (hperm : src1.Perm src2) (hkeys : (src1.map Entry.key).Nodup)
    (hscalar : ∀ e ∈ src1, e.value.isMapping = false) (hc : c.Sound)
    (r1 : ScanResult) (hrun : ScanStruct h src1 dest c = .ok r1) (herr : r1.err = none) :
    ∃ r2, ScanStruct h src2 dest c = .ok r2 ∧ r2.err = none ∧ r2.dest = r1.dest := by
  cases hv : validDest dest with
  | false =>
    have hbad := scanInto_invalid (fun ss t d c1 => scanEntries h ss t src1 d c1) dest c hv
    unfold ScanStruct at hrun
    rw [hbad] at hrun
    simp only [Except.ok.injEq] at hrun
    rw [← hrun] at herr
    cases herr
  | true =>
    obtain ⟨n, all, sc, d0, hdest⟩ := validDest_shape dest hv
    subst hdest
    obtain ⟨ss, c1, rl, hss, hl, hr⟩ := (ScanStruct_valid_ok h src1 n all sc d0 c r1).mp hrun
    have hall := (Sound_allFrom c hc n all sc ss c1 hss).1
    rw [hr] at herr
    simp only [] at herr
    have hrun1 := (scanEntries_runTo h ss _ src1 hscalar d0 c1 rl.d).mp ⟨rl, hl, herr, rfl⟩
    have hrun2 := RunTo_perm h ss _ hall src1 src2 hperm hkeys d0 rl.d hrun1
    have hscalar2 : ∀ e ∈ src2, e.value.isMapping = false :=
      fun e he => hscalar e (hperm.mem_iff.mpr he)
    obtain ⟨rl2, hl2, herr2, hd2⟩ :=
      (scanEntries_runTo h ss _ src2 hscalar2 d0 c1 rl.d).mpr hrun2
    refine ⟨⟨some (.ptr (.struct n all sc), .ptr (some rl2.d)), rl2.err, rl2.cache⟩,
      (ScanStruct_valid_ok h src2 n all sc d0 c _).mpr ⟨ss, c1, rl2, hss, hl2, rfl⟩, herr2, ?_⟩
    rw [hr, hd2]

/-- C19, amended: for a destination that is a tree (no two pointers of it
share a target), a source none of whose values is a mapping and whose keys are
distinct, and a cache that holds compiled descriptors only, `ScanStruct` run
over the entries in one order returns without error and leaves the
destination `D` exactly when it does so over the entries in any other order;
so the two runs fail together (with an error or a panic) or succeed together
with the same destination. -/
theorem ScanStruct_order_independent (h : Host) (src1 src2 : List Entry)
    (dest : Option (Ty × Val)) (c : Cache) (D : Option (Ty × Val))
    (hperm : src1.Perm src2) (hkeys : (src1.map Entry.key).Nodup)
    (hscalar : ∀ e ∈ src1, e.value.isMapping = false) (hc : c.Sound) :
    (∃ r1, ScanStruct h src1 dest c = .ok r1 ∧ r1.err = none ∧ r1.dest = D) ↔
      (∃ r2, ScanStruct h src2 dest c = .ok r2 ∧ r2.err = none ∧ r2.dest = D) := by
  constructor
  · rintro ⟨r1, hrun, herr, hd⟩
    obtain ⟨r2, hrun2, herr2, hd2⟩ :=
      ScanStruct_order_dir h src1 src2 dest c hperm hkeys hscalar hc r1 hrun herr
    exact ⟨r2, hrun2, herr2, hd2.trans hd⟩
  · rintro ⟨r2, hrun, herr, hd⟩
    obtain ⟨r1, hrun1, herr1, hd1⟩ :=
      ScanStruct_order_dir h src2 src1 dest c hperm.symm
        ((List.Perm.nodup_iff (hperm.map Entry.key)).mp hkeys)
        (fun e he => hscalar e (hperm.mem_iff.mpr he)) hc r2 hrun herr
    exact ⟨r1, hrun1, herr1, hd1.trans hd⟩

theorem ScanStruct_order_independent_witness :
    ∃ r2, ScanStruct plainHost srcPairBA
        (some (.ptr tyPair, .ptr (some (.struct [.int 0, .int 0])))) Cache.empty = .ok r2 ∧
      r2.err = none ∧
      r2.dest = some (.ptr tyPair, .ptr (some (.struct [.int 1, .int 2]))) :=
  (ScanStruct_order_independent plainHost srcPairAB srcPairBA
    (some (.ptr tyPair, .ptr (some (.struct [.int 0, .int 0])))) Cache.empty
    (some (.ptr tyPair, .ptr (some (.struct [.int 1, .int 2]))))
    (List.Perm.swap _ _ _) (by decide) (by decide) Cache.empty_sound).mp ⟨_, rfl, rfl, rfl⟩

/-- C19 as stated fails: in a `TwoRefs` whose fields `A` and `B` hold the same
pointer, decoding `{"a": "1", "b": "2"}` succeeds in both orders of the keys
but leaves 2 in the shared target when `a` comes first and 1 when `b` comes
first. -/
theorem shared_target_depends_on_order :
    (scanSharedFor plainHost tyTwoRefs [0, 0] srcPairAB (fun _ => .int 0)).map
        (fun store => store 0) = some (.int 2) ∧
    (scanSharedFor plainHost tyTwoRefs [0, 0] srcPairBA (fun _ => .int 0)).map
        (fun store => store 0) = some (.int 1) := by
  exact ⟨rfl, rfl⟩

theorem structSpecForType_agree (c c1 : Cache) (t : Ty) (ss : structSpec) (c2 : Cache)
    (hc : c.Sound) (hc1 : c1.Sound) (hrun : structSpecForType c t = .ok (ss, c2)) :
    c2.Sound ∧ ∃ c3, structSpecForType c1 t = .ok (ss, c3) ∧ c3.Sound := by
  obtain ⟨h1, _, _, h4⟩ := structSpecForType_step c t ss c2 hc hrun
  refine ⟨h1, ?_⟩
  have hret := structSpecForType_returned c1 t hc1
  cases hr : structSpecForType c1 t with
  | error p =>
    rw [hr, h4] at hret
    simp [returned] at hret
  | ok r =>
    obtain ⟨ss1, c3⟩ := r
    rw [hr, h4] at hret
    simp only [returned, Except.ok.injEq] at hret
    rw [hret]
    rw [hret] at hr
    exact ⟨c3, rfl, (structSpecForType_step c1 t ss c3 hc1 hr).1⟩

theorem scanInto_agree (body : structSpec → Ty → Val → Cache → Except Panic LoopState)
    (hbody : ∀ ss t d, LoopAgree (body ss t d)) (dest : Option (Ty × Val)) :
    ScanAgree (scanInto body dest) := by
  intro c c1 r hc hc1 hrun
  cases hv : validDest dest with
  | false =>
    rw [scanInto_invalid body dest c hv] at hrun
    simp only [Except.ok.injEq] at hrun
    rw [← hrun]
    exact ⟨hc, _, scanInto_invalid body dest c1 hv, rfl, rfl⟩
  | true =>
    obtain ⟨n, all, sc, d0, hdest⟩ := validDest_shape dest hv
    subst hdest
    simp only [scanInto] at hrun ⊢
    cases hss : structSpecForType c (.struct n all sc) with
    | error p => rw [hss] at hrun; cases hrun
    | ok r0 =>
      obtain ⟨ss, c2⟩ := r0
      rw [hss] at hrun
      simp only [] at hrun
      obtain ⟨hc2, c3, hss1, hc3⟩ := structSpecForType_agree c c1 _ ss c2 hc hc1 hss
      cases hb : body ss (.struct n all sc) d0 c2 with
      | error p => rw [hb] at hrun; cases hrun
      | ok rl =>
        rw [hb] at hrun
        simp only [Except.ok.injEq] at hrun
        obtain ⟨hs, rl1, hb1, hd1, he1⟩ := hbody ss _ d0 c2 c3 rl hc2 hc3 hb
        rw [← hrun, hss1]
        simp only [hb1]
        exact ⟨hs, _, rfl, by rw [hd1], he1⟩

theorem scanNested_agree (decode : Option (Ty × Val) → Cache → Except Panic ScanResult)
    (hdec : ∀ dest, ScanAgree (decode dest)) (all : List StructField) (k : String)
    (rem : List StructField) :
    ∀ (vals : List Val) (c c1 : Cache) (vals1 : List Val) (c2 : Cache), c.Sound → c1.Sound →
      scanNested decode all k rem vals c = .ok (vals1, c2) →
      c2.Sound ∧ ∃ c3, scanNested decode all k rem vals c1 = .ok (vals1, c3) ∧ c3.Sound := by
  induction rem with
  | nil =>
    intro vals c c1 vals1 c2 hc hc1 hrun
    simp only [scanNested, Except.ok.injEq, Prod.mk.injEq] at hrun ⊢
    rw [← hrun.2]
    exact ⟨hc, c1, ⟨hrun.1, rfl⟩, hc1⟩
  | cons g rest ih =>
    intro vals c c1 vals1 c2 hc hc1 hrun
    rw [scanNested] at hrun ⊢
    by_cases hk : g.Tag.Get "scan" = k
    · rw [if_pos hk] at hrun ⊢
      cases hf : all[all.findIdx (fun x => decide (x.Name = g.Name))]? with
      | none => rw [hf] at hrun; cases hrun
      | some fj =>
        cases hv : vals[all.findIdx (fun x => decide (x.Name = g.Name))]? with
        | none => rw [hf, hv] at hrun; cases hrun
        | some vj =>
          rw [hf, hv] at hrun
          simp only [] at hrun ⊢
          by_cases hp : fj.PkgPath ≠ ""
          · rw [if_pos hp] at hrun; cases hrun
          · rw [if_neg hp] at hrun ⊢
            cases hd : decode (fieldInterface fj.Typ vj) c with
            | error p => rw [hd] at hrun; cases hrun
            | ok r =>
              rw [hd] at hrun
              simp only [] at hrun
              obtain ⟨hs, r1, hd1, hdest, _⟩ := hdec _ c c1 r hc hc1 hd
              have hs1 := (hdec _ c1 c1 r1 hc1 hc1 hd1).1
              rw [hd1]
              simp only []
              rw [hdest]
              exact ih _ r.cache r1.cache vals1 c2 hs hs1 hrun
    · rw [if_neg hk] at hrun ⊢
      exact ih vals c c1 vals1 c2 hc hc1 hrun

theorem scanValue_scalar_agree (h : Host) (ss : structSpec) (t : Ty) (v : Dyn) (k : String)
    (d : Val) (hv : v.isMapping = false) : LoopAgree (scanValue h ss t v k d) := by
  intro c c1 r hc hc1 hrun
  rw [scanValue_of_not_mapping h ss t v k d c hv] at hrun
  rw [scanValue_of_not_mapping h ss t v k d c1 hv]
  cases hm : ss.fieldSpec k with
  | none =>
    rw [hm] at hrun
    simp only [Except.ok.injEq] at hrun
    rw [← hrun]
    exact ⟨hc, _, rfl, rfl, rfl⟩
  | some fs =>
    rw [hm] at hrun
    simp only [] at hrun ⊢
    cases ha : assignAt h v fs.index false (.mk "" "" false [] t) t d with
    | error p => rw [ha] at hrun; cases hrun
    | ok o =>
      rw [ha] at hrun
      simp only [Except.ok.injEq] at hrun
      rw [← hrun]
      exact ⟨hc, _, rfl, rfl, rfl⟩

theorem scanValue_mapping_agree (h : Host) (m : List Entry)
    (hm : ∀ ss t d, LoopAgree (scanEntries h ss t m d)) (ss : structSpec) (t : Ty)
    (k : String) (d : Val) : LoopAgree (scanValue h ss t (.mapping m) k d) := by
  intro c c1 r hc hc1 hrun
  have hdec : ∀ dest, ScanAgree ((fun dest c2 => ScanStruct h m dest c2) dest) :=
    fun dest => scanInto_agree _ (fun ss1 t1 d1 => hm ss1 t1 d1) dest
  cases d with
  | struct vals =>
    rw [scanValue_mapping] at hrun ⊢
    cases hn : scanNested (fun dest c2 => ScanStruct h m dest c2) t.fields k t.fields vals c with
    | error p => rw [hn] at hrun; cases hrun
    | ok rn =>
      obtain ⟨vals1, c2⟩ := rn
      rw [hn] at hrun
      simp only [Except.ok.injEq] at hrun
      obtain ⟨hs, c3, hn1, _⟩ := scanNested_agree _ hdec t.fields k t.fields vals c c1 vals1 c2
        hc hc1 hn
      rw [hn1, ← hrun]
      exact ⟨hs, _, rfl, rfl, rfl⟩
  | _ => simp [scanValue] at hrun

theorem scanEntries_cons_agree (h : Host) (e : Entry) (rest : List Entry)
    (he : ∀ ss t d, LoopAgree (scanEntry h ss t e d))
    (hrest : ∀ ss t d, LoopAgree (scanEntries h ss t rest d)) (ss : structSpec) (t : Ty)
    (d : Val) : LoopAgree (scanEntries h ss t (e :: rest) d) := by
  intro c c1 r hc hc1 hrun
  rw [scanEntries] at hrun ⊢
  cases h1 : scanEntry h ss t e d c with
  | error p => rw [h1] at hrun; cases hrun
  | ok r1 =>
    rw [h1] at hrun
    simp only [] at hrun
    obtain ⟨hs, r2, h2, hd2, he2⟩ := he ss t d c c1 r1 hc hc1 h1
    have hs2 := (he ss t d c1 c1 r2 hc1 hc1 h2).1
    rw [h2]
    simp only []
    cases herr : r1.err with
    | some x =>
      rw [herr] at hrun
      simp only [Except.ok.injEq] at hrun
      rw [he2, herr]
      simp only []
      rw [← hrun]
      exact ⟨hs, r2, rfl, hd2, by rw [he2]⟩
    | none =>
      rw [herr] at hrun
      simp only [] at hrun
      rw [he2, herr]
      simp only []
      rw [hd2]
      exact hrest ss t r1.d r1.cache r2.cache r hs hs2 hrun

/-- The loop of `ScanStruct` over any source does not depend on which compiled
descriptors the cache holds when it starts. -/
theorem scan_agree_all (h : Host) (v : Dyn) :
    (∀ ss t k d, LoopAgree (scanValue h ss t v k d)) ∧
    (∀ m, v = .mapping m → ∀ ss t d, LoopAgree (scanEntries h ss t m d)) := by
  apply @Dyn.rec
    (fun v => (∀ ss t k d, LoopAgree (scanValue h ss t v k d)) ∧
      (∀ m, v = .mapping m → ∀ ss t d, LoopAgree (scanEntries h ss t m d)))
    (fun e => ∀ ss t d, LoopAgree (scanEntry h ss t e d))
    (fun L => ∀ ss t d, LoopAgree (scanEntries h ss t L d))
  case nil =>
    exact ⟨fun ss t k d => scanValue_scalar_agree h ss t _ k d rfl, fun m hm => by cases hm⟩
  case text =>
    intro s
    exact ⟨fun ss t k d => scanValue_scalar_agree h ss t _ k d rfl, fun m hm => by cases hm⟩
  case bytes =>
    intro s
    exact ⟨fun ss t k d => scanValue_scalar_agree h ss t _ k d rfl, fun m hm => by cases hm⟩
  case int =>
    intro s
    exact ⟨fun ss t k d => scanValue_scalar_agree h ss t _ k d rfl, fun m hm => by cases hm⟩
  case error =>
    intro s
    exact ⟨fun ss t k d => scanValue_scalar_agree h ss t _ k d rfl, fun m hm => by cases hm⟩
  case other =>
    intro s
    exact ⟨fun ss t k d => scanValue_scalar_agree h ss t _ k d rfl, fun m hm => by cases hm⟩
  case mapping =>
    intro m ih
    refine ⟨fun ss t k d => scanValue_mapping_agree h m ih ss t k d, fun m1 hm => ?_⟩
    cases hm
    exact ih
  case mk =>
    intro key value ih ss t d
    intro c c1 r hc hc1 hrun
    rw [scanEntry] at hrun ⊢
    exact ih.1 ss t key d c c1 r hc hc1 hrun
  case nil =>
    intro ss t d c c1 r hc hc1 hrun
    rw [scanEntries] at hrun ⊢
    simp only [Except.ok.injEq] at hrun
    rw [← hrun]
    exact ⟨hc, _, rfl, rfl, rfl⟩
  case cons =>
    intro e rest ihe ihrest ss t d
    exact scanEntries_cons_agree h e rest ihe ihrest ss t d

/-- The destination and the error `ScanStruct` returns do not depend on which
compiled descriptors the cache holds when it is called. -/
theorem ScanStruct_agree (h : Host) (src : List Entry) (dest : Option (Ty × Val)) :
    ScanAgree (ScanStruct h src dest) :=
  scanInto_agree _ (fun ss t d => (scan_agree_all h (.mapping src)).2 src rfl ss t d) dest

/-- The nested call made for field `i`, when the loop starts from a cache of
compiled descriptors: it runs from such a cache too. -/
theorem scanNested_target_sound
    (decode : Option (Ty × Val) → Cache → Except Panic ScanResult)
    (hdec : ∀ dest, ScanAgree (decode dest))
    (all : List StructField) (hnames : (all.map StructField.Name).Nodup) (k : String)
    (i : Nat) (f : StructField) (st : Ty) (hf : all[i]? = some f) (hexp : f.PkgPath = "")
    (hty : f.Typ = .ptr st) (htag : f.Tag.Get "scan" = k)
    (vals : List Val) (v : Val) (hv : vals[i]? = some v) (c : Cache) (hc : c.Sound)
    (vals1 : List Val) (c1 : Cache)
    (hrun : scanNested decode all k all vals c = .ok (vals1, c1)) :
    ∃ c2 r, c2.Sound ∧ decode (some (.ptr st, v)) c2 = .ok r ∧
      vals1[i]? = some (fieldWriteBack (.ptr st) v r.dest) := by
  obtain ⟨A, B, hall, hlen⟩ : ∃ A B, all = A ++ f :: B ∧ A.length = i := by
    have hi : i < all.length := (List.getElem?_eq_some.mp hf).1
    refine ⟨all.take i, all.drop (i + 1), ?_, by simp [Nat.min_eq_left (Nat.le_of_lt hi)]⟩
    have hd : all.drop i = f :: all.drop (i + 1) := by
      rw [List.drop_eq_getElem_cons hi]
      congr 1
      have := List.getElem?_eq_getElem hi
      rw [hf] at this
      exact (Option.some.inj this).symm
    rw [← hd, List.take_append_drop]
  have hother : ∀ g ∈ A ++ B, g.Tag.Get "scan" = k →
      all.findIdx (fun x => decide (x.Name = g.Name)) ≠ i := by
    intro g hg _
    have hgall : g ∈ all := by
      rw [hall]
      rcases List.mem_append.mp hg with h | h
      · exact List.mem_append_left _ h
      · exact List.mem_append_right _ (List.mem_cons_of_mem _ h)
    refine findIdx_name_ne all hnames i f g hf hgall ?_
    intro hgf
    subst hgf
    have hnd : (A ++ g :: B).Nodup := by
      rw [hall] at hnames
      exact List.Nodup.of_map _ hnames
    rw [List.nodup_append] at hnd
    rcases List.mem_append.mp hg with h | h
    · exact hnd.2.2 h (List.mem_cons_self _ _)
    · exact (List.nodup_cons.mp hnd.2.1).1 h
  have hrun2 := hrun
  conv at hrun2 => lhs; arg 4; rw [hall]
  rw [scanNested_append] at hrun2
  cases hA : scanNested decode all k A vals c with
  | error p => rw [hA] at hrun2; cases hrun2
  | ok rA =>
    obtain ⟨valsA, cA⟩ := rA
    rw [hA] at hrun2
    simp only [] at hrun2
    have hcA := (scanNested_agree decode hdec all k A vals c c valsA cA hc hc hA).1
    have hfrA := scanNested_frame decode all k i A
      (fun g hg => hother g (List.mem_append_left _ hg)) vals c valsA cA hA
    rw [scanNested, if_pos htag, findIdx_name_eq all hnames i f hf, hf, hfrA, hv] at hrun2
    simp only [hexp, ne_eq, not_true_eq_false, if_false, hty, fieldInterface] at hrun2
    cases hd : decode (some (.ptr st, v)) cA with
    | error p => rw [hd] at hrun2; cases hrun2
    | ok r =>
      rw [hd] at hrun2
      simp only [] at hrun2
      have hfrB := scanNested_frame decode all k i B
        (fun g hg => hother g (List.mem_append_right _ hg)) _ _ vals1 c1 hrun2
      refine ⟨cA, r, hcA, hd, ?_⟩
      rw [hfrB, List.getElem?_set_self]
      rw [← hfrA] at hv
      exact (List.getElem?_eq_some.mp hv).1

/-- C10, amended: nested decoding works in place.  Take a destination with
distinct field names whose field `i` is exported, of type pointer to `st` and
tagged `k`, and which refers to a structure `x` on entry; a source in which
`k` maps to the mapping `m` while no other entry reaches field `i`; and a
cache of compiled descriptors.  If `ScanStruct` returns without error, field
`i` still refers to a structure, and that structure is the one `ScanStruct` of
`m` leaves when called on a pointer to `x`, from any cache of compiled
descriptors. -/
theorem ScanStruct_nested_in_place (h : Host) (n : String) (all : List StructField)
    (sc : Option Nat) (vals : List Val) (i : Nat) (f : StructField) (st : Ty) (k : String)
    (m pre post : List Entry) (c : Cache) (r : ScanResult) (x : Val)
    (hnames : (all.map StructField.Name).Nodup)
    (hf : all[i]? = some f) (hexp : f.PkgPath = "") (hty : f.Typ = .ptr st)
    (htag : f.Tag.Get "scan" = k)
    (hc : c.Sound)
    (hothers : ∀ ss c1, structSpecForType c (.struct n all sc) = .ok (ss, c1) →
      ∀ e ∈ pre ++ post, e.Avoids ss k i)
    (hx : vals[i]? = some (.ptr (some x)))
    (hrun : ScanStruct h (pre ++ .mk k (.mapping m) :: post)
      (some (.ptr (.struct n all sc), .ptr (some (.struct vals)))) c = .ok r)
    (hok : r.err = none) :
    ∃ d1 x1, r.dest = some (.ptr (.struct n all sc), .ptr (some d1)) ∧
      d1.field i = some (.ptr (some x1)) ∧
      ∀ c1 : Cache, c1.Sound →
        ∃ r1, ScanStruct h m (some (.ptr st, .ptr (some x))) c1 = .ok r1 ∧
          r1.dest = some (.ptr st, .ptr (some x1)) := by
  obtain ⟨ss, c1, rl, hss, hl, hr⟩ := (ScanStruct_valid_ok h _ n all sc _ c r).mp hrun
  have hav := hothers ss c1 hss
  have hc1 := (structSpecForType_step c _ ss c1 hc hss).1
  rw [hr] at hok
  simp only [] at hok
  rw [scanEntries_append] at hl
  cases hp : scanEntries h ss (.struct n all sc) pre (.struct vals) c1 with
  | error p => rw [hp] at hl; cases hl
  | ok rp =>
    rw [hp] at hl
    simp only [] at hl
    have hfp := scanEntries_frame h ss n all sc hnames k i f hf htag pre
      (fun e he => hav e (List.mem_append_left _ he)) _ _ rp hp
    have hcp := ((scan_agree_all h (.mapping pre)).2 pre rfl ss _ _ c1 c1 rp hc1 hc1 hp).1
    cases hperr : rp.err with
    | some e =>
      rw [hperr] at hl
      simp only [Except.ok.injEq] at hl
      rw [← hl, hperr] at hok
      cases hok
    | none =>
      rw [hperr] at hl
      simp only [] at hl
      rw [scanEntries, scanEntry] at hl
      cases hd : rp.d with
      | struct valsP =>
        rw [hd, scanValue_mapping] at hl
        rw [hd] at hfp
        simp only [Val.field] at hfp
        cases hn : scanNested (fun dest c1 => ScanStruct h m dest c1)
            (Ty.struct n all sc).fields k (Ty.struct n all sc).fields valsP rp.cache with
        | error p => rw [hn] at hl; cases hl
        | ok rn =>
          obtain ⟨vals2, c2⟩ := rn
          rw [hn] at hl
          simp only [] at hl
          have hfq := scanEntries_frame h ss n all sc hnames k i f hf htag post
            (fun e he => hav e (List.mem_append_right _ he)) _ _ rl hl
          have hfq1 : rl.d.field i = vals2[i]? := hfq
          obtain ⟨c3, r1, hc3, h1, h2⟩ := scanNested_target_sound
            (fun dest c1 => ScanStruct h m dest c1) (fun dest => ScanStruct_agree h m dest)
            all hnames k i f st hf hexp hty htag
            valsP _ (hfp.trans hx) rp.cache hcp vals2 c2 hn
          obtain ⟨x1, hx1⟩ := scanInto_dest _ st x c3 r1 h1
          refine ⟨rl.d, x1, by rw [hr], ?_, fun c4 hc4 => ?_⟩
          · rw [hfq1, h2, hx1, fieldWriteBack_ptr]
          · obtain ⟨_, r2, hr2, hd2, _⟩ := ScanStruct_agree h m _ c3 c4 r1 hc3 hc4 h1
            exact ⟨r2, hr2, by rw [hd2, hx1]⟩
      | _ =>
        rw [hd, scanValue] at hl
        · cases hl
        · intro vals0 hv0
          cases hv0

theorem ScanStruct_nested_in_place_witness :
    ∃ x1, (Val.struct
          [.ptr (some (.struct [.int 119, .ptr (some (.struct [.int 1, .int 2]))])),
            .int 110]).field 0 = some (.ptr (some x1)) ∧
      ∀ c1 : Cache, c1.Sound →
        ∃ r1, ScanStruct plainHost srcAreaInner
            (some (.ptr tyArea,
              .ptr (some (.struct [.int 0, .ptr (some (.struct [.int 0, .int 0]))])))) c1 =
            .ok r1 ∧
          r1.dest = some (.ptr tyArea, .ptr (some x1)) := by
  have hrun : ∃ r, ScanStruct plainHost srcAreaAndId
      (some (.ptr tyUserInfo, .ptr (some userAllocated))) Cache.empty = .ok r ∧ r.err = none ∧
      r.dest = some (.ptr tyUserInfo, .ptr (some (.struct
        [.ptr (some (.struct [.int 119, .ptr (some (.struct [.int 1, .int 2]))])),
          .int 110]))) :=
    ⟨_, rfl, rfl, rfl⟩
  obtain ⟨r, hr, hok, hdest⟩ := hrun
  obtain ⟨d1, x1, hd1, hfield, hall⟩ := ScanStruct_nested_in_place plainHost "UserInfo"
    [plainField "Area" "area" (.ptr tyArea), plainField "UserID" "id" (.int .Int64 none)] none
    [.ptr (some (.struct [.int 0, .ptr (some (.struct [.int 0, .int 0]))])), .int 0]
    0 (plainField "Area" "area" (.ptr tyArea)) tyArea "area" srcAreaInner []
    [.mk "id" (.text (ascii "110"))] Cache.empty r
    (.struct [.int 0, .ptr (some (.struct [.int 0, .int 0]))])
    (by decide) rfl rfl rfl rfl Cache.empty_sound
    (by
      intro ss c1 hss e he
      have h2 : (structSpecForType Cache.empty tyUserInfo).toOption.map (fun p => p.1.m "id") =
          some (some ⟨"id", [1], false⟩) := rfl
      rw [show structSpecForType Cache.empty tyUserInfo = .ok (ss, c1) from hss] at h2
      simp only [Except.toOption, Option.map_some', Option.some.injEq] at h2
      simp only [List.nil_append, List.mem_singleton] at he
      subst he
      refine ⟨by decide, fun _ fs hfs => ⟨1, [], ?_, by decide⟩⟩
      have hfs1 : ss.m "id" = some fs := hfs
      rw [h2] at hfs1
      rw [← Option.some.inj hfs1])
    rfl hr hok
  rw [hd1] at hdest
  simp only [Option.some.injEq, Prod.mk.injEq, Val.ptr.injEq, true_and] at hdest
  rw [hdest.2] at hfield
  exact ⟨x1, hfield, hall⟩

/-- C6 as stated fails: a field `S Scanner` has a type that implements the
decoder, and here it holds a `*Stamp`, yet coercing a text into it calls no
`Scan` method and fails with `cannotConvert`, and coercing `Nil` resets the
interface; the same `*Stamp` held by a field of type `*Stamp` is asked
once. -/
theorem interface_field_is_never_asked :
    convertAssignValue textHost (plainField "S" "s" tyScanner) tyScanner
        (.iface (some (.ptr tyStamp, .ptr (some (.string (ascii "old"))))))
        (.text (ascii "new")) =
      .ok ⟨.iface (some (.ptr tyStamp, .ptr (some (.string (ascii "old"))))),
        some (.cannotConvert "simple string"), []⟩ ∧
    convertAssignValue textHost (plainField "S" "s" tyScanner) tyScanner
        (.iface (some (.ptr tyStamp, .ptr (some (.string (ascii "old")))))) .nil =
      .ok ⟨.iface none, none, []⟩ ∧
    convertAssignValue textHost (plainField "S" "s" (.ptr tyStamp)) (.ptr tyStamp)
        (.ptr (some (.string (ascii "old")))) (.text (ascii "new")) =
      .ok ⟨.ptr (some (.string (ascii "new"))), none,
        [⟨0, .string (ascii "old"), .text (ascii "new"), [("scan", "s")]⟩]⟩ := by
  exact ⟨rfl, rfl, rfl⟩

end Scan
